import Mathlib

/-!
# schema-model: a verification development

A shallow embedding of `src/schema-model.js` (the `SchemaModel` class of
Chialab/schema-model and the private helpers of its module) and theorems about it.

## How the JavaScript is modelled

* JavaScript values are the trees of `Val`.  Objects are association lists in
  insertion order (the order `Object.keys` reports); a JavaScript object never has two
  equal own keys, which is the `Nodup` side condition of several theorems.  Only own
  properties of plain objects are modelled; the module reads them under their own keys
  or under fixed names that no prototype has.  The members a model instance inherits (the
  methods of `SchemaModel` and of `Object.prototype`) are modelled, because `get` reads
  through them (`instanceMembers`), and so are the members the cache object of `getSymbol`
  inherits, which decide the internal key of their names (`inheritedMembers`); an
  inherited function is a value `func`.  The accessor `__proto__`, whose assignment
  replaces the prototype of an object, is outside the model: property names are assumed
  to differ from `__proto__`.  Numbers are carried around by the program and never computed with;
  they are integers here and the only thing read from them is their truthiness.
* Values are trees: no aliasing and no cycles.  Strict (in)equality of two containers,
  which JavaScript decides by reference, only guards a redundant write in `set`; see there.
* Recursion is bounded by `fuel`, the number of nested calls still allowed: each call of
  a recursive function passes one unit less to the calls it makes, and `Err.outOfFuel` is
  what JavaScript reports as a stack overflow.  Theorems that say a function returns are
  stated for every sufficiently large fuel.
* A statement that throws is `Except.error`; mutation of `this` is explicit state passing.
* The validator `tv4` is an external library.  Its `validateResult` is a parameter
  (`Env.validateResult`), which returns a validation result or throws (as `tv4` does on a
  schema it cannot use, such as one with an invalid `pattern`); its schema registry is
  modelled from the interface the specification describes (`Registry`).
-/

namespace SchemaModelJs

/-! ## Values -/

/-- A property key of a model instance: a plain string, or the symbol that `getSymbol`
derives from a property name. -/
inductive Key where
  | str (s : String)
  | sym (name : String)
  deriving DecidableEq, Repr

/-- JavaScript values as far as the module handles them.  `func name` is the function
that an instance inherits under `name` (for the module it is an opaque value: `typeof` is
not `'object'`, `Object.keys` gives nothing).  `model schema store` is an instance of a
`SchemaModel` class: `schema` is what the class's static `schema` getter returns (`none`
for the base class, whose getter throws) and `store` holds the instance's own
properties. -/
inductive Val where
  | undefined
  | null
  | bool (b : Bool)
  | num (n : Int)
  | str (s : String)
  | func (name : String)
  | date (t : Int)
  | arr (xs : List Val)
  | obj (kvs : List (String × Val))
  | model (schema : Option Val) (store : List (Key × Val))
  deriving Repr

/-- What a call can throw.  `error msg` is an `Error` with that message (`new Error(msg)`
in the module, or what the validator throws); `typeError` is the
`TypeError` of reading a property of `undefined`/`null` or of calling a missing method;
`outOfFuel` is the call-depth bound; `notModelled` marks a write that leaves the value
model (a named or sparse property on an array, a property on a date or a function). -/
inductive Err where
  | error (message : String)
  | typeError
  | outOfFuel
  | notModelled
  deriving DecidableEq, Repr

/-- First value stored under `k`. -/
def assocGet {κ α : Type} [DecidableEq κ] (k : κ) : List (κ × α) → Option α
  | [] => none
  | (k', v) :: rest => if k' = k then some v else assocGet k rest

/-- Assignment `o[k] = v` on an association list: an existing key keeps its place, a new
key goes to the end. -/
def assocSet {κ α : Type} [DecidableEq κ] (k : κ) (v : α) : List (κ × α) → List (κ × α)
  | [] => [(k, v)]
  | (k', v') :: rest => if k' = k then (k', v) :: rest else (k', v') :: assocSet k v rest

/-- JavaScript truthiness. -/
def truthy : Val → Bool
  | .undefined => false
  | .null => false
  | .bool b => b
  | .num n => n != 0
  | .str s => s != ""
  | _ => true

/-- The test `val === undefined`. -/
def isUndefined : Val → Bool
  | .undefined => true
  | _ => false

/-- The test `val === undefined || val === null`. -/
def isNullish : Val → Bool
  | .undefined => true
  | .null => true
  | _ => false

/-- The index of an array of length `n` that the property key `k` names, if any. -/
def arrIndex (n : Nat) (k : String) : Option Nat :=
  (List.range n).find? (fun i => toString i == k)

/-- The string keys among the keys of an instance's store. -/
def storeKeys : List (Key × Val) → List String
  | [] => []
  | (.str s, _) :: rest => s :: storeKeys rest
  | (.sym _, _) :: rest => storeKeys rest

/-- `Object.keys(v)` for a `v` that is not `undefined`/`null`. -/
def objectKeys : Val → List String
  | .obj kvs => kvs.map Prod.fst
  | .arr xs => (List.range xs.length).map toString
  | .str s => (List.range s.length).map toString
  | .model _ store => storeKeys store
  | _ => []

/-- `Object.keys(v)`, which throws on `undefined` and `null`. -/
def objectKeysE (v : Val) : Except Err (List String) :=
  if isNullish v then .error .typeError else .ok (objectKeys v)

/-- The members a model instance inherits: `constructor` and the methods of
`SchemaModel.prototype`, then the methods of `Object.prototype`. -/
def instanceMembers : List (String × Val) :=
  [("constructor", .func "constructor"), ("get", .func "get"), ("set", .func "set"),
    ("validate", .func "validate"), ("toJSON", .func "toJSON"),
    ("__defineGetter__", .func "__defineGetter__"),
    ("__defineSetter__", .func "__defineSetter__"),
    ("hasOwnProperty", .func "hasOwnProperty"),
    ("__lookupGetter__", .func "__lookupGetter__"),
    ("__lookupSetter__", .func "__lookupSetter__"),
    ("isPrototypeOf", .func "isPrototypeOf"),
    ("propertyIsEnumerable", .func "propertyIsEnumerable"),
    ("toString", .func "toString"), ("valueOf", .func "valueOf"),
    ("toLocaleString", .func "toLocaleString")]

/-- The read `scope[k]` on a model instance: the own property under the key, otherwise
the member inherited under that name, otherwise `undefined`. -/
def readKey (scope : List (Key × Val)) (k : Key) : Val :=
  match assocGet k scope with
  | some v => v
  | none =>
    match k with
    | .str s => (assocGet s instanceMembers).getD .undefined
    | .sym _ => .undefined

/-- The read `v[k]` for a `v` that is not `undefined`/`null`. -/
def getProp (v : Val) (k : String) : Val :=
  match v with
  | .obj kvs => (assocGet k kvs).getD .undefined
  | .arr xs =>
    match arrIndex xs.length k with
    | some i => xs.getD i .undefined
    | none => if k = "length" then .num xs.length else .undefined
  | .str s =>
    match arrIndex s.length k with
    | some i => .str (String.singleton (s.data.getD i ' '))
    | none => if k = "length" then .num s.length else .undefined
  | .model _ store => readKey store (.str k)
  | _ => .undefined

/-- The read `v.k`, which throws on `undefined` and `null`. -/
def readProp (v : Val) (k : String) : Except Err Val :=
  if isNullish v then .error .typeError else .ok (getProp v k)

/-- The assignment `res[k] = v`, returning the updated `res`. -/
def setProp (res : Val) (k : String) (v : Val) : Except Err Val :=
  match res with
  | .obj kvs => .ok (.obj (assocSet k v kvs))
  | .arr xs =>
    match arrIndex (xs.length + 1) k with
    | some i => if i < xs.length then .ok (.arr (xs.set i v)) else .ok (.arr (xs ++ [v]))
    | none => .error .notModelled
  | .model schema store => .ok (.model schema (assocSet (Key.str k) v store))
  | .date _ => .error .notModelled
  | .func _ => .error .notModelled
  | _ => .error .typeError

/-! ## The private helpers of the module -/

/-- Source: `isObject`. -/
def isObject : Val → Bool
  | .date _ => true
  | .arr _ => true
  | .obj _ => true
  | .model _ _ => true
  | _ => false

/-- The `callback(scope, key, prop)` argument of `clone`. -/
abbrev Callback := Val → String → Val → Except Err Val

/-- The default callback of `clone`: `function(scope, key, prop) { return prop; }`. -/
def idCallback : Callback := fun _ _ prop => .ok prop

/-- Source: `clone(obj, callback)`. -/
def clone : Nat → Val → Option Callback → Except Err Val
  | 0, _, _ => .error .outOfFuel
  | fuel + 1, obj, callback =>
    let callback : Callback := callback.getD idCallback
    match obj with
    | .arr xs => do
      let ys ← (List.enum xs).mapM (fun (p : Nat × Val) => do
        let entry ← callback obj (toString p.1) p.2
        if isObject entry then clone fuel entry (some callback) else pure entry)
      pure (.arr ys)
    | .date t => pure (.date t)
    | _ => do
      let keys ← objectKeysE obj
      keys.foldlM (fun res k => do
        let val ← callback obj k (getProp obj k)
        if isObject val then do
          let c ← clone fuel val (some callback)
          setProp res k c
        else
          setProp res k val) (.obj [])

/-- Source: `merge(obj1, obj2)`. -/
def merge : Nat → Val → Val → Except Err Val
  | 0, _, _ => .error .outOfFuel
  | fuel + 1, obj1, obj2 => do
    let res ← clone fuel obj1 none
    let keys ← objectKeysE obj2
    keys.foldlM (fun res key =>
      if isObject (getProp obj2 key) then
        if isObject (getProp res key) then do
          let m ← merge fuel (getProp res key) (getProp obj2 key)
          setProp res key m
        else
          setProp res key (getProp obj2 key)
      else
        setProp res key (getProp obj2 key)) res

/-- The members that the cache object `{}` of `getSymbol` inherits from
`Object.prototype`, each with the string its value converts to when it is used as a
property key (a native function as V8 prints it). -/
def inheritedMembers : List (String × String) :=
  [("constructor", "function Object() \x7b [native code] \x7d"),
    ("__defineGetter__", "function __defineGetter__() \x7b [native code] \x7d"),
    ("__defineSetter__", "function __defineSetter__() \x7b [native code] \x7d"),
    ("hasOwnProperty", "function hasOwnProperty() \x7b [native code] \x7d"),
    ("__lookupGetter__", "function __lookupGetter__() \x7b [native code] \x7d"),
    ("__lookupSetter__", "function __lookupSetter__() \x7b [native code] \x7d"),
    ("isPrototypeOf", "function isPrototypeOf() \x7b [native code] \x7d"),
    ("propertyIsEnumerable", "function propertyIsEnumerable() \x7b [native code] \x7d"),
    ("toString", "function toString() \x7b [native code] \x7d"),
    ("valueOf", "function valueOf() \x7b [native code] \x7d"),
    ("__proto__", "[object Object]"),
    ("toLocaleString", "function toLocaleString() \x7b [native code] \x7d")]

/-- Source: `getSymbol(name)`.  For a name the cache object inherits, `cache[name]` is
truthy from the start and is what the function returns; used as a property key it is its
string.  For any other name the cache makes the key of a name the same on every call
(`getSymbolCached` below keeps the cache explicit), so the key is a function of the name:
the symbol made for it, or the string `__name` without `Symbol` support. -/
def getSymbol (hasSymbol : Bool) (name : String) : Key :=
  match assocGet name inheritedMembers with
  | some text => .str text
  | none => if hasSymbol then .sym name else .str ("__" ++ name)

/-- Source: `get(scope, k, internal)`. -/
def get (hasSymbol : Bool) (scope : List (Key × Val)) (k : String) (internal : Bool) : Val :=
  let k : Key := if internal then getSymbol hasSymbol k else .str k
  readKey scope k

/-- The test `a !== b` as far as it matters to `set`: two primitives differ when their
values do, two inherited functions when their names do; two containers are compared by
reference, which the value model does not see, and are reported as different, so that the
write happens (writing a reference over itself changes nothing). -/
def strictNe : Val → Val → Bool
  | .undefined, .undefined => false
  | .null, .null => false
  | .bool a, .bool b => a != b
  | .num a, .num b => a != b
  | .str a, .str b => a != b
  | .func a, .func b => a != b
  | _, _ => true

/-- Source: `set(scope, data, internal)`. -/
def set (hasSymbol : Bool) (scope : List (Key × Val)) (data : Val) (internal : Bool) :
    List (Key × Val) :=
  (objectKeys data).foldl (fun scope ok =>
    let k : Key := if internal then getSymbol hasSymbol ok else .str ok
    if strictNe (readKey scope k) (getProp data ok) then
      assocSet k (getProp data ok) scope
    else
      scope) scope

/-! ## The validator's registry -/

/-- Modelled from the spec: the schema registry of the validator (`tv4.freshApi()`,
`addSchema`, `getSchema`), an external library that is not part of the sources.
`addSchema(id, schema)` stores the schema under the identifier and `getSchema(id)` returns
what was last stored under exactly that identifier, `undefined` if nothing was. -/
structure Registry where
  schemas : List (String × Val)
  deriving Repr

/-- Modelled from the spec: `tv4.freshApi()`, a registry with no schema. -/
def Registry.fresh : Registry := ⟨[]⟩

/-- Modelled from the spec: `validator.addSchema(id, schema)`. -/
def Registry.addSchema (r : Registry) (id : String) (schema : Val) : Registry :=
  ⟨(id, schema) :: r.schemas⟩

/-- Modelled from the spec: `validator.getSchema(ref)`. -/
def Registry.getSchema (r : Registry) (ref : Val) : Val :=
  match ref with
  | .str id => (assocGet id r.schemas).getD .undefined
  | _ => .undefined

/-- Source: `getProperties(schema, validator)`.  The registry is mutated by the calls, so
it is returned next to the property map. -/
def getProperties : Nat → Val → Option Registry → Except Err (Val × Registry)
  | 0, _, _ => .error .outOfFuel
  | fuel + 1, schema, validator => do
    let root := validator.isNone
    let validator : Registry :=
      match validator with
      | some v => v
      | none => Registry.fresh.addSchema "" schema
    let definitions ← readProp schema "definitions"
    let validator : Registry :=
      if truthy definitions then
        (objectKeys definitions).foldl
          (fun v k => v.addSchema ("#/definitions/" ++ k) (getProp definitions k)) validator
      else validator
    let ref ← readProp schema "$ref"
    let schema := if truthy ref then validator.getSchema ref else schema
    let properties ← readProp schema "properties"
    if truthy properties then do
      let res ← clone fuel properties none
      pure (res, validator)
    else
      let anyOf := getProp schema "anyOf"
      let allOf := getProp schema "allOf"
      let oneOf := getProp schema "oneOf"
      let defs :=
        if truthy anyOf then anyOf
        else if truthy allOf then allOf
        else if root then oneOf else .bool false
      if truthy defs then
        match defs with
        | .arr ds =>
          ds.foldlM (fun (acc : Val × Registry) d => do
            let r ← getProperties fuel d (some acc.2)
            let res ← merge fuel acc.1 r.1
            pure (res, r.2)) (.obj [], validator)
        | _ => .error .typeError
      else
        pure (.obj [], validator)

/-! ## The class `SchemaModel` -/

/-- The `error` member of a validation result. -/
structure ValidationError where
  message : String
  deriving DecidableEq, Repr

/-- What `tv4.validateResult` returns. -/
structure ValidationResult where
  valid : Bool
  error : Option ValidationError
  missing : List String
  deriving DecidableEq, Repr

/-- What the module takes from its surroundings: whether `Symbol` exists, and the
validator's `tv4.validateResult(data, schema)`, which returns a result or throws. -/
structure Env where
  hasSymbol : Bool
  validateResult : Val → Val → Except Err ValidationResult

/-- An instance of a model class: the class's schema (`none` for the base `SchemaModel`,
whose `schema` getter throws) and the instance's own properties. -/
structure Instance where
  schema : Option Val
  store : List (Key × Val)
  deriving Repr

/-- An instance as a value. -/
def Instance.toVal (i : Instance) : Val := .model i.schema i.store

/-- Source: `DEFAULT_OPTIONS`. -/
def DEFAULT_OPTIONS : Val := .obj [("validate", .bool true), ("internal", .bool false)]

/-- Source: the static getter `schema`; `SchemaModel.create(schema)` overrides it. -/
def SchemaModel.schema (this : Instance) : Except Err Val :=
  match this.schema with
  | some s => .ok s
  | none => .error (.error "Missing schema")

/-- Source: the static getter `schemaProperties`. -/
def SchemaModel.schemaProperties (fuel : Nat) (this : Instance) : Except Err Val := do
  let schema ← SchemaModel.schema this
  let r ← getProperties fuel schema none
  pure r.1

/-- Source: `SchemaModel.prototype.get(name, options)`. -/
def SchemaModel.get (env : Env) (fuel : Nat) (this : Instance) (name : String)
    (options : Val) : Except Err Val := do
  let options ← merge fuel DEFAULT_OPTIONS (if truthy options then options else .obj [])
  pure (SchemaModelJs.get env.hasSymbol this.store name (truthy (getProp options "internal")))

/-- Source: `SchemaModel.prototype.toJSON(stripUndefined)`. -/
def SchemaModel.toJSON (env : Env) : Nat → Instance → Bool → Except Err Val
  | 0, _, _ => .error .outOfFuel
  | fuel + 1, this, stripUndefined => do
    let props ← SchemaModel.schemaProperties fuel this
    let keys ← objectKeysE props
    let res ← keys.foldlM (fun res key => do
      let val ← SchemaModel.get env fuel this key .undefined
      if !stripUndefined || !isUndefined val then setProp res key val else pure res) (.obj [])
    clone fuel res (some (fun _ _ prop =>
      match prop with
      | .model schema store => SchemaModel.toJSON env fuel ⟨schema, store⟩ stripUndefined
      | _ => .ok prop))

/-- Source: `SchemaModel.prototype.validate(data)`. -/
def SchemaModel.validate (env : Env) (fuel : Nat) (this : Instance) (data : Val) :
    Except Err ValidationResult := do
  let data ← if truthy data then pure data else SchemaModel.toJSON env fuel this true
  let schema ← SchemaModel.schema this
  let res ← env.validateResult data schema
  pure (if res.valid && !res.missing.isEmpty then { res with valid := false } else res)

/-- The error thrown by `set` for a validation result that is not valid. -/
def validationFailure (res : ValidationResult) : Err :=
  match res.error with
  | some e =>
    if e.message != "" then .error e.message
    else if !res.missing.isEmpty then
      .error ("Missing $ref schemas: " ++ String.intercalate ", " res.missing)
    else .error "Validation failed"
  | none =>
    if !res.missing.isEmpty then
      .error ("Missing $ref schemas: " ++ String.intercalate ", " res.missing)
    else .error "Validation failed"

/-- The two call shapes of `set`: `set(name, value, options)` calls
`set({[name]: value}, options)`.  The result is the data object and the options
object of the object form, after `data = data || {}` and `value || {}`. -/
def setArgs (data value options : Val) : Val × Val :=
  let args : Val × Val :=
    match data with
    | .str name => (.obj [(name, value)], options)
    | _ => (data, value)
  (if truthy args.1 then args.1 else .obj [], if truthy args.2 then args.2 else .obj [])

/-- Source: `SchemaModel.prototype.set(data, value, options)`.  Returns the instance after
the call together with the outcome of the call. -/
def SchemaModel.set (env : Env) (fuel : Nat) (this : Instance) (data value options : Val) :
    Instance × Except Err Unit :=
  let args := setArgs data value options
  let data := args.1
  match merge fuel DEFAULT_OPTIONS args.2 with
  | .error e => (this, .error e)
  | .ok options =>
    if !truthy (getProp options "internal") && truthy (getProp options "validate") then
      let checked : Except Err ValidationResult := do
        let json ← SchemaModel.toJSON env fuel this true
        let dataToValidate ← merge fuel json data
        SchemaModel.validate env fuel this dataToValidate
      match checked with
      | .error e => (this, .error e)
      | .ok res =>
        if !res.valid then (this, .error (validationFailure res))
        else
          (⟨this.schema, SchemaModelJs.set env.hasSymbol this.store data
              (truthy (getProp options "internal"))⟩, .ok ())
    else
      (⟨this.schema, SchemaModelJs.set env.hasSymbol this.store data
          (truthy (getProp options "internal"))⟩, .ok ())

/-- Source: the constructor, `new K(data, options)` for the class whose schema is
`schema`. -/
def SchemaModel.new (env : Env) (fuel : Nat) (schema : Option Val) (data options : Val) :
    Instance × Except Err Unit :=
  let this : Instance := ⟨schema, []⟩
  if truthy data then SchemaModel.set env fuel this data options .undefined else (this, .ok ())




/-! ## Structural values -/

mutual
/-- Plain structured data: primitives, dates, arrays and objects (with pairwise different
keys) of plain structured data; no model instance anywhere. -/
def structural : Val → Bool
  | .arr xs => structuralList xs
  | .obj kvs => decide (kvs.map Prod.fst).Nodup && structuralFields kvs
  | .model _ _ => false
  | _ => true
/-- Every element is structural. -/
def structuralList : List Val → Bool
  | [] => true
  | x :: rest => structural x && structuralList rest
/-- Every field value is structural. -/
def structuralFields : List (String × Val) → Bool
  | [] => true
  | (_, x) :: rest => structural x && structuralFields rest
end

mutual
/-- Nesting depth of containers: `0` for a primitive, one more than the deepest member
for an array, an object or a model instance, `1` for a date. -/
def depth : Val → Nat
  | .arr xs => depthList xs + 1
  | .obj kvs => depthFields kvs + 1
  | .model _ store => depthStore store + 1
  | .date _ => 1
  | _ => 0
/-- Largest depth of an element. -/
def depthList : List Val → Nat
  | [] => 0
  | x :: rest => max (depth x) (depthList rest)
/-- Largest depth of a field value. -/
def depthFields : List (String × Val) → Nat
  | [] => 0
  | (_, x) :: rest => max (depth x) (depthFields rest)
/-- Largest depth of a stored value. -/
def depthStore : List (Key × Val) → Nat
  | [] => 0
  | (_, x) :: rest => max (depth x) (depthStore rest)
end

/-- The loop body `res[k] = g(res, k)`. -/
def assignWith (g : Val → String → Except Err Val) : Val → String → Except Err Val :=
  fun res k => g res k >>= setProp res k

/-- The value `clone` assigns to `res[k]`. -/
def cloneVal (fuel : Nat) (callback : Callback) (obj : Val) : Val → String → Except Err Val :=
  fun _ k => callback obj k (getProp obj k) >>= fun val =>
    if isObject val then clone fuel val (some callback) else .ok val

/-- The value `merge` assigns to `res[key]`. -/
def mergeVal (fuel : Nat) (obj2 : Val) : Val → String → Except Err Val :=
  fun res key =>
    if isObject (getProp obj2 key) then
      if isObject (getProp res key) then merge fuel (getProp res key) (getProp obj2 key)
      else .ok (getProp obj2 key)
    else .ok (getProp obj2 key)

/-- The element `clone` puts at an index of the copy of an array. -/
def cloneEntry (fuel : Nat) (callback : Callback) (obj : Val) : Nat × Val → Except Err Val :=
  fun p => callback obj (toString p.1) p.2 >>= fun entry =>
    if isObject entry then clone fuel entry (some callback) else .ok entry


mutual
/-- A plain object: an object with pairwise different keys whose values are primitives
or plain objects. -/
def plainObject : Val → Bool
  | .obj kvs => decide (kvs.map Prod.fst).Nodup && plainFields kvs
  | _ => false
/-- Every field value is a primitive or a plain object. -/
def plainFields : List (String × Val) → Bool
  | [] => true
  | (_, x) :: rest => (plainObject x || !isObject x) && plainFields rest
end

/-! ## Names for the parts of `getProperties` -/

/-- The registry after the first two statements of `getProperties`: a fresh one holding
the schema under the empty key when none was passed, then the members of
`schema.definitions` under `#/definitions/<name>`. -/
def registered (schema : Val) (validator : Option Registry) : Registry :=
  let validator : Registry :=
    match validator with
    | some v => v
    | none => Registry.fresh.addSchema "" schema
  if truthy (getProp schema "definitions") then
    (objectKeys (getProp schema "definitions")).foldl
      (fun v k => v.addSchema ("#/definitions/" ++ k) (getProp (getProp schema "definitions") k))
      validator
  else validator

/-- The branches `getProperties` folds: `schema.anyOf || schema.allOf || (root &&
schema.oneOf)`. -/
def compositionOf (root : Bool) (schema : Val) : Val :=
  if truthy (getProp schema "anyOf") then getProp schema "anyOf"
  else if truthy (getProp schema "allOf") then getProp schema "allOf"
  else if root then getProp schema "oneOf" else .bool false

/-- The body of the `forEach` of `getProperties`: `res = merge(res, getProperties(def,
validator))`, with the registry threaded. -/
def branchStep (fuel : Nat) : Val × Registry → Val → Except Err (Val × Registry) :=
  fun acc d => do
    let r ← getProperties fuel d (some acc.2)
    let res ← merge fuel acc.1 r.1
    pure (res, r.2)

/-- What `getProperties` does once `schema.$ref` has been followed: the clone of
`schema.properties`, or the fold over the branches. -/
def resolveFrom (fuel : Nat) (root : Bool) (schema : Val) (validator : Registry) :
    Except Err (Val × Registry) :=
  readProp schema "properties" >>= fun properties =>
    if truthy properties then
      clone fuel properties none >>= fun res => .ok (res, validator)
    else if truthy (compositionOf root schema) then
      match compositionOf root schema with
      | .arr ds => ds.foldlM (branchStep fuel) (.obj [], validator)
      | _ => .error .typeError
    else .ok (.obj [], validator)

/-- The property maps of the branches `bs`, each resolved with `getProperties` under the
registry the previous ones left. -/
def resolveBranches (fuel : Nat) : List Val → Registry → Except Err (List Val × Registry)
  | [], reg => .ok ([], reg)
  | b :: bs, reg =>
    getProperties fuel b (some reg) >>= fun r =>
      resolveBranches fuel bs r.2 >>= fun rs => .ok (r.1 :: rs.1, rs.2)

/-! ## Schemas used as examples -/

/-- The sub-schema `{type: 'string'}`. -/
def typeString : Val := .obj [("type", .str "string")]

/-- The sub-schema `{type: 'number'}`. -/
def typeNumber : Val := .obj [("type", .str "number")]

/-- The schema `{allOf: [{properties: {a: {type: 'string'}}}, {properties: {b: {type:
'number'}}}]}`. -/
def allOfSchema : Val :=
  .obj [("allOf", .arr [.obj [("properties", .obj [("a", typeString)])],
    .obj [("properties", .obj [("b", typeNumber)])]])]

/-- The schema `{$ref: '#/definitions/x', definitions: {x: {properties: {a: {type:
'string'}}}}}`. -/
def refSchema : Val :=
  .obj [("$ref", .str "#/definitions/x"),
    ("definitions", .obj [("x", .obj [("properties", .obj [("a", typeString)])])])]

/-- The definition `{oneOf: [{properties: {a: {type: 'string'}}}]}`. -/
def oneOfDefinition : Val :=
  .obj [("oneOf", .arr [.obj [("properties", .obj [("a", typeString)])]])]

/-- The schema `{$ref: '#/definitions/x', definitions: {x: {oneOf: [{properties: {a:
{type: 'string'}}}]}}}`. -/
def refOneOfSchema : Val :=
  .obj [("$ref", .str "#/definitions/x"), ("definitions", .obj [("x", oneOfDefinition)])]

/-- The class schema `{properties: {age: {type: 'number'}}}`. -/
def ageSchema : Val := .obj [("properties", .obj [("age", typeNumber)])]

/-- A validator for `ageSchema`: data is valid when `age` is a number or absent. -/
def ageValidator : Val → Val → ValidationResult :=
  fun data _ =>
    match getProp data "age" with
    | .num _ => ⟨true, none, []⟩
    | .undefined => ⟨true, none, []⟩
    | _ => ⟨false, some ⟨"Invalid type: string (expected number)"⟩, []⟩

/-- An environment with `Symbol` and the validator for `ageSchema`. -/
def ageEnv : Env := ⟨true, fun data schema => .ok (ageValidator data schema)⟩

/-- An environment whose validator accepts every data. -/
def acceptAll : Env := ⟨true, fun _ _ => .ok ⟨true, none, []⟩⟩

/-- The class schema `{$ref: '#/definitions/missing'}`, whose reference resolves to
nothing. -/
def danglingRefSchema : Val := .obj [("$ref", .str "#/definitions/missing")]

/-! ## Names for the parts of `toJSON` and of the instance's store -/

/-- The value of the public property `k` of an instance's store: what `this.get(k)`
returns. -/
def publicValue (store : List (Key × Val)) (k : String) : Val :=
  readKey store (.str k)

/-- The callback `toJSON` passes to `clone`: a model instance is replaced by its own
`toJSON(stripUndefined)`. -/
def jsonCallback (env : Env) (fuel : Nat) (stripUndefined : Bool) : Callback :=
  fun _ _ prop =>
    match prop with
    | .model schema store => SchemaModel.toJSON env fuel ⟨schema, store⟩ stripUndefined
    | _ => .ok prop

/-- The object `toJSON` builds before cloning it: the public values of the declared
names, without the undefined ones when `stripUndefined` is set. -/
def rawJSON (store : List (Key × Val)) (stripUndefined : Bool) (names : List String) :
    List (String × Val) :=
  names.filterMap (fun k =>
    if !stripUndefined || !isUndefined (publicValue store k) then some (k, publicValue store k)
    else none)

/-- The class schema `{properties: {p: {type: 'object', required: ['x']}}}`. -/
def nestedSchema : Val :=
  .obj [("properties", .obj [("p", .obj [("type", .str "object"),
    ("required", .arr [.str "x"])])])]

/-- A validator for `nestedSchema`: data is valid when `p` is absent or has a defined
`x`. -/
def nestedValidator : Val → Val → ValidationResult :=
  fun data _ =>
    if isUndefined (getProp data "p") then ⟨true, none, []⟩
    else if isUndefined (getProp (getProp data "p") "x") then
      ⟨false, some ⟨"Missing required property: x"⟩, []⟩
    else ⟨true, none, []⟩

/-- An environment with `Symbol` and the validator for `nestedSchema`. -/
def nestedEnv : Env := ⟨true, fun data schema => .ok (nestedValidator data schema)⟩

/-! ## Containers with identity

The values above are trees and cannot tell a container from an equal copy of it.  To
speak of which containers a call builds, a heap lists the containers by address. -/

/-- A value that is not a container: a primitive, or a function. -/
inductive Prim where
  | undefined
  | null
  | bool (b : Bool)
  | num (n : Int)
  | str (s : String)
  | func (name : String)
  deriving DecidableEq, Repr

/-- A primitive as a value. -/
def Prim.toVal : Prim → Val
  | .undefined => .undefined
  | .null => .null
  | .bool b => .bool b
  | .num n => .num n
  | .str s => .str s
  | .func name => .func name

/-- What an array element or an object property holds: a primitive, or the address of a
container of the heap. -/
inductive Slot where
  | prim (p : Prim)
  | ref (a : Nat)
  deriving DecidableEq, Repr

/-- A container of the heap. -/
inductive Cell where
  | arr (xs : List Slot)
  | date (t : Int)
  | obj (kvs : List (String × Slot))
  deriving DecidableEq, Repr

/-- The heap: the container at address `a` is the `a`-th cell. -/
abbrev Heap := List Cell

/-- What the members of a container hold. -/
def Cell.slots : Cell → List Slot
  | .arr xs => xs
  | .date _ => []
  | .obj kvs => kvs.map Prod.snd

/-- The slot holds no address below `base`. -/
def Slot.above (base : Nat) : Slot → Prop
  | .prim _ => True
  | .ref a => base ≤ a

/-- The tree a slot stands for: the heap unfolded from the slot, to depth `fuel`. -/
def reify : Nat → Heap → Slot → Except Err Val
  | _, _, .prim p => .ok p.toVal
  | 0, _, .ref _ => .error .outOfFuel
  | fuel + 1, heap, .ref a =>
    match heap[a]? with
    | none => .error .typeError
    | some (.date t) => .ok (.date t)
    | some (.arr xs) => xs.mapM (reify fuel heap) >>= fun vs => .ok (.arr vs)
    | some (.obj kvs) =>
      kvs.mapM (fun p => reify fuel heap p.2 >>= fun v => .ok (p.1, v)) >>= fun fs =>
        .ok (.obj fs)

/-- Source: `clone(obj)` with the default callback, on the heap: the copy of the container
at address `a`.  Every `Array.map`, `new Date` and `let res = {}` of the source enters a
new cell at the end of the heap; the cell is entered when it is complete (the source
creates `res` first and fills it, which nothing else can observe).  Returns the heap after
the call and the address of the copy. -/
def cloneAt : Nat → Heap → Nat → Except Err (Heap × Nat)
  | 0, _, _ => .error .outOfFuel
  | fuel + 1, heap, a =>
    match heap[a]? with
    | none => .error .typeError
    | some (.arr xs) => do
      let r ← xs.foldlM (fun (acc : Heap × List Slot) entry =>
        match entry with
        | .ref b => do
          let c ← cloneAt fuel acc.1 b
          pure (c.1, acc.2 ++ [.ref c.2])
        | .prim p => pure (acc.1, acc.2 ++ [.prim p])) (heap, [])
      pure (r.1 ++ [.arr r.2], r.1.length)
    | some (.date t) => pure (heap ++ [.date t], heap.length)
    | some (.obj kvs) => do
      let r ← (kvs.map Prod.fst).foldlM (fun (acc : Heap × List (String × Slot)) k =>
        match (assocGet k kvs).getD (.prim .undefined) with
        | .ref b => do
          let c ← cloneAt fuel acc.1 b
          pure (c.1, assocSet k (.ref c.2) acc.2)
        | .prim p => pure (acc.1, assocSet k (.prim p) acc.2)) (heap, [])
      pure (r.1 ++ [.obj r.2], r.1.length)

/-- The loop body of `cloneAt` on an array. -/
def cloneArrStep (fuel : Nat) : Heap × List Slot → Slot → Except Err (Heap × List Slot) :=
  fun acc entry =>
    match entry with
    | .ref b => do
      let c ← cloneAt fuel acc.1 b
      pure (c.1, acc.2 ++ [.ref c.2])
    | .prim p => pure (acc.1, acc.2 ++ [.prim p])

/-- The loop body of `cloneAt` on an object. -/
def cloneObjStep (fuel : Nat) (kvs : List (String × Slot)) :
    Heap × List (String × Slot) → String → Except Err (Heap × List (String × Slot)) :=
  fun acc k =>
    match (assocGet k kvs).getD (.prim .undefined) with
    | .ref b => do
      let c ← cloneAt fuel acc.1 b
      pure (c.1, assocSet k (.ref c.2) acc.2)
    | .prim p => pure (acc.1, assocSet k (.prim p) acc.2)

/-- The tree of a field of an object cell. -/
def reifyField (fuel : Nat) (heap : Heap) : String × Slot → Except Err (String × Val) :=
  fun p => reify fuel heap p.2 >>= fun v => .ok (p.1, v)

/-- The cells `ext` were entered above `base` and hold no address below it: none of them
is, or shares a container with, one of the first `base` cells. -/
def freshAbove (base : Nat) (ext : List Cell) : Prop :=
  ∀ c ∈ ext, ∀ s ∈ c.slots, s.above base

/-- What `cloneAt` is shown to do, for trees of depth up to `n`: the copy of the container
at `b` is entered above the heap given, with all the containers it reaches, and unfolds to
the same tree. -/
def ClonesFresh (n fuel : Nat) : Prop :=
  ∀ (heap : Heap) (b : Nat) (w : Val), reify n heap (.ref b) = .ok w → structural w = true →
    ∃ ext r, cloneAt fuel heap b = .ok (heap ++ ext, r) ∧ freshAbove heap.length ext ∧
      heap.length ≤ r ∧ r < (heap ++ ext).length ∧ reify n (heap ++ ext) (.ref r) = .ok w

/-- A heap holding `{p: [1, {a: undefined}], d: <date>}` at address 3. -/
def exampleHeap : Heap :=
  [.obj [("a", .prim .undefined)], .arr [.prim (.num 1), .ref 0], .date 7,
    .obj [("p", .ref 1), ("d", .ref 2)]]

/-- The class schema `{properties: {name: {type: 'string'}}}`. -/
def nameSchema : Val := .obj [("properties", .obj [("name", typeString)])]

/-- A validator for `nameSchema`: data is valid when `name` is a string or absent. -/
def nameValidator : Val → Val → ValidationResult :=
  fun data _ =>
    match getProp data "name" with
    | .str _ => ⟨true, none, []⟩
    | .undefined => ⟨true, none, []⟩
    | _ => ⟨false, some ⟨"Invalid type (expected string)"⟩, []⟩

/-- An environment with `Symbol` and the validator for `nameSchema`. -/
def nameEnv : Env := ⟨true, fun data schema => .ok (nameValidator data schema)⟩

/-- An environment without `Symbol`, whose validator accepts every data. -/
def noSymbolEnv : Env := ⟨false, fun _ _ => .ok ⟨true, none, []⟩⟩

/-- The key under which the private `get` and `set` keep the property `k`. -/
def storageKey (hasSymbol : Bool) (internal : Bool) (k : String) : Key :=
  if internal then getSymbol hasSymbol k else .str k

/-- The class schema `{properties: {name: {type: 'string'}, age: {type: 'number'}}}`. -/
def personSchema : Val :=
  .obj [("properties", .obj [("name", typeString), ("age", typeNumber)])]

/-- An instance of the class bound to `personSchema` that holds `name = 'a'`, no `age`,
and a key `extra` that the schema does not declare. -/
def personInstance : Instance :=
  ⟨some personSchema, [(.str "name", .str "a"), (.str "extra", .num 1)]⟩

/-- The schema `{anyOf: [{properties: {a: {type: 'string'}}}], allOf: [{properties: {b:
{type: 'number'}}}]}`, which has both composition keywords. -/
def anyOfAllOfSchema : Val :=
  .obj [("anyOf", .arr [.obj [("properties", .obj [("a", typeString)])]]),
    ("allOf", .arr [.obj [("properties", .obj [("b", typeNumber)])]])]

/-- The schema `{properties: {a: {type: 'string'}}, allOf: [{properties: {b: {type:
'number'}}}]}`, which has its own properties next to a composition keyword. -/
def propertiesAllOfSchema : Val :=
  .obj [("properties", .obj [("a", typeString)]),
    ("allOf", .arr [.obj [("properties", .obj [("b", typeNumber)])]])]

/-- The class schema `{properties: {child: {}, list: {}, box: {}}}`. -/
def outerSchema : Val :=
  .obj [("properties", .obj [("child", .obj []), ("list", .obj []), ("box", .obj [])])]

/-- The instance of the class bound to `nameSchema` that holds `name = 'a'`, as a value. -/
def innerModel : Val := .model (some nameSchema) [(.str "name", .str "a")]

/-- An instance of the class bound to `outerSchema` that holds `innerModel` directly
(`child`), as an element of an array (`list`) and as a field of a plain object (`box`). -/
def outerInstance : Instance :=
  ⟨some outerSchema, [(.str "child", innerModel), (.str "list", .arr [innerModel]),
    (.str "box", .obj [("q", innerModel)])]⟩

/-! ## The cache of `getSymbol`, explicit -/

/-- A key as `getSymbol` returns it, with the identity of a symbol: `sym serial
description` is the `serial`-th symbol the module made, `text s` is a string. -/
inductive CachedKey where
  | sym (serial : Nat) (description : String)
  | text (s : String)
  deriving DecidableEq, Repr

/-- The state of `getSymbol`: the own entries of `getSymbol.cache` and the number of
symbols made so far. -/
structure SymbolCache where
  entries : List (String × CachedKey)
  made : Nat

/-- The cache when the module is loaded: `getSymbol.cache = {}`. -/
def SymbolCache.empty : SymbolCache := ⟨[], 0⟩

/-- Source: `getSymbol(name)` with the cache as explicit state: an inherited member or an
own entry of the cache is returned as it is, otherwise `Symbol(name)` (a new symbol) or
the string `__name` is stored under the name and returned. -/
def getSymbolCached (hasSymbol : Bool) (cache : SymbolCache) (name : String) :
    CachedKey × SymbolCache :=
  match assocGet name inheritedMembers with
  | some text => (.text text, cache)
  | none =>
    match assocGet name cache.entries with
    | some k => (k, cache)
    | none =>
      if hasSymbol then
        (.sym cache.made name,
          ⟨assocSet name (.sym cache.made name) cache.entries, cache.made + 1⟩)
      else
        (.text ("__" ++ name), ⟨assocSet name (.text ("__" ++ name)) cache.entries, cache.made⟩)

/-- The cache after the calls `getSymbol(n)` for the names of a list, in order. -/
def getSymbolCalls (hasSymbol : Bool) : SymbolCache → List String → SymbolCache
  | cache, [] => cache
  | cache, n :: ns => getSymbolCalls hasSymbol (getSymbolCached hasSymbol cache n).2 ns

/-- The key of the value model for a key of the cache: a symbol is named by its
description. -/
def CachedKey.toKey : CachedKey → Key
  | .sym _ description => .sym description
  | .text s => .str s

/-- The class schema `{properties: {__a: {}}}`, whose property name starts with two
underscores. -/
def underscoreSchema : Val := .obj [("properties", .obj [("__a", .obj [])])]

/-- The options `{internal: true}`. -/
def internalOptions : Val := .obj [("internal", .bool true)]

/-- The class schema `{properties: {tags: {type: 'array'}}}`. -/
def tagsSchema : Val :=
  .obj [("properties", .obj [("tags", .obj [("type", .str "array")])])]

/-- An instance of the class bound to `tagsSchema` that holds `tags = ['a', 'b']`. -/
def tagsInstance : Instance :=
  ⟨some tagsSchema, [(.str "tags", .arr [.str "a", .str "b"])]⟩

/-- The schema `{$ref: '#/definitions/n'}`. -/
def selfRef : Val := .obj [("$ref", .str "#/definitions/n")]

/-- The definition `{allOf: [{$ref: '#/definitions/n'}]}`, which refers to itself. -/
def selfDefinition : Val := .obj [("allOf", .arr [selfRef])]

/-- The schema `{$ref: '#/definitions/n', definitions: {n: {allOf: [{$ref:
'#/definitions/n'}]}}}`. -/
def cyclicSchema : Val :=
  .obj [("$ref", .str "#/definitions/n"), ("definitions", .obj [("n", selfDefinition)])]

/-- The members of the lists under `anyOf`, `allOf` and `oneOf` of a schema: the schemas
`getProperties` may be called on from the call on the schema. -/
def branchesOf (schema : Val) : List Val :=
  ["anyOf", "allOf", "oneOf"].flatMap (fun k =>
    match getProp schema k with
    | .arr ds => ds
    | _ => [])

/-- The schema `getProperties` goes on with after the statement `if (schema.$ref) schema =
validator.getSchema(schema.$ref)`, the definitions of the schema being registered. -/
def followRef (schema : Val) (validator : Option Registry) : Val :=
  if truthy (getProp schema "$ref") then
    (registered schema validator).getSchema (getProp schema "$ref")
  else schema

/-- The calls of `getProperties`, without the property maps: the registry the call on
`schema` leaves when no chain of nested calls from it is longer than `n`, and `none` when
one is.  It follows the source as far as the calls go: the definitions of the schema are
registered and its `$ref` is followed once; a schema with `properties` makes no call;
otherwise the resolver is called on the members of the list that is folded, in order, each
under the registry the call before it left. -/
def callsWithin : Nat → Val → Option Registry → Option Registry
  | 0, _, _ => none
  | n + 1, schema, validator =>
    if truthy (getProp (followRef schema validator) "properties") then
      some (registered schema validator)
    else
      match compositionOf validator.isNone (followRef schema validator) with
      | .arr ds =>
        ds.foldlM (fun reg d => callsWithin n d (some reg)) (registered schema validator)
      | _ => some (registered schema validator)

/-- Every schema the registry holds is at most `d` deep. -/
def Registry.depthAtMost (reg : Registry) (d : Nat) : Prop :=
  ∀ p ∈ reg.schemas, depth p.2 ≤ d

/-- The schema `{allOf: [{$ref: '#/definitions/a'}], definitions: {a: {properties: {x:
{}}}}}`, whose branch refers to a definition that refers to nothing. -/
def branchRefSchema : Val :=
  .obj [("allOf", .arr [.obj [("$ref", .str "#/definitions/a")]]),
    ("definitions", .obj [("a", .obj [("properties", .obj [("x", .obj [])])])])]

/-! ## Further names and examples for the class -/

/-- The result `validate` returns for the validator's result `res`: `valid` is turned to
false when unresolved references are listed. -/
def checkedResult (res : ValidationResult) : ValidationResult :=
  if res.valid && !res.missing.isEmpty then { res with valid := false } else res

/-- The class schema `{properties: {a: {type: 'string', pattern: '['}}}`, whose pattern is
no regular expression. -/
def patternSchema : Val :=
  .obj [("properties", .obj [("a", .obj [("type", .str "string"), ("pattern", .str "[")])])]

/-- An environment whose validator throws on every call, as `tv4.validateResult` does on
`patternSchema` when it compiles the pattern. -/
def throwingEnv : Env :=
  ⟨true, fun _ _ =>
    .error (.error "Invalid regular expression: /[/: Unterminated character class")⟩

/-- The class schema `{properties: {get: {}}}`, whose property has the name of a method. -/
def getterSchema : Val := .obj [("properties", .obj [("get", .obj [])])]

/-- The value `toJSON` puts in the place of a public value `v`: what the callback makes
of it (the serialization of a model instance, the value itself otherwise), cloned when it
is a container. -/
def serializeValue (env : Env) (fuel : Nat) (stripUndefined : Bool) (v : Val) :
    Except Err Val :=
  jsonCallback env (fuel + 1) stripUndefined .undefined "" v >>= fun val =>
    if isObject val then clone fuel val (some (jsonCallback env (fuel + 1) stripUndefined))
    else .ok val

/-- The class schema `{properties: {name: {type: 'string'}, child: {type: 'object'}}}`. -/
def familySchema : Val :=
  .obj [("properties", .obj [("name", typeString), ("child", .obj [("type", .str "object")])])]

/-- An instance of the class bound to `familySchema` that holds the model `{name: 'a'}`
under `child` and nothing under `name`. -/
def familyInstance : Instance := ⟨some familySchema, [(.str "child", innerModel)]⟩

/-- The class schema `{properties: {a: {type: 'string'}}, required: ['b']}`, which requires
a property it does not declare. -/
def requiredSchema : Val :=
  .obj [("properties", .obj [("a", typeString)]), ("required", .arr [.str "b"])]

/-- A validator for `requiredSchema`: data is valid when it has a defined `b`. -/
def requiredValidator : Val → Val → ValidationResult :=
  fun data _ =>
    if isUndefined (getProp data "b") then ⟨false, some ⟨"Missing required property: b"⟩, []⟩
    else ⟨true, none, []⟩

/-- An environment with `Symbol` and the validator for `requiredSchema`. -/
def requiredEnv : Env := ⟨true, fun data schema => .ok (requiredValidator data schema)⟩


/-! ## Lemmas on association lists and on the `Except` monad -/

@[simp] theorem ok_bind {α β : Type} (x : α) (f : α → Except Err β) :
    (Except.ok x >>= f) = f x := rfl

@[simp] theorem error_bind {α β : Type} (e : Err) (f : α → Except Err β) :
    ((Except.error e : Except Err α) >>= f) = Except.error e := rfl

@[simp] theorem pure_eq_ok {α : Type} (x : α) : (pure x : Except Err α) = Except.ok x := rfl

theorem assocGet_eq_none {κ α : Type} [DecidableEq κ] (k : κ) (l : List (κ × α))
    (h : k ∉ l.map Prod.fst) : assocGet k l = none := by
  induction l with
  | nil => rfl
  | cons p rest ih =>
    obtain ⟨k', v⟩ := p
    simp only [List.map_cons, List.mem_cons, not_or] at h
    simp only [assocGet]
    rw [if_neg (fun e => h.1 e.symm)]
    exact ih h.2

theorem assocGet_of_mem {κ α : Type} [DecidableEq κ] (k : κ) (v : α) (l : List (κ × α))
    (hn : (l.map Prod.fst).Nodup) (h : (k, v) ∈ l) : assocGet k l = some v := by
  induction l with
  | nil => simp at h
  | cons p rest ih =>
    obtain ⟨k', v'⟩ := p
    simp only [List.map_cons, List.nodup_cons] at hn
    simp only [assocGet]
    rcases List.mem_cons.1 h with e | e
    · cases e; simp
    · have : k' ≠ k := by
        intro e'
        subst e'
        exact hn.1 (List.mem_map.2 ⟨(k', v), e, rfl⟩)
      rw [if_neg this]
      exact ih hn.2 e

theorem assocSet_append {κ α : Type} [DecidableEq κ] (k : κ) (v : α) (l : List (κ × α))
    (h : k ∉ l.map Prod.fst) : assocSet k v l = l ++ [(k, v)] := by
  induction l with
  | nil => rfl
  | cons p rest ih =>
    obtain ⟨k', v'⟩ := p
    simp only [List.map_cons, List.mem_cons, not_or] at h
    simp only [assocSet]
    rw [if_neg (fun e => h.1 e.symm), ih h.2]
    rfl

theorem structuralList_iff (xs : List Val) :
    structuralList xs = true ↔ ∀ x ∈ xs, structural x = true := by
  induction xs with
  | nil => simp [structuralList]
  | cons x rest ih => simp [structuralList, ih]

theorem structuralFields_iff (kvs : List (String × Val)) :
    structuralFields kvs = true ↔ ∀ p ∈ kvs, structural p.2 = true := by
  induction kvs with
  | nil => simp [structuralFields]
  | cons p rest ih =>
    obtain ⟨k, v⟩ := p
    simp [structuralFields, ih]

theorem depth_le_depthList (xs : List Val) (x : Val) (h : x ∈ xs) : depth x ≤ depthList xs := by
  induction xs with
  | nil => simp at h
  | cons y rest ih =>
    simp only [depthList]
    rcases List.mem_cons.1 h with e | e
    · subst e; exact le_max_left _ _
    · exact le_trans (ih e) (le_max_right _ _)

theorem depth_le_depthFields (kvs : List (String × Val)) (p : String × Val) (h : p ∈ kvs) :
    depth p.2 ≤ depthFields kvs := by
  induction kvs with
  | nil => simp at h
  | cons q rest ih =>
    obtain ⟨k, v⟩ := q
    simp only [depthFields]
    rcases List.mem_cons.1 h with e | e
    · subst e; exact le_max_left _ _
    · exact le_trans (ih e) (le_max_right _ _)

theorem mapM_ok_of_forall {α β : Type} (f : α → Except Err β) (g : α → β) (l : List α)
    (h : ∀ a ∈ l, f a = .ok (g a)) : l.mapM f = .ok (l.map g) := by
  induction l with
  | nil => rfl
  | cons a rest ih =>
    rw [List.mapM_cons, h a (List.mem_cons_self _ _), ih (fun b hb => h b (List.mem_cons_of_mem _ hb))]
    rfl




theorem foldlM_rebuild (f : Val → String → Except Err Val) (l acc : List (String × Val))
    (hn : ((acc ++ l).map Prod.fst).Nodup)
    (hf : ∀ res p, p ∈ l → f res p.1 = setProp res p.1 p.2) :
    (l.map Prod.fst).foldlM f (.obj acc) = .ok (.obj (acc ++ l)) := by
  induction l generalizing acc with
  | nil => simp
  | cons p rest ih =>
    obtain ⟨k, v⟩ := p
    have hk : k ∉ acc.map Prod.fst := by
      intro hmem
      rw [List.map_append, List.nodup_append] at hn
      exact hn.2.2 hmem (by simp)
    rw [List.map_cons, List.foldlM_cons, hf (.obj acc) (k, v) (List.mem_cons_self _ _)]
    simp only [setProp, ok_bind]
    rw [assocSet_append k v acc hk]
    have := ih (acc ++ [(k, v)]) (by simpa using hn)
      (fun res p hp => hf res p (List.mem_cons_of_mem _ hp))
    simpa using this

theorem isObject_depth_pos (x : Val) (h : isObject x = true) : 1 ≤ depth x := by
  cases x <;> simp_all [isObject, depth]

theorem clone_structural (fuel : Nat) : ∀ (x : Val) (cb : Option Callback),
    cb.getD idCallback = idCallback → structural x = true → isObject x = true →
    depth x ≤ fuel → clone fuel x cb = .ok x := by
  induction fuel with
  | zero =>
    intro x cb _ _ ho hd
    have := isObject_depth_pos x ho
    omega
  | succ n ih =>
    intro x cb hcb hs ho hd
    cases x with
    | arr xs =>
      simp only [clone, hcb]
      have hxs : ∀ y ∈ xs, structural y = true := (structuralList_iff xs).1 (by simpa [structural] using hs)
      have hm : (List.enum xs).mapM (fun (p : Nat × Val) => do
          let entry ← idCallback (.arr xs) (toString p.1) p.2
          if isObject entry then clone n entry (some idCallback) else pure entry)
          = .ok ((List.enum xs).map Prod.snd) := by
        apply mapM_ok_of_forall
        intro p hp
        have hmem : p.2 ∈ xs := by
          obtain ⟨i, y⟩ := p
          exact (List.mem_enum hp).2 ▸ List.getElem_mem _
        simp only [idCallback, ok_bind]
        by_cases hobj : isObject p.2 = true
        · rw [if_pos hobj]
          apply ih p.2 (some idCallback) rfl (hxs _ hmem) hobj
          have := depth_le_depthList xs p.2 hmem
          simp only [depth] at hd
          omega
        · rw [if_neg hobj]; rfl
      rw [hm]
      simp [List.enum_map_snd]
    | date t => simp [clone]
    | obj kvs =>
      simp only [clone, hcb, objectKeysE, isNullish, objectKeys]
      simp only [structural, Bool.and_eq_true, decide_eq_true_eq] at hs
      have hv := (structuralFields_iff kvs).1 hs.2
      have := foldlM_rebuild (fun res k => do
          let val ← idCallback (.obj kvs) k (getProp (.obj kvs) k)
          if isObject val then do
            let c ← clone n val (some idCallback)
            setProp res k c
          else
            setProp res k val) kvs [] (by simpa using hs.1) (by
        intro res p hp
        obtain ⟨k, v⟩ := p
        have hg : getProp (.obj kvs) k = v := by
          simp [getProp, assocGet_of_mem k v kvs hs.1 hp]
        simp only [idCallback, ok_bind, hg]
        by_cases hobj : isObject v = true
        · rw [if_pos hobj]
          have hc : clone n v (some idCallback) = .ok v := by
            apply ih v (some idCallback) rfl (hv _ hp) hobj
            have hle : depth v ≤ depthFields kvs := depth_le_depthFields kvs _ hp
            simp only [depth] at hd
            omega
          rw [hc]; rfl
        · rw [if_neg hobj])
      simpa using this
    | model s st => simp [structural] at hs
    | undefined => simp [isObject] at ho
    | null => simp [isObject] at ho
    | bool b => simp [isObject] at ho
    | num b => simp [isObject] at ho
    | str b => simp [isObject] at ho
    | func b => simp [isObject] at ho




/-! ## Folds of assignments -/

theorem assocGet_assocSet {κ α : Type} [DecidableEq κ] (k k' : κ) (v : α) (l : List (κ × α)) :
    assocGet k' (assocSet k v l) = if k = k' then some v else assocGet k' l := by
  induction l with
  | nil => simp [assocSet, assocGet]
  | cons p rest ih =>
    obtain ⟨k0, v0⟩ := p
    by_cases h0 : k0 = k
    · subst h0
      by_cases h1 : k0 = k' <;> simp [assocSet, assocGet, h1]
    · by_cases h1 : k0 = k'
      · subst h1
        simp [assocSet, assocGet, h0, Ne.symm h0]
      · simp [assocSet, assocGet, h0, h1, ih]

theorem keys_assocSet {κ α : Type} [DecidableEq κ] (k k' : κ) (v : α) (l : List (κ × α)) :
    k' ∈ (assocSet k v l).map Prod.fst ↔ k' = k ∨ k' ∈ l.map Prod.fst := by
  induction l with
  | nil => simp [assocSet]
  | cons p rest ih =>
    obtain ⟨k0, v0⟩ := p
    by_cases h0 : k0 = k
    · subst h0
      simp [assocSet]
    · simp only [assocSet, if_neg h0, List.map_cons, List.mem_cons, ih]
      tauto

theorem assocGet_isSome_iff {κ α : Type} [DecidableEq κ] (k : κ) (l : List (κ × α)) :
    (assocGet k l).isSome = true ↔ k ∈ l.map Prod.fst := by
  induction l with
  | nil => simp [assocGet]
  | cons p rest ih =>
    obtain ⟨k0, v0⟩ := p
    by_cases h0 : k0 = k
    · simp [assocGet, h0]
    · simp [assocGet, h0, ih, Ne.symm h0]

theorem nodup_keys_assocSet {κ α : Type} [DecidableEq κ] (k : κ) (v : α) (l : List (κ × α))
    (h : (l.map Prod.fst).Nodup) : ((assocSet k v l).map Prod.fst).Nodup := by
  induction l with
  | nil => simp [assocSet]
  | cons p rest ih =>
    obtain ⟨k0, v0⟩ := p
    simp only [List.map_cons, List.nodup_cons] at h
    by_cases h0 : k0 = k
    · simp only [assocSet, if_pos h0, List.map_cons, List.nodup_cons]
      exact h
    · simp only [assocSet, if_neg h0, List.map_cons, List.nodup_cons, keys_assocSet]
      exact ⟨fun hc => hc.elim h0 h.1, ih h.2⟩

/-- Shape of the result of a loop of assignments on an object: which keys it has. -/
theorem foldlM_assign_keys (g : Val → String → Except Err Val) (ks : List String) :
    ∀ (l0 : List (String × Val)) (r : Val),
    ks.foldlM (assignWith g) (.obj l0) = .ok r →
    ∃ l, r = .obj l ∧ (∀ k, k ∈ l.map Prod.fst ↔ k ∈ l0.map Prod.fst ∨ k ∈ ks) ∧
      ((l0.map Prod.fst).Nodup → (l.map Prod.fst).Nodup) := by
  induction ks with
  | nil =>
    intro l0 r h
    simp only [List.foldlM_nil, pure_eq_ok, Except.ok.injEq] at h
    exact ⟨l0, h.symm, by simp, id⟩
  | cons k rest ih =>
    intro l0 r h
    rw [List.foldlM_cons] at h
    cases hg : g (.obj l0) k with
    | error e => simp [assignWith, hg] at h
    | ok v =>
      simp only [assignWith, hg, ok_bind, setProp] at h
      obtain ⟨l, hl, hk, hnd⟩ := ih _ r h
      refine ⟨l, hl, ?_, fun hn => hnd (nodup_keys_assocSet k v l0 hn)⟩
      intro k'
      rw [hk k', keys_assocSet, List.mem_cons]
      tauto

/-- Values of the result of a loop of assignments over pairwise different keys, when the
assigned value depends on the object only through the property assigned to. -/
theorem foldlM_assign_get (g : Val → String → Except Err Val)
    (hg : ∀ l l' k, assocGet k l = assocGet k l' → g (.obj l) k = g (.obj l') k)
    (ks : List String) : ∀ (l0 : List (String × Val)) (r : Val), ks.Nodup →
    ks.foldlM (assignWith g) (.obj l0) = .ok r →
    ∃ l, r = .obj l ∧ (∀ k, k ∉ ks → assocGet k l = assocGet k l0) ∧
      (∀ k, k ∈ ks → ∃ v, g (.obj l0) k = .ok v ∧ assocGet k l = some v) := by
  induction ks with
  | nil =>
    intro l0 r _ h
    simp only [List.foldlM_nil, pure_eq_ok, Except.ok.injEq] at h
    exact ⟨l0, h.symm, by simp, by simp⟩
  | cons k rest ih =>
    intro l0 r hn h
    rw [List.foldlM_cons] at h
    rw [List.nodup_cons] at hn
    cases hgk : g (.obj l0) k with
    | error e => simp [assignWith, hgk] at h
    | ok v =>
      simp only [assignWith, hgk, ok_bind, setProp] at h
      obtain ⟨l, hl, hout, hin⟩ := ih _ r hn.2 h
      refine ⟨l, hl, ?_, ?_⟩
      · intro k' hk'
        simp only [List.mem_cons, not_or] at hk'
        rw [hout k' hk'.2, assocGet_assocSet, if_neg (fun e => hk'.1 e.symm)]
      · intro k' hk'
        rcases List.mem_cons.1 hk' with e | e
        · subst e
          refine ⟨v, hgk, ?_⟩
          rw [hout k' hn.1, assocGet_assocSet, if_pos rfl]
        · obtain ⟨w, hw, hw'⟩ := hin k' e
          refine ⟨w, ?_, hw'⟩
          rw [← hw]
          apply hg
          rw [assocGet_assocSet, if_neg]
          intro e'
          subst e'
          exact hn.1 e

/-- A loop of assignments returns when each assigned value can be computed. -/
theorem foldlM_assign_ok (g : Val → String → Except Err Val)
    (hg : ∀ l l' k, assocGet k l = assocGet k l' → g (.obj l) k = g (.obj l') k)
    (ks : List String) : ∀ (l0 : List (String × Val)), ks.Nodup →
    (∀ k, k ∈ ks → ∃ v, g (.obj l0) k = .ok v) →
    ∃ r, ks.foldlM (assignWith g) (.obj l0) = .ok r := by
  induction ks with
  | nil =>
    intro l0 _ _
    exact ⟨.obj l0, rfl⟩
  | cons k rest ih =>
    intro l0 hn hall
    rw [List.nodup_cons] at hn
    obtain ⟨v, hv⟩ := hall k (List.mem_cons_self _ _)
    rw [List.foldlM_cons]
    simp only [assignWith, hv, ok_bind, setProp]
    apply ih _ hn.2
    intro k' hk'
    obtain ⟨w, hw⟩ := hall k' (List.mem_cons_of_mem _ hk')
    refine ⟨w, ?_⟩
    rw [← hw]
    apply hg
    rw [assocGet_assocSet, if_neg]
    intro e'
    subst e'
    exact hn.1 hk'




/-! ## `clone` and `merge` as loops of assignments; more fuel changes no result -/

theorem clone_obj (fuel : Nat) (kvs : List (String × Val)) (cb : Option Callback) :
    clone (fuel + 1) (.obj kvs) cb =
      (kvs.map Prod.fst).foldlM (assignWith (cloneVal fuel (cb.getD idCallback) (.obj kvs)))
        (.obj []) := by
  simp only [clone, objectKeysE, isNullish, objectKeys]
  have : (fun res k => do
      let val ← (cb.getD idCallback) (.obj kvs) k (getProp (.obj kvs) k)
      if isObject val then do
        let c ← clone fuel val (some (cb.getD idCallback))
        setProp res k c
      else
        setProp res k val) = assignWith (cloneVal fuel (cb.getD idCallback) (.obj kvs)) := by
    funext res k
    simp only [assignWith, cloneVal]
    cases (cb.getD idCallback) (.obj kvs) k (getProp (.obj kvs) k) with
    | error e => rfl
    | ok val =>
      simp only [ok_bind]
      split <;> rfl
  rw [← this]
  rfl

theorem merge_succ (fuel : Nat) (obj1 obj2 : Val) :
    merge (fuel + 1) obj1 obj2 =
      clone fuel obj1 none >>= fun res => objectKeysE obj2 >>= fun keys =>
        keys.foldlM (assignWith (mergeVal fuel obj2)) res := by
  simp only [merge]
  have : (fun res key =>
      if isObject (getProp obj2 key) then
        if isObject (getProp res key) then do
          let m ← merge fuel (getProp res key) (getProp obj2 key)
          setProp res key m
        else
          setProp res key (getProp obj2 key)
      else
        setProp res key (getProp obj2 key)) = assignWith (mergeVal fuel obj2) := by
    funext res key
    simp only [assignWith, mergeVal]
    split
    · split <;> rfl
    · rfl
  rw [← this]

theorem foldlM_mono {σ α : Type} (f f' : σ → α → Except Err σ)
    (h : ∀ s a r, f s a = .ok r → f' s a = .ok r) (l : List α) :
    ∀ (s r : σ), l.foldlM f s = .ok r → l.foldlM f' s = .ok r := by
  induction l with
  | nil => intro s r hr; exact hr
  | cons a rest ih =>
    intro s r hr
    rw [List.foldlM_cons] at hr ⊢
    cases hfa : f s a with
    | error e => simp [hfa] at hr
    | ok s' =>
      rw [hfa] at hr
      rw [h s a s' hfa]
      exact ih s' r hr

theorem mapM_cons_ok {α β : Type} (f : α → Except Err β) (a : α) (l : List α) :
    (a :: l).mapM f = f a >>= fun b => l.mapM f >>= fun bs => .ok (b :: bs) :=
  List.mapM_cons ..

theorem mapM_mono {α β : Type} (f f' : α → Except Err β)
    (h : ∀ a r, f a = .ok r → f' a = .ok r) (l : List α) :
    ∀ (r : List β), l.mapM f = .ok r → l.mapM f' = .ok r := by
  induction l with
  | nil => intro r hr; exact hr
  | cons a rest ih =>
    intro r
    rw [mapM_cons_ok, mapM_cons_ok]
    cases hfa : f a with
    | error e => intro hr; simp at hr
    | ok b =>
      rw [h a b hfa]
      simp only [ok_bind]
      cases hrest : rest.mapM f with
      | error e => intro hr; simp at hr
      | ok bs =>
        rw [ih bs hrest]
        exact id

theorem clone_arr (fuel : Nat) (xs : List Val) (cb : Option Callback) :
    clone (fuel + 1) (.arr xs) cb =
      (List.enum xs).mapM (cloneEntry fuel (cb.getD idCallback) (.arr xs)) >>= fun ys =>
        .ok (.arr ys) := rfl

theorem clone_other (fuel : Nat) (x : Val) (cb : Option Callback)
    (h : ∀ xs, x ≠ .arr xs) (h' : ∀ t, x ≠ .date t) :
    clone (fuel + 1) x cb =
      objectKeysE x >>= fun keys =>
        keys.foldlM (assignWith (cloneVal fuel (cb.getD idCallback) x)) (.obj []) := by
  have : (fun res k => do
      let val ← (cb.getD idCallback) x k (getProp x k)
      if isObject val then do
        let c ← clone fuel val (some (cb.getD idCallback))
        setProp res k c
      else
        setProp res k val) = assignWith (cloneVal fuel (cb.getD idCallback) x) := by
    funext res k
    simp only [assignWith, cloneVal]
    cases (cb.getD idCallback) x k (getProp x k) with
    | error e => rfl
    | ok val =>
      simp only [ok_bind]
      split <;> rfl
  rw [← this]
  cases x with
  | arr xs => exact absurd rfl (h xs)
  | date t => exact absurd rfl (h' t)
  | _ => rfl

theorem clone_mono (fuel : Nat) : ∀ (x : Val) (cb : Option Callback) (r : Val),
    clone fuel x cb = .ok r → clone (fuel + 1) x cb = .ok r := by
  induction fuel with
  | zero => intro x cb r h; simp [clone] at h
  | succ n ih =>
    intro x cb r h
    by_cases hx : ∃ xs, x = .arr xs
    · obtain ⟨xs, rfl⟩ := hx
      revert h
      rw [clone_arr, clone_arr]
      cases hm : (List.enum xs).mapM (cloneEntry n (cb.getD idCallback) (.arr xs)) with
      | error e => intro h; simp at h
      | ok ys =>
        rw [mapM_mono _ _ _ (List.enum xs) ys hm]
        · exact id
        · intro p y hy
          simp only [cloneEntry] at hy ⊢
          cases hcb : (cb.getD idCallback) (.arr xs) (toString p.1) p.2 with
          | error e => simp [hcb] at hy
          | ok val =>
            rw [hcb] at hy
            simp only [ok_bind] at hy ⊢
            by_cases ho : isObject val = true
            · rw [if_pos ho] at hy ⊢
              exact ih _ _ _ hy
            · rw [if_neg ho] at hy ⊢
              exact hy
    · by_cases hd : ∃ t, x = .date t
      · obtain ⟨t, rfl⟩ := hd
        exact h
      · have h1 : ∀ xs, x ≠ .arr xs := fun xs e => hx ⟨xs, e⟩
        have h2 : ∀ t, x ≠ .date t := fun t e => hd ⟨t, e⟩
        rw [clone_other _ _ _ h1 h2] at h ⊢
        cases hk : objectKeysE x with
        | error e => simp [hk] at h
        | ok keys =>
          rw [hk] at h
          simp only [ok_bind] at h ⊢
          refine foldlM_mono _ _ ?_ _ _ _ h
          intro s a r' hr'
          simp only [assignWith] at hr' ⊢
          cases hc : cloneVal n (cb.getD idCallback) x s a with
          | error e => simp [hc] at hr'
          | ok v =>
            rw [hc] at hr'
            have hc' : cloneVal (n + 1) (cb.getD idCallback) x s a = .ok v := by
              simp only [cloneVal] at hc ⊢
              cases hcb : (cb.getD idCallback) x a (getProp x a) with
              | error e => simp [hcb] at hc
              | ok val =>
                rw [hcb] at hc
                simp only [ok_bind] at hc ⊢
                by_cases ho : isObject val = true
                · rw [if_pos ho] at hc ⊢
                  exact ih _ _ _ hc
                · rw [if_neg ho] at hc ⊢
                  exact hc
            rw [hc']
            exact hr'

theorem merge_mono (fuel : Nat) : ∀ (a b r : Val),
    merge fuel a b = .ok r → merge (fuel + 1) a b = .ok r := by
  induction fuel with
  | zero => intro a b r h; simp [merge] at h
  | succ n ih =>
    intro a b r h
    rw [merge_succ] at h ⊢
    cases hc : clone n a none with
    | error e => simp [hc] at h
    | ok res =>
      rw [hc] at h
      rw [clone_mono _ _ _ _ hc]
      simp only [ok_bind] at h ⊢
      cases hk : objectKeysE b with
      | error e => simp [hk] at h
      | ok keys =>
        rw [hk] at h
        simp only [ok_bind] at h ⊢
        refine foldlM_mono _ _ ?_ _ _ _ h
        intro s k r' hr'
        simp only [assignWith] at hr' ⊢
        cases hv : mergeVal n b s k with
        | error e => simp [hv] at hr'
        | ok v =>
          rw [hv] at hr'
          have hv' : mergeVal (n + 1) b s k = .ok v := by
            simp only [mergeVal] at hv ⊢
            split
            · split
              · rename_i h1 h2
                rw [if_pos h1, if_pos h2] at hv
                exact ih _ _ _ hv
              · rename_i h1 h2
                rw [if_pos h1, if_neg h2] at hv
                exact hv
            · rename_i h1
              rw [if_neg h1] at hv
              exact hv
          rw [hv']
          exact hr'

theorem clone_mono_le (n m : Nat) (hle : n ≤ m) (x : Val) (cb : Option Callback) (r : Val)
    (h : clone n x cb = .ok r) : clone m x cb = .ok r := by
  induction hle with
  | refl => exact h
  | step _ ih => exact clone_mono _ _ _ _ ih

theorem merge_mono_le (n m : Nat) (hle : n ≤ m) (a b r : Val)
    (h : merge n a b = .ok r) : merge m a b = .ok r := by
  induction hle with
  | refl => exact h
  | step _ ih => exact merge_mono _ _ _ _ ih




/-! ## What `clone` and `merge` return on objects -/

theorem getProp_obj (l : List (String × Val)) (k : String) :
    getProp (.obj l) k = (assocGet k l).getD .undefined := rfl

theorem objectKeysE_obj (l : List (String × Val)) :
    objectKeysE (.obj l) = .ok (l.map Prod.fst) := rfl

theorem cloneVal_congr (fuel : Nat) (cb : Callback) (obj : Val) (l l' : List (String × Val))
    (k : String) : cloneVal fuel cb obj (.obj l) k = cloneVal fuel cb obj (.obj l') k := rfl

theorem mergeVal_congr (fuel : Nat) (obj2 : Val) (l l' : List (String × Val)) (k : String)
    (h : assocGet k l = assocGet k l') :
    mergeVal fuel obj2 (.obj l) k = mergeVal fuel obj2 (.obj l') k := by
  simp only [mergeVal, getProp_obj, h]

/-- What `clone` returns is a container. -/
theorem clone_isObject (fuel : Nat) (x : Val) (cb : Option Callback) (v : Val)
    (h : clone fuel x cb = .ok v) : isObject v = true := by
  cases fuel with
  | zero => simp [clone] at h
  | succ n =>
    by_cases hx : ∃ xs, x = .arr xs
    · obtain ⟨xs, rfl⟩ := hx
      revert h
      rw [clone_arr]
      cases (List.enum xs).mapM (cloneEntry n (cb.getD idCallback) (.arr xs)) with
      | error e => intro h; simp at h
      | ok ys =>
        intro h
        simp only [ok_bind, Except.ok.injEq] at h
        rw [← h]; rfl
    · by_cases hd : ∃ t, x = .date t
      · obtain ⟨t, rfl⟩ := hd
        simp only [clone, pure_eq_ok, Except.ok.injEq] at h
        rw [← h]; rfl
      · rw [clone_other _ _ _ (fun xs e => hx ⟨xs, e⟩) (fun t e => hd ⟨t, e⟩)] at h
        cases hk : objectKeysE x with
        | error e => simp [hk] at h
        | ok keys =>
          rw [hk] at h
          simp only [ok_bind] at h
          obtain ⟨l1, hl1, _⟩ := foldlM_assign_keys _ _ _ _ h
          rw [hl1]; rfl

/-- The copy of an object has the keys of the object; under a key whose value is not a
container it has that value. -/
theorem clone_obj_get (fuel : Nat) (fa : List (String × Val)) (res : Val)
    (hn : (fa.map Prod.fst).Nodup) (h : clone fuel (.obj fa) none = .ok res) :
    ∃ l, res = .obj l ∧ (l.map Prod.fst).Nodup ∧
      (∀ k, k ∈ l.map Prod.fst ↔ k ∈ fa.map Prod.fst) ∧
      (∀ k, isObject (getProp (.obj fa) k) = isObject (getProp (.obj l) k)) ∧
      (∀ k, isObject (getProp (.obj fa) k) = false →
        getProp (.obj l) k = getProp (.obj fa) k) := by
  cases fuel with
  | zero => simp [clone] at h
  | succ n =>
    rw [clone_obj] at h
    obtain ⟨l, hl, hkeys, hnd⟩ := foldlM_assign_keys _ _ _ _ h
    obtain ⟨l', hl', hout, hin⟩ := foldlM_assign_get _
      (fun l l' k _ => cloneVal_congr n _ _ l l' k) _ _ _ hn h
    have e : l' = l := by rw [hl'] at hl; injection hl
    subst e
    have hval : ∀ k, isObject (getProp (.obj fa) k) = isObject (getProp (.obj l') k) ∧
        (isObject (getProp (.obj fa) k) = false →
          getProp (.obj l') k = getProp (.obj fa) k) := by
      intro k
      by_cases hk : k ∈ fa.map Prod.fst
      · obtain ⟨v, hv, hget⟩ := hin k hk
        simp only [cloneVal, Option.getD_none, idCallback, ok_bind] at hv
        by_cases ho : isObject (getProp (.obj fa) k) = true
        · rw [if_pos ho] at hv
          have hvo : isObject v = true := clone_isObject _ _ _ _ hv
          refine ⟨?_, fun hf => absurd ho (by simp [hf])⟩
          rw [ho, getProp_obj l', hget]
          exact hvo.symm
        · rw [if_neg ho] at hv
          simp only [Except.ok.injEq] at hv
          have hg : getProp (.obj l') k = getProp (.obj fa) k := by
            rw [getProp_obj l', hget, ← hv]; rfl
          exact ⟨by rw [hg], fun _ => hg⟩
      · have h1 : assocGet k l' = none := by
          rw [hout k hk]; rfl
        have h2 : assocGet k fa = none := assocGet_eq_none k fa hk
        have hg : getProp (.obj l') k = getProp (.obj fa) k := by
          rw [getProp_obj, getProp_obj, h1, h2]
        exact ⟨by rw [hg], fun _ => hg⟩
    refine ⟨l', hl', hnd (by simp), ?_, fun k => (hval k).1, fun k => (hval k).2⟩
    intro k
    rw [hkeys k]
    simp

/-- Keys and values of `merge(obj1, obj2)` for two objects, when it returns. -/
theorem merge_obj_get (fuel : Nat) (fa fb : List (String × Val)) (r : Val)
    (hfa : (fa.map Prod.fst).Nodup) (hfb : (fb.map Prod.fst).Nodup)
    (h : merge (fuel + 1) (.obj fa) (.obj fb) = .ok r) :
    ∃ lc l, clone fuel (.obj fa) none = .ok (.obj lc) ∧ r = .obj l ∧
      (l.map Prod.fst).Nodup ∧
      (∀ k, k ∈ l.map Prod.fst ↔ k ∈ fa.map Prod.fst ∨ k ∈ fb.map Prod.fst) ∧
      (∀ k, k ∉ fb.map Prod.fst → assocGet k l = assocGet k lc) ∧
      (∀ k, k ∈ fb.map Prod.fst →
        ∃ v, mergeVal fuel (.obj fb) (.obj lc) k = .ok v ∧ assocGet k l = some v) := by
  rw [merge_succ] at h
  cases hc : clone fuel (.obj fa) none with
  | error e => simp [hc] at h
  | ok res =>
    rw [hc] at h
    simp only [ok_bind, objectKeysE_obj] at h
    obtain ⟨lc, hlc, hlcn, hlck, _, _⟩ := clone_obj_get fuel fa res hfa hc
    subst hlc
    obtain ⟨l, hl, hkeys, hnd⟩ := foldlM_assign_keys _ _ _ _ h
    obtain ⟨l', hl', hout, hin⟩ := foldlM_assign_get _
      (fun l l' k e => mergeVal_congr fuel _ l l' k e) _ _ _ hfb h
    have e : l' = l := by rw [hl'] at hl; injection hl
    subst e
    refine ⟨lc, l', rfl, hl', hnd hlcn, ?_, hout, hin⟩
    intro k
    rw [hkeys k, hlck k]


theorem plainFields_iff (kvs : List (String × Val)) :
    plainFields kvs = true ↔ ∀ p ∈ kvs, plainObject p.2 = true ∨ isObject p.2 = false := by
  induction kvs with
  | nil => simp [plainFields]
  | cons p rest ih =>
    obtain ⟨k, v⟩ := p
    simp [plainFields, ih]

theorem plainObject_structural (n : Nat) : ∀ (x : Val), depth x ≤ n →
    plainObject x = true → structural x = true := by
  induction n with
  | zero =>
    intro x hd hp
    cases x <;> simp_all [plainObject, depth]
  | succ m ih =>
    intro x hd hp
    cases x with
    | obj kvs =>
      simp only [plainObject, Bool.and_eq_true, decide_eq_true_eq] at hp
      simp only [structural, Bool.and_eq_true, decide_eq_true_eq]
      refine ⟨hp.1, (structuralFields_iff kvs).2 ?_⟩
      intro p hp'
      rcases (plainFields_iff kvs).1 hp.2 p hp' with h | h
      · apply ih _ _ h
        have := depth_le_depthFields kvs p hp'
        simp only [depth] at hd
        omega
      · cases hv : p.2 <;> simp_all [isObject, structural]
    | _ => simp [plainObject] at hp

theorem plainObject_isObject (x : Val) (h : plainObject x = true) : isObject x = true := by
  cases x <;> simp_all [plainObject, isObject]

/-- The value under a key of a plain object is a plain object of smaller depth, or not a
container. -/
theorem plainObject_getProp (kvs : List (String × Val)) (k : String)
    (h : plainObject (.obj kvs) = true) :
    (plainObject (getProp (.obj kvs) k) = true ∧
        depth (getProp (.obj kvs) k) < depth (.obj kvs)) ∨
      isObject (getProp (.obj kvs) k) = false := by
  simp only [plainObject, Bool.and_eq_true, decide_eq_true_eq] at h
  by_cases hk : k ∈ kvs.map Prod.fst
  · obtain ⟨p, hp, rfl⟩ := List.mem_map.1 hk
    have hg : getProp (.obj kvs) p.1 = p.2 := by
      rw [getProp_obj, assocGet_of_mem p.1 p.2 kvs h.1 hp]; rfl
    rw [hg]
    rcases (plainFields_iff kvs).1 h.2 p hp with h1 | h1
    · left
      refine ⟨h1, ?_⟩
      have := depth_le_depthFields kvs p hp
      simp only [depth]
      omega
    · right; exact h1
  · right
    rw [getProp_obj, assocGet_eq_none k kvs hk]
    rfl

/-- On plain objects `merge` returns, for every fuel above the depth of both. -/
theorem merge_plain_ok (n : Nat) : ∀ (a b : Val), plainObject a = true →
    plainObject b = true → depth a ≤ n → depth b ≤ n → ∃ r, merge (n + 1) a b = .ok r := by
  induction n with
  | zero =>
    intro a b ha hb hda hdb
    have := isObject_depth_pos a (plainObject_isObject a ha)
    omega
  | succ m ih =>
    intro a b ha hb hda hdb
    cases a with
    | obj fa =>
      cases b with
      | obj fb =>
        have hca : clone (m + 1) (.obj fa) none = .ok (.obj fa) :=
          clone_structural _ _ _ rfl (plainObject_structural _ _ le_rfl ha)
            (plainObject_isObject _ ha) hda
        rw [merge_succ, hca]
        simp only [ok_bind, objectKeysE_obj]
        have hnb : (fb.map Prod.fst).Nodup := by
          simp only [plainObject, Bool.and_eq_true, decide_eq_true_eq] at hb
          exact hb.1
        apply foldlM_assign_ok _ (fun l l' k e => mergeVal_congr (m + 1) _ l l' k e) _ _ hnb
        intro k _
        simp only [mergeVal]
        by_cases h1 : isObject (getProp (.obj fb) k) = true
        · rw [if_pos h1]
          by_cases h2 : isObject (getProp (.obj fa) k) = true
          · rw [if_pos h2]
            rcases plainObject_getProp fa k ha with ⟨pa, da⟩ | na
            · rcases plainObject_getProp fb k hb with ⟨pb, db⟩ | nb
              · exact ih _ _ pa pb (by omega) (by omega)
              · rw [nb] at h1; cases h1
            · rw [na] at h2; cases h2
          · rw [if_neg h2]; exact ⟨_, rfl⟩
        · rw [if_neg h1]; exact ⟨_, rfl⟩
      | _ => simp [plainObject] at hb
    | _ => simp [plainObject] at ha

/-! ## `getProperties` -/

theorem getProperties_succ (fuel : Nat) (schema : Val) (validator : Option Registry) :
    getProperties (fuel + 1) schema validator =
      readProp schema "$ref" >>= fun ref =>
        resolveFrom fuel validator.isNone
          (if truthy ref then (registered schema validator).getSchema ref else schema)
          (registered schema validator) := by
  by_cases hn : isNullish schema = true
  · simp [getProperties, readProp, hn]
  · simp only [getProperties, readProp, hn, resolveFrom, registered, compositionOf, branchStep]
    rfl

theorem getProperties_mono (fuel : Nat) : ∀ (schema : Val) (validator : Option Registry)
    (r : Val × Registry), getProperties fuel schema validator = .ok r →
    getProperties (fuel + 1) schema validator = .ok r := by
  induction fuel with
  | zero => intro s v r h; simp [getProperties] at h
  | succ n ih =>
    intro s v r h
    rw [getProperties_succ] at h ⊢
    cases hr : readProp s "$ref" with
    | error e => simp [hr] at h
    | ok ref =>
      rw [hr] at h
      simp only [ok_bind] at h ⊢
      revert h
      generalize (if truthy ref then (registered s v).getSchema ref else s) = s'
      generalize registered s v = reg
      intro h
      simp only [resolveFrom] at h ⊢
      cases hp : readProp s' "properties" with
      | error e => simp [hp] at h
      | ok props =>
        rw [hp] at h
        simp only [ok_bind] at h ⊢
        by_cases ht : truthy props = true
        · rw [if_pos ht] at h ⊢
          cases hc : clone n props none with
          | error e => simp [hc] at h
          | ok c =>
            rw [hc] at h
            rw [clone_mono _ _ _ _ hc]
            exact h
        · rw [if_neg ht] at h ⊢
          by_cases hd : truthy (compositionOf v.isNone s') = true
          · rw [if_pos hd] at h ⊢
            cases hds : compositionOf v.isNone s' with
            | arr ds =>
              rw [hds] at h
              simp only at h ⊢
              refine foldlM_mono _ _ ?_ _ _ _ h
              intro acc d r' hr'
              simp only [branchStep] at hr' ⊢
              cases hg : getProperties n d (some acc.2) with
              | error e => simp [hg] at hr'
              | ok g =>
                rw [hg] at hr'
                rw [ih _ _ _ hg]
                simp only [ok_bind] at hr' ⊢
                cases hm : merge n acc.1 g.1 with
                | error e => simp [hm] at hr'
                | ok m =>
                  rw [hm] at hr'
                  rw [merge_mono _ _ _ _ hm]
                  exact hr'
            | _ => rw [hds] at h; simp at h
          · rw [if_neg hd] at h ⊢
            exact h

theorem getProperties_mono_le (n m : Nat) (hle : n ≤ m) (schema : Val)
    (validator : Option Registry) (r : Val × Registry)
    (h : getProperties n schema validator = .ok r) :
    getProperties m schema validator = .ok r := by
  induction hle with
  | refl => exact h
  | step _ ih => exact getProperties_mono _ _ _ _ ih

/-- Keys of `merge(obj1, obj2)` when `obj1` is an object. -/
theorem merge_keys (fuel : Nat) (la : List (String × Val)) (b r : Val)
    (h : merge fuel (.obj la) b = .ok r) :
    ∃ l, r = .obj l ∧ ∀ k, k ∈ l.map Prod.fst ↔ k ∈ la.map Prod.fst ∨ k ∈ objectKeys b := by
  cases fuel with
  | zero => simp [merge] at h
  | succ n =>
    rw [merge_succ] at h
    cases hc : clone n (.obj la) none with
    | error e => simp [hc] at h
    | ok res =>
      rw [hc] at h
      simp only [ok_bind] at h
      cases n with
      | zero => simp [clone] at hc
      | succ m =>
        rw [clone_obj] at hc
        obtain ⟨lc, hlc, hkc, _⟩ := foldlM_assign_keys _ _ _ _ hc
        subst hlc
        by_cases hb : isNullish b = true
        · simp [objectKeysE, hb] at h
        · simp only [objectKeysE, hb, ok_bind] at h
          obtain ⟨l, hl, hk, _⟩ := foldlM_assign_keys _ _ _ _ h
          refine ⟨l, hl, fun k => ?_⟩
          rw [hk k, hkc k]
          simp

/-- The loop of `getProperties` over the branches is the fold of `merge` over the property
maps of the branches. -/
theorem foldlM_branchStep (fuel : Nat) (bs : List Val) : ∀ (acc : Val) (reg reg' : Registry)
    (ps : List Val), resolveBranches fuel bs reg = .ok (ps, reg') →
    bs.foldlM (branchStep fuel) (acc, reg) =
      ps.foldlM (merge fuel) acc >>= fun res => .ok (res, reg') := by
  induction bs with
  | nil =>
    intro acc reg reg' ps h
    simp only [resolveBranches, Except.ok.injEq, Prod.mk.injEq] at h
    obtain ⟨rfl, rfl⟩ := h
    rfl
  | cons b rest ih =>
    intro acc reg reg' ps h
    simp only [resolveBranches] at h
    cases hg : getProperties fuel b (some reg) with
    | error e => simp [hg] at h
    | ok g =>
      rw [hg] at h
      simp only [ok_bind] at h
      cases hrest : resolveBranches fuel rest g.2 with
      | error e => simp [hrest] at h
      | ok rs =>
        rw [hrest] at h
        simp only [ok_bind, Except.ok.injEq, Prod.mk.injEq] at h
        obtain ⟨rfl, rfl⟩ := h
        rw [List.foldlM_cons, List.foldlM_cons]
        simp only [branchStep, hg, ok_bind]
        cases hm : merge fuel acc g.1 with
        | error e => rfl
        | ok m =>
          simp only [ok_bind, pure_eq_ok]
          exact ih m g.2 rs.2 rs.1 hrest

/-- Keys of a fold of `merge` that starts from an object. -/
theorem foldlM_merge_keys (fuel : Nat) (ps : List Val) : ∀ (l0 : List (String × Val))
    (res : Val), ps.foldlM (merge fuel) (.obj l0) = .ok res →
    ∃ l, res = .obj l ∧
      ∀ k, k ∈ l.map Prod.fst ↔ k ∈ l0.map Prod.fst ∨ ∃ p ∈ ps, k ∈ objectKeys p := by
  induction ps with
  | nil =>
    intro l0 res h
    simp only [List.foldlM_nil, pure_eq_ok, Except.ok.injEq] at h
    exact ⟨l0, h.symm, by simp⟩
  | cons p rest ih =>
    intro l0 res h
    rw [List.foldlM_cons] at h
    cases hm : merge fuel (.obj l0) p with
    | error e => simp [hm] at h
    | ok m =>
      rw [hm] at h
      simp only [ok_bind] at h
      obtain ⟨l1, hl1, hk1⟩ := merge_keys _ _ _ _ hm
      subst hl1
      obtain ⟨l, hl, hk⟩ := ih _ _ h
      refine ⟨l, hl, fun k => ?_⟩
      rw [hk k, hk1 k]
      simp only [List.mem_cons, exists_eq_or_imp]
      tauto

/-! ## Serialization of instances that hold plain structured data -/

theorem structural_child_arr (xs : List Val) (x : Val) (hs : structural (.arr xs) = true)
    (hx : x ∈ xs) : structural x = true :=
  (structuralList_iff xs).1 (by simpa [structural] using hs) x hx

/-- A callback that returns structural values unchanged makes `clone` the identity on
structural containers. -/
theorem clone_structural_cb (cb : Callback)
    (hcb : ∀ scope k v, structural v = true → cb scope k v = .ok v) (fuel : Nat) :
    ∀ (x : Val), structural x = true → isObject x = true → depth x ≤ fuel →
    clone fuel x (some cb) = .ok x := by
  induction fuel with
  | zero =>
    intro x _ ho hd
    have := isObject_depth_pos x ho
    omega
  | succ n ih =>
    intro x hs ho hd
    cases x with
    | arr xs =>
      rw [clone_arr]
      have hm : (List.enum xs).mapM (cloneEntry n ((some cb).getD idCallback) (.arr xs))
          = .ok ((List.enum xs).map Prod.snd) := by
        apply mapM_ok_of_forall
        intro p hp
        have hmem : p.2 ∈ xs := by
          obtain ⟨i, y⟩ := p
          exact (List.mem_enum hp).2 ▸ List.getElem_mem _
        have hsp := structural_child_arr xs p.2 hs hmem
        simp only [cloneEntry, Option.getD_some, hcb _ _ _ hsp, ok_bind]
        by_cases hobj : isObject p.2 = true
        · rw [if_pos hobj]
          apply ih p.2 hsp hobj
          have := depth_le_depthList xs p.2 hmem
          simp only [depth] at hd
          omega
        · rw [if_neg hobj]
      rw [hm]
      simp [List.enum_map_snd]
    | date t => rfl
    | obj kvs =>
      rw [clone_obj]
      simp only [structural, Bool.and_eq_true, decide_eq_true_eq] at hs
      have hv := (structuralFields_iff kvs).1 hs.2
      have := foldlM_rebuild (assignWith (cloneVal n ((some cb).getD idCallback) (.obj kvs)))
        kvs [] (by simpa using hs.1) (by
        intro res p hp
        obtain ⟨k, v⟩ := p
        have hg : getProp (.obj kvs) k = v := by
          simp [getProp, assocGet_of_mem k v kvs hs.1 hp]
        have hsv : structural v = true := hv _ hp
        simp only [assignWith, cloneVal, Option.getD_some, hg, hcb _ _ _ hsv, ok_bind]
        by_cases hobj : isObject v = true
        · rw [if_pos hobj]
          have hc : clone n v (some cb) = .ok v := by
            apply ih v hsv hobj
            have hle : depth v ≤ depthFields kvs := depth_le_depthFields kvs _ hp
            simp only [depth] at hd
            omega
          rw [hc]; rfl
        · rw [if_neg hobj]; rfl)
      simpa using this
    | model s st => simp [structural] at hs
    | undefined => simp [isObject] at ho
    | null => simp [isObject] at ho
    | bool b => simp [isObject] at ho
    | num b => simp [isObject] at ho
    | str b => simp [isObject] at ho
    | func b => simp [isObject] at ho

theorem jsonCallback_structural (env : Env) (fuel : Nat) (strip : Bool) (scope : Val)
    (k : String) (v : Val) (hs : structural v = true) :
    jsonCallback env fuel strip scope k v = .ok v := by
  cases v <;> simp_all [jsonCallback, structural]

theorem merge_default_empty (fuel : Nat) (h : 2 ≤ fuel) :
    merge fuel DEFAULT_OPTIONS (.obj []) = .ok DEFAULT_OPTIONS :=
  merge_mono_le 2 fuel h _ _ _ rfl

/-- The public read `this.get(key)`. -/
theorem get_public (env : Env) (fuel : Nat) (this : Instance) (key : String) (h : 2 ≤ fuel) :
    SchemaModel.get env fuel this key .undefined = .ok (publicValue this.store key) := by
  simp only [SchemaModel.get, truthy, Bool.false_eq_true, if_false, merge_default_empty fuel h,
    ok_bind]
  rfl

theorem toJSON_succ (env : Env) (fuel : Nat) (this : Instance) (strip : Bool) :
    SchemaModel.toJSON env (fuel + 1) this strip =
      SchemaModel.schemaProperties fuel this >>= fun props =>
        objectKeysE props >>= fun keys =>
          keys.foldlM (fun res key =>
            SchemaModel.get env fuel this key .undefined >>= fun val =>
              if !strip || !isUndefined val then setProp res key val else .ok res) (.obj [])
            >>= fun res => clone fuel res (some (jsonCallback env fuel strip)) := rfl

theorem setProp_obj (l : List (String × Val)) (k : String) (v : Val) :
    setProp (.obj l) k v = .ok (.obj (assocSet k v l)) := rfl

theorem rawJSON_nil (store : List (Key × Val)) (strip : Bool) : rawJSON store strip [] = [] :=
  rfl

theorem rawJSON_cons (store : List (Key × Val)) (strip : Bool) (k : String)
    (rest : List String) :
    rawJSON store strip (k :: rest) =
      if (!strip || !isUndefined (publicValue store k)) = true
      then (k, publicValue store k) :: rawJSON store strip rest
      else rawJSON store strip rest := by
  simp only [rawJSON, List.filterMap_cons]
  by_cases hc : (!strip || !isUndefined (publicValue store k)) = true
  · simp only [if_pos hc]
  · simp only [if_neg hc]

/-- The loop of `toJSON` builds the object of the public values of the declared names. -/
theorem toJSON_loop (env : Env) (fuel : Nat) (this : Instance) (strip : Bool) (h : 2 ≤ fuel)
    (names : List String) : ∀ (acc : List (String × Val)),
    ((acc.map Prod.fst) ++ names).Nodup →
    names.foldlM (fun res key =>
      SchemaModel.get env fuel this key .undefined >>= fun val =>
        if !strip || !isUndefined val then setProp res key val else .ok res) (.obj acc)
      = .ok (.obj (acc ++ rawJSON this.store strip names)) := by
  induction names with
  | nil => intro acc _; simp [rawJSON_nil]
  | cons k rest ih =>
    intro acc hn
    have hk : k ∉ acc.map Prod.fst := by
      intro hmem
      rw [List.nodup_append] at hn
      exact hn.2.2 hmem (List.mem_cons_self _ _)
    rw [List.foldlM_cons, get_public env fuel this k h, rawJSON_cons]
    rw [ok_bind]
    by_cases hc : (!strip || !isUndefined (publicValue this.store k)) = true
    · rw [if_pos hc, if_pos hc, setProp_obj, ok_bind, assocSet_append k _ acc hk, ih]
      · simp
      · simpa using hn
    · rw [if_neg hc, if_neg hc, ok_bind, ih]
      rw [List.nodup_append] at hn ⊢
      refine ⟨hn.1, (List.nodup_cons.1 hn.2.1).2, ?_⟩
      intro a ha hb
      exact hn.2.2 ha (List.mem_cons_of_mem _ hb)

theorem rawJSON_keys (store : List (Key × Val)) (strip : Bool) (names : List String) :
    (rawJSON store strip names).map Prod.fst =
      names.filter (fun k => !strip || !isUndefined (publicValue store k)) := by
  induction names with
  | nil => rfl
  | cons k rest ih =>
    rw [rawJSON_cons]
    by_cases hc : (!strip || !isUndefined (publicValue store k)) = true
    · rw [if_pos hc, List.map_cons, ih, List.filter_cons]
      simp only [hc, if_true]
    · rw [if_neg hc, ih, List.filter_cons]
      simp only [hc, Bool.false_eq_true, if_false]

theorem mem_rawJSON (store : List (Key × Val)) (strip : Bool) (names : List String)
    (p : String × Val) (h : p ∈ rawJSON store strip names) :
    p.1 ∈ names ∧ p.2 = publicValue store p.1 := by
  induction names with
  | nil => simp [rawJSON_nil] at h
  | cons k rest ih =>
    rw [rawJSON_cons] at h
    by_cases hc : (!strip || !isUndefined (publicValue store k)) = true
    · rw [if_pos hc] at h
      rcases List.mem_cons.1 h with e | e
      · subst e; exact ⟨List.mem_cons_self _ _, rfl⟩
      · exact ⟨List.mem_cons_of_mem _ (ih e).1, (ih e).2⟩
    · rw [if_neg hc] at h
      exact ⟨List.mem_cons_of_mem _ (ih h).1, (ih h).2⟩

/-- Lookup in the object `toJSON` builds. -/
theorem assocGet_rawJSON (store : List (Key × Val)) (strip : Bool) (names : List String)
    (k : String) :
    assocGet k (rawJSON store strip names) =
      if k ∈ names ∧ (!strip || !isUndefined (publicValue store k)) = true
      then some (publicValue store k) else none := by
  induction names with
  | nil => simp [rawJSON_nil, assocGet]
  | cons k' rest ih =>
    rw [rawJSON_cons]
    by_cases hc : (!strip || !isUndefined (publicValue store k')) = true
    · rw [if_pos hc]
      simp only [assocGet, ih, List.mem_cons]
      by_cases hk : k' = k
      · subst hk; simp [hc]
      · have hk' : ¬ k = k' := fun e => hk e.symm
        simp [hk, hk']
    · rw [if_neg hc, ih]
      by_cases hk : k' = k
      · subst hk
        simp only [List.mem_cons, true_or, true_and]
        simp [hc]
      · have hk' : ¬ k = k' := fun e => hk e.symm
        simp [List.mem_cons, hk']

theorem depthFields_le (l : List (String × Val)) (n : Nat) (h : ∀ p ∈ l, depth p.2 ≤ n) :
    depthFields l ≤ n := by
  induction l with
  | nil => simp [depthFields]
  | cons p rest ih =>
    obtain ⟨k, v⟩ := p
    simp only [depthFields]
    exact max_le (h (k, v) (List.mem_cons_self _ _))
      (ih (fun q hq => h q (List.mem_cons_of_mem _ hq)))

/-- The serialization of an instance whose declared public values are plain structured
data: the object of those values. -/
theorem toJSON_plain (env : Env) (fuel : Nat) (this : Instance) (strip : Bool)
    (lp : List (String × Val)) (h2 : 2 ≤ fuel)
    (hp : SchemaModel.schemaProperties fuel this = .ok (.obj lp))
    (hnd : (lp.map Prod.fst).Nodup)
    (hst : ∀ k ∈ lp.map Prod.fst, structural (publicValue this.store k) = true)
    (hdep : ∀ k ∈ lp.map Prod.fst, depth (publicValue this.store k) < fuel) :
    SchemaModel.toJSON env (fuel + 1) this strip =
      .ok (.obj (rawJSON this.store strip (lp.map Prod.fst))) := by
  rw [toJSON_succ, hp]
  simp only [ok_bind, objectKeysE_obj]
  rw [toJSON_loop env fuel this strip h2 _ [] (by simpa using hnd)]
  simp only [ok_bind, List.nil_append]
  apply clone_structural_cb _ (jsonCallback_structural env fuel strip)
  · simp only [structural, Bool.and_eq_true, decide_eq_true_eq]
    refine ⟨?_, (structuralFields_iff _).2 ?_⟩
    · rw [rawJSON_keys]
      exact hnd.filter _
    · intro p hp'
      obtain ⟨h1, h2'⟩ := mem_rawJSON _ _ _ p hp'
      rw [h2']
      exact hst _ h1
  · rfl
  · simp only [depth]
    have := depthFields_le (rawJSON this.store strip (lp.map Prod.fst)) (fuel - 1) (by
      intro p hp'
      obtain ⟨h1, h2'⟩ := mem_rawJSON _ _ _ p hp'
      rw [h2']
      have := hdep _ h1
      omega)
    omega

theorem strictNe_false (a b : Val) (h : strictNe a b = false) : a = b := by
  cases a <;> cases b <;> simp_all [strictNe]

theorem readKey_assocSet (k k' : Key) (v : Val) (scope : List (Key × Val)) :
    readKey (assocSet k v scope) k' = if k = k' then v else readKey scope k' := by
  simp only [readKey, assocGet_assocSet]
  by_cases h : k = k'
  · simp [h]
  · simp [h]

/-- What the private `set(scope, data, false)` leaves under the public keys. -/
theorem publicValue_set (hasSymbol : Bool) (data : Val) (k : String) (ks : List String) :
    ∀ (scope : List (Key × Val)),
    publicValue (ks.foldl (fun scope ok =>
        let key : Key := if false then getSymbol hasSymbol ok else .str ok
        if strictNe (readKey scope key) (getProp data ok) then
          assocSet key (getProp data ok) scope
        else scope) scope) k =
      if k ∈ ks then getProp data k else publicValue scope k := by
  induction ks with
  | nil => intro scope; simp
  | cons k' rest ih =>
    intro scope
    rw [List.foldl_cons, ih]
    by_cases hr : k ∈ rest
    · simp [hr]
    · simp only [hr, if_false, List.mem_cons, or_false, Bool.false_eq_true]
      by_cases hk : k = k'
      · subst hk
        simp only [if_true]
        by_cases hne : strictNe (readKey scope (Key.str k)) (getProp data k) = true
        · rw [if_pos hne]
          simp [publicValue, readKey_assocSet]
        · rw [if_neg hne]
          exact strictNe_false _ _ (by simpa using hne)
      · rw [if_neg hk]
        by_cases hne : strictNe (readKey scope (Key.str k')) (getProp data k') = true
        · rw [if_pos hne]
          simp only [publicValue, readKey_assocSet]
          rw [if_neg]
          intro e
          injection e with e
          exact hk e.symm
        · rw [if_neg hne]

theorem publicValue_set_public (hasSymbol : Bool) (store : List (Key × Val)) (data : Val)
    (k : String) :
    publicValue (SchemaModelJs.set hasSymbol store data false) k =
      if k ∈ objectKeys data then getProp data k else publicValue store k :=
  publicValue_set hasSymbol data k (objectKeys data) store

/-! ## `clone` on the heap: the copy shares no container with the original -/

theorem reify_prim (fuel : Nat) (heap : Heap) (p : Prim) :
    reify fuel heap (.prim p) = .ok p.toVal := by
  cases fuel <;> rfl

theorem reify_ref (fuel : Nat) (heap : Heap) (a : Nat) :
    reify (fuel + 1) heap (.ref a) =
      match heap[a]? with
      | none => .error .typeError
      | some (.date t) => .ok (.date t)
      | some (.arr xs) => xs.mapM (reify fuel heap) >>= fun vs => .ok (.arr vs)
      | some (.obj kvs) => kvs.mapM (reifyField fuel heap) >>= fun fs => .ok (.obj fs) := rfl

theorem cloneAt_succ (fuel : Nat) (heap : Heap) (a : Nat) :
    cloneAt (fuel + 1) heap a =
      match heap[a]? with
      | none => .error .typeError
      | some (.arr xs) =>
        xs.foldlM (cloneArrStep fuel) (heap, []) >>= fun r =>
          .ok (r.1 ++ [.arr r.2], r.1.length)
      | some (.date t) => .ok (heap ++ [.date t], heap.length)
      | some (.obj kvs) =>
        (kvs.map Prod.fst).foldlM (cloneObjStep fuel kvs) (heap, []) >>= fun r =>
          .ok (r.1 ++ [.obj r.2], r.1.length) := rfl

theorem getElem?_append_of_some (heap ext : Heap) (a : Nat) (c : Cell)
    (h : heap[a]? = some c) : (heap ++ ext)[a]? = some c := by
  have hlt : a < heap.length := by
    by_contra hge
    rw [List.getElem?_eq_none (by omega)] at h
    cases h
  rw [List.getElem?_append_left hlt, h]

/-- Entering new cells changes no tree of the heap. -/
theorem reify_append (fuel : Nat) : ∀ (heap ext : Heap) (s : Slot) (v : Val),
    reify fuel heap s = .ok v → reify fuel (heap ++ ext) s = .ok v := by
  induction fuel with
  | zero =>
    intro heap ext s v h
    cases s with
    | prim p => exact h
    | ref a => simp [reify] at h
  | succ n ih =>
    intro heap ext s v h
    cases s with
    | prim p => exact h
    | ref a =>
      revert h
      rw [reify_ref, reify_ref]
      cases hc : heap[a]? with
      | none => intro h; simp at h
      | some c =>
        rw [getElem?_append_of_some heap ext a c hc]
        cases c with
        | date t => exact id
        | arr xs =>
          simp only
          cases hm : xs.mapM (reify n heap) with
          | error e => intro h; simp at h
          | ok vs =>
            rw [mapM_mono _ _ (fun s v hv => ih heap ext s v hv) xs vs hm]
            exact id
        | obj kvs =>
          simp only
          cases hm : kvs.mapM (reifyField n heap) with
          | error e => intro h; simp at h
          | ok fs =>
            rw [mapM_mono (reifyField n heap) (reifyField n (heap ++ ext)) ?_ kvs fs hm]
            · exact id
            · intro p r hr
              simp only [reifyField] at hr ⊢
              cases hv : reify n heap p.2 with
              | error e => simp [hv] at hr
              | ok v' =>
                rw [hv] at hr
                rw [ih heap ext p.2 v' hv]
                exact hr

theorem above_mono (base base' : Nat) (h : base ≤ base') (s : Slot) (hs : s.above base') :
    s.above base := by
  cases s with
  | prim p => trivial
  | ref a => exact le_trans h hs

theorem freshAbove_mono (base base' : Nat) (h : base ≤ base') (ext : List Cell)
    (hf : freshAbove base' ext) : freshAbove base ext :=
  fun c hc s hs => above_mono base base' h s (hf c hc s hs)

theorem freshAbove_append (base : Nat) (e1 e2 : List Cell) (h1 : freshAbove base e1)
    (h2 : freshAbove base e2) : freshAbove base (e1 ++ e2) := by
  intro c hc
  rcases List.mem_append.1 hc with h | h
  · exact h1 c h
  · exact h2 c h

theorem mapM_ok_cons {α β : Type} (f : α → Except Err β) (a : α) (l : List α) (r : List β)
    (h : (a :: l).mapM f = .ok r) :
    ∃ b bs, f a = .ok b ∧ l.mapM f = .ok bs ∧ r = b :: bs := by
  revert h
  rw [mapM_cons_ok]
  cases ha : f a with
  | error e => intro h; simp at h
  | ok b =>
    cases hl : l.mapM f with
    | error e => intro h; simp at h
    | ok bs =>
      intro h
      simp only [ok_bind, Except.ok.injEq] at h
      exact ⟨b, bs, rfl, rfl, h.symm⟩

theorem mapM_append_ok {α β : Type} (f : α → Except Err β) (l : List α) (a : α)
    (bs : List β) (b : β) (h : l.mapM f = .ok bs) (ha : f a = .ok b) :
    (l ++ [a]).mapM f = .ok (bs ++ [b]) := by
  induction l generalizing bs with
  | nil =>
    have : bs = [] := by
      have h' : (Except.ok [] : Except Err (List β)) = .ok bs := h
      injection h' with h'
      exact h'.symm
    subst this
    rw [List.nil_append, mapM_cons_ok, ha]
    rfl
  | cons x rest ih =>
    obtain ⟨y, ys, hx, hr, rfl⟩ := mapM_ok_cons f x rest bs h
    rw [List.cons_append, mapM_cons_ok, hx, ih ys hr]
    rfl


/-! ## The keys of a serialization -/

/-- When the public read `this.get(key)` returns, it returns the public value, and the
call depth is at least the two calls it makes. -/
theorem get_public_of_ok (env : Env) (fuel : Nat) (this : Instance) (key : String) (v : Val)
    (h : SchemaModel.get env fuel this key .undefined = .ok v) :
    2 ≤ fuel ∧ v = publicValue this.store key := by
  have h2 : 2 ≤ fuel := by
    by_contra hlt
    have : fuel = 0 ∨ fuel = 1 := by omega
    rcases this with e | e <;> subst e <;> simp [SchemaModel.get, merge, clone, truthy] at h
  refine ⟨h2, ?_⟩
  rw [get_public env fuel this key h2] at h
  injection h with h
  exact h.symm

/-- The loop of `toJSON`, when it returns, has built the object of the public values of
the declared names. -/
theorem toJSON_loop_of_ok (env : Env) (fuel : Nat) (this : Instance) (strip : Bool)
    (names : List String) (hn : names.Nodup) (res : Val)
    (h : names.foldlM (fun res key =>
      SchemaModel.get env fuel this key .undefined >>= fun val =>
        if !strip || !isUndefined val then setProp res key val else .ok res) (.obj [])
      = .ok res) :
    res = .obj (rawJSON this.store strip names) := by
  cases names with
  | nil =>
    simp only [List.foldlM_nil, pure_eq_ok, Except.ok.injEq] at h
    rw [← h]; rfl
  | cons k rest =>
    have h2 : 2 ≤ fuel := by
      rw [List.foldlM_cons] at h
      cases hg : SchemaModel.get env fuel this k .undefined with
      | error e => simp [hg] at h
      | ok v => exact (get_public_of_ok env fuel this k v hg).1
    rw [toJSON_loop env fuel this strip h2 (k :: rest) [] (by simpa using hn)] at h
    injection h with h
    rw [← h]; rfl


theorem merge_fuel_unique (n m : Nat) (a b r r' : Val) (h : merge n a b = .ok r)
    (h' : merge m a b = .ok r') : r = r' := by
  have h1 := merge_mono_le n (max n m) (le_max_left _ _) a b r h
  have h2 := merge_mono_le m (max n m) (le_max_right _ _) a b r' h'
  rw [h1] at h2
  injection h2

/-! ## Structural clone and merge: the claims -/

/-- Claim C8. The empty object is a right identity of `merge` up to cloning: for every
structural `a`, `merge(a, {})` returns what `clone(a)` returns, and that is `a` itself up
to deep equality. -/
theorem merge_empty_right (a : Val) (fuel : Nat) (hs : structural a = true)
    (ho : isObject a = true) (hd : depth a < fuel) :
    merge fuel a (.obj []) = clone fuel a none ∧ merge fuel a (.obj []) = .ok a := by
  obtain ⟨n, rfl⟩ : ∃ n, fuel = n + 1 := ⟨fuel - 1, by omega⟩
  have h1 : clone n a none = .ok a := clone_structural n a none rfl hs ho (by omega)
  have h2 : clone (n + 1) a none = .ok a := clone_structural (n + 1) a none rfl hs ho (by omega)
  have h3 : merge (n + 1) a (.obj []) = .ok a := by
    rw [merge_succ, h1]
    rfl
  exact ⟨by rw [h3, h2], h3⟩

/-- Witness of C8 on `{p: {x: 1}, q: [2]}`. -/
theorem merge_empty_right_witness :
    merge 3 (.obj [("p", .obj [("x", .num 1)]), ("q", .arr [.num 2])]) (.obj [])
        = clone 3 (.obj [("p", .obj [("x", .num 1)]), ("q", .arr [.num 2])]) none ∧
      merge 3 (.obj [("p", .obj [("x", .num 1)]), ("q", .arr [.num 2])]) (.obj [])
        = .ok (.obj [("p", .obj [("x", .num 1)]), ("q", .arr [.num 2])]) :=
  merge_empty_right _ 3 (by decide) (by decide) (by decide)

/-- Counterexample to C5: `merge({p:[1,2]}, {p:[3]})` is `{p:[3,2]}` at every call depth
at which it returns; the array of the overlay is merged index by index into the array of
the base, it does not replace it. -/
theorem merge_array_not_replaced :
    (∀ fuel, 3 ≤ fuel →
      merge fuel (.obj [("p", .arr [.num 1, .num 2])]) (.obj [("p", .arr [.num 3])])
        = .ok (.obj [("p", .arr [.num 3, .num 2])])) ∧
    getProp (.obj [("p", .arr [.num 3, .num 2])]) "p"
      ≠ getProp (.obj [("p", .arr [.num 3])]) "p" := by
  refine ⟨fun fuel h => merge_mono_le 3 fuel h _ _ _ rfl, ?_⟩
  simp [getProp, assocGet]

/-- Claim C5, amended. For objects `base` and `overlay` and a key `k` of `overlay` whose
value is an array or a date: when `base[k]` is not itself a container (it is absent,
`undefined`, `null` or a primitive), `merge(base, overlay)[k]` is `overlay[k]`, replaced
wholesale.  The call returns, for every call depth above the depth of a structural
`base`, when no key of `overlay` holds a container on both sides. -/
theorem merge_array_or_date_replaces (fa fb : List (String × Val)) (k : String)
    (hfa : (fa.map Prod.fst).Nodup) (hfb : (fb.map Prod.fst).Nodup)
    (hk : k ∈ fb.map Prod.fst)
    (hv : (∃ xs, getProp (.obj fb) k = .arr xs) ∨ (∃ t, getProp (.obj fb) k = .date t))
    (hbase : isObject (getProp (.obj fa) k) = false) :
    (∀ fuel r, merge fuel (.obj fa) (.obj fb) = .ok r → getProp r k = getProp (.obj fb) k) ∧
    (structural (.obj fa) = true →
      (∀ j, j ∈ fb.map Prod.fst →
        isObject (getProp (.obj fa) j) = false ∨ isObject (getProp (.obj fb) j) = false) →
      ∀ fuel, depth (.obj fa) < fuel → ∃ r, merge fuel (.obj fa) (.obj fb) = .ok r) := by
  constructor
  · intro fuel r h
    cases fuel with
    | zero => simp [merge] at h
    | succ n =>
      obtain ⟨lc, l, hc, hr, _, _, _, hin⟩ := merge_obj_get n fa fb r hfa hfb h
      obtain ⟨lc', hlc', _, _, hiso, _⟩ := clone_obj_get n fa _ hfa hc
      have e : lc' = lc := by injection hlc'.symm
      subst e
      obtain ⟨v, hv', hget⟩ := hin k hk
      have ho2 : isObject (getProp (.obj fb) k) = true := by
        rcases hv with ⟨xs, e⟩ | ⟨t, e⟩ <;> rw [e] <;> rfl
      have ho1 : ¬ isObject (getProp (.obj lc') k) = true := by
        rw [← hiso k, hbase]; simp
      simp only [mergeVal, if_pos ho2, if_neg ho1, Except.ok.injEq] at hv'
      rw [hr, getProp_obj l, hget, ← hv']
      rfl
  · intro hs hall fuel hd
    obtain ⟨n, rfl⟩ : ∃ n, fuel = n + 1 := ⟨fuel - 1, by omega⟩
    have hca : clone n (.obj fa) none = .ok (.obj fa) :=
      clone_structural _ _ _ rfl hs rfl (by omega)
    rw [merge_succ, hca]
    simp only [ok_bind, objectKeysE_obj]
    apply foldlM_assign_ok _ (fun l l' k e => mergeVal_congr n _ l l' k e) _ _ hfb
    intro j hj
    simp only [mergeVal]
    rcases hall j hj with h1 | h1
    · split
      · rw [if_neg (by rw [h1]; simp)]; exact ⟨_, rfl⟩
      · exact ⟨_, rfl⟩
    · rw [if_neg (by rw [h1]; simp)]; exact ⟨_, rfl⟩

/-- Witness of the amended C5 on `merge({q: 1}, {p: [3]})`: the call returns and the
result holds `[3]` under `p`. -/
theorem merge_array_or_date_replaces_witness :
    (∀ fuel r, merge fuel (.obj [("q", .num 1)]) (.obj [("p", .arr [.num 3])]) = .ok r →
        getProp r "p" = .arr [.num 3]) ∧
      ∃ r, merge 2 (.obj [("q", .num 1)]) (.obj [("p", .arr [.num 3])]) = .ok r :=
  ⟨(merge_array_or_date_replaces [("q", .num 1)] [("p", .arr [.num 3])] "p"
      (by decide) (by decide) (by decide) (Or.inl ⟨[.num 3], rfl⟩) rfl).1,
    (merge_array_or_date_replaces [("q", .num 1)] [("p", .arr [.num 3])] "p"
      (by decide) (by decide) (by decide) (Or.inl ⟨[.num 3], rfl⟩) rfl).2 (by decide)
      (by
        intro j hj
        simp only [List.map_cons, List.map_nil, List.mem_singleton] at hj
        subst hj
        exact Or.inl rfl)
      2 (by decide)⟩

/-- Claim C6. For plain objects `a` and `b` (values are primitives or nested plain
objects), `merge(a, b)` returns, at every call depth above the depth of both, one object
whose key set is the union of the key sets of `a` and `b` and whose value under `k` is
`a[k]` when `k` is not a key of `b`, `merge(a[k], b[k])` when `k` is a key of `b` and both
values are plain objects, and `b[k]` in every other case. -/
theorem merge_plain_objects (fa fb : List (String × Val))
    (ha : plainObject (.obj fa) = true) (hb : plainObject (.obj fb) = true) :
    ∃ l : List (String × Val),
      (∀ fuel, max (depth (.obj fa)) (depth (.obj fb)) < fuel →
        merge fuel (.obj fa) (.obj fb) = .ok (.obj l)) ∧
      (l.map Prod.fst).Nodup ∧
      (∀ k, k ∈ objectKeys (.obj l) ↔ k ∈ objectKeys (.obj fa) ∨ k ∈ objectKeys (.obj fb)) ∧
      (∀ k, k ∉ objectKeys (.obj fb) → getProp (.obj l) k = getProp (.obj fa) k) ∧
      (∀ k, k ∈ objectKeys (.obj fb) → plainObject (getProp (.obj fa) k) = true →
        plainObject (getProp (.obj fb) k) = true →
        ∀ fuel, max (depth (getProp (.obj fa) k)) (depth (getProp (.obj fb) k)) < fuel →
          merge fuel (getProp (.obj fa) k) (getProp (.obj fb) k) = .ok (getProp (.obj l) k)) ∧
      (∀ k, k ∈ objectKeys (.obj fb) →
        (plainObject (getProp (.obj fa) k) = false ∨ plainObject (getProp (.obj fb) k) = false) →
        getProp (.obj l) k = getProp (.obj fb) k) := by
  have hna : (fa.map Prod.fst).Nodup := by
    simp only [plainObject, Bool.and_eq_true, decide_eq_true_eq] at ha; exact ha.1
  have hnb : (fb.map Prod.fst).Nodup := by
    simp only [plainObject, Bool.and_eq_true, decide_eq_true_eq] at hb; exact hb.1
  obtain ⟨r, hr⟩ := merge_plain_ok (max (depth (.obj fa)) (depth (.obj fb))) _ _ ha hb
    (le_max_left _ _) (le_max_right _ _)
  obtain ⟨lc, l, hc, hl, hnd, hkeys, hout, hin⟩ := merge_obj_get _ fa fb r hna hnb hr
  have hca : clone (max (depth (.obj fa)) (depth (.obj fb))) (.obj fa) none = .ok (.obj fa) :=
    clone_structural _ _ _ rfl (plainObject_structural _ _ le_rfl ha) rfl (le_max_left _ _)
  have e : lc = fa := by rw [hca] at hc; injection hc with hc; injection hc with hc; exact hc.symm
  subst e
  subst hl
  have hiso : ∀ (kvs : List (String × Val)) (k : String), plainObject (.obj kvs) = true →
      isObject (getProp (.obj kvs) k) = plainObject (getProp (.obj kvs) k) := by
    intro kvs k hp
    rcases plainObject_getProp kvs k hp with ⟨h1, _⟩ | h1
    · rw [h1, plainObject_isObject _ h1]
    · rw [h1]
      cases hv : getProp (.obj kvs) k <;> simp_all [isObject, plainObject]
  refine ⟨l, fun fuel hf => merge_mono_le _ fuel hf _ _ _ hr, hnd, hkeys, ?_, ?_, ?_⟩
  · intro k hk
    rw [getProp_obj, getProp_obj, hout k hk]
  · intro k hk pa pb fuel hf
    obtain ⟨v, hv, hget⟩ := hin k hk
    simp only [mergeVal, if_pos (plainObject_isObject _ pa),
      if_pos (plainObject_isObject _ pb)] at hv
    obtain ⟨r', hr'⟩ := merge_plain_ok
      (max (depth (getProp (.obj lc) k)) (depth (getProp (.obj fb) k))) _ _ pa pb
      (le_max_left _ _) (le_max_right _ _)
    have e := merge_fuel_unique _ _ _ _ _ _ hv hr'
    rw [getProp_obj l, hget]
    simp only [Option.getD_some]
    rw [e]
    exact merge_mono_le _ fuel hf _ _ _ hr'
  · intro k hk hor
    obtain ⟨v, hv, hget⟩ := hin k hk
    rw [← hiso lc k ha, ← hiso fb k hb] at hor
    have hv' : v = getProp (.obj fb) k := by
      simp only [mergeVal] at hv
      rcases hor with h1 | h1
      · split at hv
        · rw [if_neg (by rw [h1]; simp)] at hv; injection hv with hv; exact hv.symm
        · injection hv with hv; exact hv.symm
      · rw [if_neg (by rw [h1]; simp)] at hv; injection hv with hv; exact hv.symm
    rw [getProp_obj l, hget, ← hv']
    rfl

/-- Witness of C6 on `merge({p: {x: 1}}, {p: {y: 2}})`, which is `{p: {x: 1, y: 2}}`. -/
theorem merge_plain_objects_witness :
    (∃ l : List (String × Val),
      (∀ fuel, max (depth (.obj [("p", .obj [("x", .num 1)])]))
          (depth (.obj [("p", .obj [("y", .num 2)])])) < fuel →
        merge fuel (.obj [("p", .obj [("x", .num 1)])]) (.obj [("p", .obj [("y", .num 2)])])
          = .ok (.obj l)) ∧
      (l.map Prod.fst).Nodup ∧
      (∀ k, k ∈ objectKeys (.obj l) ↔ k ∈ objectKeys (.obj [("p", .obj [("x", .num 1)])]) ∨
        k ∈ objectKeys (.obj [("p", .obj [("y", .num 2)])])) ∧
      (∀ k, k ∉ objectKeys (.obj [("p", .obj [("y", .num 2)])]) →
        getProp (.obj l) k = getProp (.obj [("p", .obj [("x", .num 1)])]) k) ∧
      (∀ k, k ∈ objectKeys (.obj [("p", .obj [("y", .num 2)])]) →
        plainObject (getProp (.obj [("p", .obj [("x", .num 1)])]) k) = true →
        plainObject (getProp (.obj [("p", .obj [("y", .num 2)])]) k) = true →
        ∀ fuel, max (depth (getProp (.obj [("p", .obj [("x", .num 1)])]) k))
            (depth (getProp (.obj [("p", .obj [("y", .num 2)])]) k)) < fuel →
          merge fuel (getProp (.obj [("p", .obj [("x", .num 1)])]) k)
            (getProp (.obj [("p", .obj [("y", .num 2)])]) k) = .ok (getProp (.obj l) k)) ∧
      (∀ k, k ∈ objectKeys (.obj [("p", .obj [("y", .num 2)])]) →
        (plainObject (getProp (.obj [("p", .obj [("x", .num 1)])]) k) = false ∨
          plainObject (getProp (.obj [("p", .obj [("y", .num 2)])]) k) = false) →
        getProp (.obj l) k = getProp (.obj [("p", .obj [("y", .num 2)])]) k)) ∧
    merge 3 (.obj [("p", .obj [("x", .num 1)])]) (.obj [("p", .obj [("y", .num 2)])])
      = .ok (.obj [("p", .obj [("x", .num 1), ("y", .num 2)])]) :=
  ⟨merge_plain_objects [("p", .obj [("x", .num 1)])] [("p", .obj [("y", .num 2)])]
    (by decide) (by decide), rfl⟩

theorem append_left_cancel_str (p a b : String) (h : p ++ a = p ++ b) : a = b := by
  have hd := congrArg String.data h
  simp only [String.data_append] at hd
  exact String.ext (List.append_cancel_left hd)

theorem truthy_str_append (p a : String) (hp : p ≠ "") : truthy (.str (p ++ a)) = true := by
  simp only [truthy, bne_iff_ne, ne_eq]
  intro h
  apply hp
  have hd := congrArg String.data h
  simp only [String.data_append] at hd
  have : p.data = [] := (List.append_eq_nil.1 hd).1
  exact String.ext this

/-- What `getSchema` finds after a loop of `addSchema` over the keys `ks`. -/
theorem foldl_addSchema_get (pre : String) (f : String → Val) (n : String) (ks : List String) :
    ∀ (v0 : Registry), assocGet (pre ++ n)
      (ks.foldl (fun v k => v.addSchema (pre ++ k) (f k)) v0).schemas =
      if n ∈ ks then some (f n) else assocGet (pre ++ n) v0.schemas := by
  induction ks with
  | nil => intro v0; simp
  | cons k rest ih =>
    intro v0
    rw [List.foldl_cons, ih]
    by_cases h1 : n ∈ rest
    · simp [h1]
    · simp only [h1, if_false, Registry.addSchema, assocGet, List.mem_cons, or_false]
      by_cases h2 : k = n
      · subst h2; simp
      · have : ¬ pre ++ k = pre ++ n := fun e => h2 (append_left_cancel_str _ _ _ e)
        rw [if_neg this, if_neg (fun e => h2 e.symm)]

/-- A reference to a member of the schema's own `definitions` is found in the registry
that `getProperties` builds. -/
theorem registered_getSchema (schema : Val) (validator : Option Registry) (n : String)
    (ht : truthy (getProp schema "definitions") = true)
    (hn : n ∈ objectKeys (getProp schema "definitions")) :
    (registered schema validator).getSchema (.str ("#/definitions/" ++ n)) =
      getProp (getProp schema "definitions") n := by
  simp only [registered, ht, if_true, Registry.getSchema]
  rw [foldl_addSchema_get "#/definitions/" (fun k => getProp (getProp schema "definitions") k)]
  simp [hn]

theorem truthy_arr (xs : List Val) : truthy (.arr xs) = true := rfl

theorem truthy_bool_false : truthy (.bool false) = false := rfl

/-! ## Property resolution: the claims -/

/-- Claim C3. For a schema with no `$ref` and no `properties` whose `anyOf` (or, with no
`anyOf`, whose `allOf`) is the list of branches `bs`, `getProperties` returns the
left-to-right fold `merge(...merge(merge({}, P1), P2)..., Pn)` of the property maps of the
branches, each resolved by `getProperties` under the same registry; hence the resolved
names are exactly the names of the branches together, later branches being merged onto
earlier ones. -/
theorem getProperties_composition (fuel : Nat) (schema : Val) (validator : Option Registry)
    (bs ps : List Val) (reg' : Registry)
    (hn : isNullish schema = false)
    (href : truthy (getProp schema "$ref") = false)
    (hprops : truthy (getProp schema "properties") = false)
    (hdefs : getProp schema "anyOf" = .arr bs ∨
      (truthy (getProp schema "anyOf") = false ∧ getProp schema "allOf" = .arr bs))
    (hps : resolveBranches fuel bs (registered schema validator) = .ok (ps, reg')) :
    getProperties (fuel + 1) schema validator =
        (ps.foldlM (merge fuel) (.obj []) >>= fun res => .ok (res, reg')) ∧
      ∀ res reg, getProperties (fuel + 1) schema validator = .ok (res, reg) →
        ∀ k, k ∈ objectKeys res ↔ ∃ p ∈ ps, k ∈ objectKeys p := by
  have hc : compositionOf validator.isNone schema = .arr bs := by
    rcases hdefs with h | ⟨h1, h2⟩
    · simp [compositionOf, h, truthy_arr]
    · simp [compositionOf, h1, h2, truthy_arr]
  have heq : getProperties (fuel + 1) schema validator =
      (ps.foldlM (merge fuel) (.obj []) >>= fun res => .ok (res, reg')) := by
    rw [getProperties_succ]
    simp only [readProp, hn, ok_bind, href, resolveFrom, hprops, hc, truthy_arr,
      Bool.false_eq_true, if_false, if_true]
    exact foldlM_branchStep fuel bs _ _ _ _ hps
  refine ⟨heq, ?_⟩
  intro res reg h k
  rw [heq] at h
  cases hf : ps.foldlM (merge fuel) (.obj []) with
  | error e => simp [hf] at h
  | ok m =>
    rw [hf] at h
    simp only [ok_bind, Except.ok.injEq, Prod.mk.injEq] at h
    obtain ⟨l, hl, hk⟩ := foldlM_merge_keys _ _ _ _ hf
    rw [← h.1, hl]
    show k ∈ l.map Prod.fst ↔ _
    rw [hk k]
    simp

/-- Witness of C3 on `{allOf: [{properties: {a: {type: 'string'}}}, {properties: {b:
{type: 'number'}}}]}`, which resolves to the names `a` and `b`. -/
theorem getProperties_composition_witness :
    (getProperties 4 allOfSchema none =
        ([Val.obj [("a", typeString)], Val.obj [("b", typeNumber)]].foldlM (merge 3) (.obj [])
          >>= fun res => .ok (res, registered allOfSchema none)) ∧
      ∀ res reg, getProperties 4 allOfSchema none = .ok (res, reg) →
        ∀ k, k ∈ objectKeys res ↔
          ∃ p ∈ [Val.obj [("a", typeString)], Val.obj [("b", typeNumber)]],
            k ∈ objectKeys p) ∧
    getProperties 4 allOfSchema none =
      .ok (.obj [("a", typeString), ("b", typeNumber)], registered allOfSchema none) :=
  ⟨getProperties_composition 3 allOfSchema none
    [.obj [("properties", .obj [("a", typeString)])],
      .obj [("properties", .obj [("b", typeNumber)])]]
    [.obj [("a", typeString)], .obj [("b", typeNumber)]] (registered allOfSchema none)
    rfl rfl rfl (Or.inr ⟨rfl, rfl⟩) rfl, rfl⟩

/-- Counterexample to C4: for `{$ref: '#/definitions/x', definitions: {x: {oneOf:
[{properties: {a: {type: 'string'}}}]}}}` the top-level resolution yields the name `a`,
because it goes on with the definition as the root and flattens its `oneOf`, whereas the
resolver called on the definition under the same registry yields the empty map. -/
theorem getProperties_ref_oneOf_differs :
    (∀ fuel, 4 ≤ fuel → getProperties fuel refOneOfSchema none =
      .ok (.obj [("a", typeString)], registered refOneOfSchema none)) ∧
    (∀ fuel, 1 ≤ fuel →
      getProperties fuel oneOfDefinition (some (registered refOneOfSchema none)) =
        .ok (.obj [], registered refOneOfSchema none)) ∧
    Val.obj [("a", typeString)] ≠ Val.obj [] := by
  refine ⟨fun fuel h => getProperties_mono_le 4 fuel h _ _ _ rfl,
    fun fuel h => getProperties_mono_le 1 fuel h _ _ _ rfl, by simp⟩

/-- Claim C4, amended. For a top-level schema whose `$ref` is `'#/definitions/n'` and whose
`definitions` map `n` to a sub-schema `s`: the definitions are registered before the
`$ref` is looked up, the schema is replaced by `s`, and resolution goes on with `s`;
the result equals what the resolver computes for `s` under the registry built from the
top-level schema whenever `s` has no `$ref` and no `definitions` of its own and either
has `properties`, `anyOf` or `allOf`, or has no `oneOf`. -/
theorem getProperties_ref (fuel : Nat) (schema s : Val) (n : String)
    (href : getProp schema "$ref" = .str ("#/definitions/" ++ n))
    (hdefs : truthy (getProp schema "definitions") = true)
    (hn : n ∈ objectKeys (getProp schema "definitions"))
    (hs : getProp (getProp schema "definitions") n = s)
    (hsref : truthy (getProp s "$ref") = false)
    (hsdefs : truthy (getProp s "definitions") = false)
    (hsone : truthy (getProp s "properties") = true ∨ truthy (getProp s "anyOf") = true ∨
      truthy (getProp s "allOf") = true ∨ truthy (getProp s "oneOf") = false) :
    getProperties fuel schema none =
      getProperties fuel s (some (registered schema none)) := by
  cases fuel with
  | zero => rfl
  | succ m =>
    have hnn : isNullish schema = false := by
      cases schema <;> simp_all [isNullish, getProp]
    have htr : truthy (.str ("#/definitions/" ++ n)) = true :=
      truthy_str_append _ _ (by decide)
    rw [getProperties_succ, getProperties_succ]
    simp only [readProp, hnn, ok_bind, href, htr, if_true, Bool.false_eq_true, if_false]
    rw [registered_getSchema schema none n hdefs hn, hs]
    by_cases hsn : isNullish s = true
    · simp [resolveFrom, readProp, hsn]
    · have hreg : registered s (some (registered schema none)) = registered schema none := by
        simp [registered, hsdefs]
      simp only [hsn, ok_bind, hsref, Bool.false_eq_true, if_false, hreg]
      simp only [resolveFrom, readProp, hsn, ok_bind, Bool.false_eq_true, if_false]
      by_cases hp : truthy (getProp s "properties") = true
      · simp [hp]
      · have hcomp : compositionOf true s = compositionOf false s ∨
            (truthy (compositionOf true s) = false ∧
              truthy (compositionOf false s) = false) := by
          simp only [compositionOf, if_true, Bool.false_eq_true, if_false]
          by_cases h1 : truthy (getProp s "anyOf") = true
          · simp [h1]
          · by_cases h2 : truthy (getProp s "allOf") = true
            · simp [h1, h2]
            · right
              have ho : truthy (getProp s "oneOf") = false := by
                rcases hsone with h | h | h | h
                · exact absurd h hp
                · exact absurd h h1
                · exact absurd h h2
                · exact h
              simp [h1, h2, ho, truthy_bool_false]
        simp only [hp, Bool.false_eq_true, if_false, Option.isNone_none, Option.isNone_some]
        rcases hcomp with e | ⟨e1, e2⟩
        · rw [e]
        · rw [if_neg (by rw [e1]; simp), if_neg (by rw [e2]; simp)]

/-- Witness of the amended C4 on `{$ref: '#/definitions/x', definitions: {x: {properties:
{a: {type: 'string'}}}}}`, which resolves to the single name `a`. -/
theorem getProperties_ref_witness :
    getProperties 3 refSchema none =
        getProperties 3 (.obj [("properties", .obj [("a", typeString)])])
          (some (registered refSchema none)) ∧
      getProperties 3 refSchema none =
        .ok (.obj [("a", typeString)], registered refSchema none) :=
  ⟨getProperties_ref 3 refSchema (.obj [("properties", .obj [("a", typeString)])]) "x"
    rfl rfl (by decide) rfl rfl rfl (Or.inl rfl), rfl⟩

/-! ## The class: `set` and `validate` -/

theorem set_eq (env : Env) (fuel : Nat) (this : Instance) (data value options : Val) :
    SchemaModel.set env fuel this data value options =
      match merge fuel DEFAULT_OPTIONS (setArgs data value options).2 with
      | .error e => (this, .error e)
      | .ok o =>
        if !truthy (getProp o "internal") && truthy (getProp o "validate") then
          match (SchemaModel.toJSON env fuel this true >>= fun json =>
              merge fuel json (setArgs data value options).1 >>= fun d =>
                SchemaModel.validate env fuel this d) with
          | .error e => (this, .error e)
          | .ok res =>
            if !res.valid then (this, .error (validationFailure res))
            else (⟨this.schema, SchemaModelJs.set env.hasSymbol this.store
              (setArgs data value options).1 (truthy (getProp o "internal"))⟩, .ok ())
        else (⟨this.schema, SchemaModelJs.set env.hasSymbol this.store
          (setArgs data value options).1 (truthy (getProp o "internal"))⟩, .ok ()) := rfl

/-- Whenever `set` raises, the instance is what it was. -/
theorem set_error_unchanged (env : Env) (fuel : Nat) (this : Instance)
    (data value options : Val) (e : Err)
    (h : (SchemaModel.set env fuel this data value options).2 = .error e) :
    (SchemaModel.set env fuel this data value options).1 = this := by
  rw [set_eq] at h ⊢
  cases hm : merge fuel DEFAULT_OPTIONS (setArgs data value options).2 with
  | error e' => rfl
  | ok o =>
    rw [hm] at h
    simp only at h ⊢
    split at h
    · rename_i hc
      rw [if_pos hc]
      split
      · rfl
      · rename_i res hres
        rw [hres] at h
        simp only at h
        split at h
        · rename_i hv; rw [if_pos hv]
        · simp at h
    · simp at h

/-- The result of `validate` on data that is given: what the validator returns, checked,
or what the validator throws. -/
theorem validate_data (env : Env) (fuel : Nat) (this : Instance) (data schema : Val)
    (hd : truthy data = true) (hs : this.schema = some schema) :
    SchemaModel.validate env fuel this data =
      env.validateResult data schema >>= fun res => .ok (checkedResult res) := by
  simp only [SchemaModel.validate, hd, if_true, pure_eq_ok, ok_bind, SchemaModel.schema, hs]
  rfl

/-- A result of `merge` is a container, hence truthy. -/
theorem merge_truthy (fuel : Nat) (a b r : Val) (h : merge fuel a b = .ok r) :
    truthy r = true := by
  cases fuel with
  | zero => simp [merge] at h
  | succ n =>
    rw [merge_succ] at h
    cases hc : clone n a none with
    | error e => simp [hc] at h
    | ok res =>
      rw [hc] at h
      simp only [ok_bind] at h
      have hobj := clone_isObject _ _ _ _ hc
      cases hk : objectKeysE b with
      | error e => simp [hk] at h
      | ok keys =>
        rw [hk] at h
        simp only [ok_bind] at h
        have key : ∀ (ks : List String) (s r : Val), isObject s = true →
            ks.foldlM (assignWith (mergeVal n b)) s = .ok r → isObject r = true := by
          intro ks
          induction ks with
          | nil =>
            intro s r hs hr
            simp only [List.foldlM_nil, pure_eq_ok, Except.ok.injEq] at hr
            rw [← hr]; exact hs
          | cons k rest ih =>
            intro s r hs hr
            rw [List.foldlM_cons] at hr
            cases hst : assignWith (mergeVal n b) s k with
            | error e => simp [hst] at hr
            | ok s' =>
              rw [hst] at hr
              apply ih s' r _ hr
              simp only [assignWith] at hst
              cases hv : mergeVal n b s k with
              | error e => simp [hv] at hst
              | ok v =>
                rw [hv] at hst
                simp only [ok_bind] at hst
                cases s <;> simp [setProp] at hst
                case arr xs =>
                  split at hst
                  · split at hst <;> (simp only [Except.ok.injEq] at hst; rw [← hst]; rfl)
                  · simp at hst
                all_goals (rw [← hst]; rfl)
        have := key keys res r hobj h
        cases r <;> simp_all [isObject, truthy]

/-- The result of `validate` without data, when the instance serializes. -/
theorem validate_no_data (env : Env) (fuel : Nat) (this : Instance) (data schema json : Val)
    (hd : truthy data = false) (hs : this.schema = some schema)
    (hj : SchemaModel.toJSON env fuel this true = .ok json) :
    SchemaModel.validate env fuel this data =
      env.validateResult json schema >>= fun res => .ok (checkedResult res) := by
  simp only [SchemaModel.validate, hd, Bool.false_eq_true, if_false, hj, ok_bind,
    SchemaModel.schema, hs]
  rfl

theorem checkedResult_fields (r : ValidationResult) :
    (checkedResult r).valid = (r.valid && r.missing.isEmpty) ∧
      (checkedResult r).error = r.error ∧ (checkedResult r).missing = r.missing := by
  simp only [checkedResult]
  cases hv : r.valid <;> cases hm : r.missing <;> simp [hv, hm]

/-- A serialization exists only for an instance of a class that has a schema. -/
theorem toJSON_ok_schema (env : Env) (fuel : Nat) (this : Instance) (strip : Bool) (json : Val)
    (hj : SchemaModel.toJSON env fuel this strip = .ok json) : ∃ schema, this.schema = some schema := by
  cases fuel with
  | zero => simp [SchemaModel.toJSON] at hj
  | succ n =>
    cases hs : this.schema with
    | some s => exact ⟨s, rfl⟩
    | none =>
      simp [SchemaModel.toJSON, SchemaModel.schemaProperties, SchemaModel.schema, hs] at hj

/-! ## The class: the claims -/

/-- Claim C1. With validation on (the options resolve to `internal = false`, `validate =
true`): if the validation result for the candidate snapshot is invalid, `set` raises and
the instance is exactly what it was before the call, so that every `get(name)`, on the
public and on the internal path, and `toJSON()` return what they returned before. -/
theorem set_invalid_leaves_state (env : Env) (fuel : Nat) (this : Instance)
    (data value options o json cand : Val) (res : ValidationResult)
    (ho : merge fuel DEFAULT_OPTIONS (setArgs data value options).2 = .ok o)
    (hint : truthy (getProp o "internal") = false)
    (hval : truthy (getProp o "validate") = true)
    (hj : SchemaModel.toJSON env fuel this true = .ok json)
    (hc : merge fuel json (setArgs data value options).1 = .ok cand)
    (hr : SchemaModel.validate env fuel this cand = .ok res)
    (hinv : res.valid = false) :
    (SchemaModel.set env fuel this data value options).2 = .error (validationFailure res) ∧
      (SchemaModel.set env fuel this data value options).1 = this ∧
      (∀ name opts,
        SchemaModel.get env fuel (SchemaModel.set env fuel this data value options).1 name opts
          = SchemaModel.get env fuel this name opts) ∧
      (∀ strip,
        SchemaModel.toJSON env fuel (SchemaModel.set env fuel this data value options).1 strip
          = SchemaModel.toJSON env fuel this strip) := by
  have h2 : (SchemaModel.set env fuel this data value options).2
      = .error (validationFailure res) := by
    rw [set_eq, ho]
    simp [hint, hval, hj, hc, hr, hinv]
  have h1 := set_error_unchanged env fuel this data value options _ h2
  refine ⟨h2, h1, ?_, ?_⟩
  · intro name opts; rw [h1]
  · intro strip; rw [h1]

/-- Witness of C1: on the class bound to `{properties: {age: {type: 'number'}}}`,
`new K().set('age', 'not-a-number')` raises and leaves the instance as it was. -/
theorem set_invalid_leaves_state_witness :
    (SchemaModel.set ageEnv 4 ⟨some ageSchema, []⟩ (.str "age") (.str "not-a-number") .undefined).2
        = .error (validationFailure
            ⟨false, some ⟨"Invalid type: string (expected number)"⟩, []⟩) ∧
      (SchemaModel.set ageEnv 4 ⟨some ageSchema, []⟩ (.str "age") (.str "not-a-number")
        .undefined).1 = ⟨some ageSchema, []⟩ ∧
      (∀ name opts,
        SchemaModel.get ageEnv 4 (SchemaModel.set ageEnv 4 ⟨some ageSchema, []⟩ (.str "age")
            (.str "not-a-number") .undefined).1 name opts
          = SchemaModel.get ageEnv 4 ⟨some ageSchema, []⟩ name opts) ∧
      (∀ strip,
        SchemaModel.toJSON ageEnv 4 (SchemaModel.set ageEnv 4 ⟨some ageSchema, []⟩ (.str "age")
            (.str "not-a-number") .undefined).1 strip
          = SchemaModel.toJSON ageEnv 4 ⟨some ageSchema, []⟩ strip) :=
  set_invalid_leaves_state ageEnv 4 ⟨some ageSchema, []⟩ (.str "age") (.str "not-a-number")
    .undefined DEFAULT_OPTIONS (.obj []) (.obj [("age", .str "not-a-number")])
    ⟨false, some ⟨"Invalid type: string (expected number)"⟩, []⟩ rfl rfl rfl rfl rfl rfl rfl

/-- Counterexample to C9: `set` raises although the validator answers no invalid result.
On an instance of the base class the raised error is `Missing schema`; on an instance of
the class bound to `{$ref: '#/definitions/missing'}` it is the `TypeError` of
`getProperties`.  Both come from `toJSON(true)`, before any validation result exists, with
a validator that accepts every data.  On the class bound to a schema the validator throws
on, `set` raises what the validator throws.  None of the messages is one of the three the
claim lists. -/
theorem set_raises_without_validation_result :
    (∀ fuel, (SchemaModel.set acceptAll (fuel + 2) ⟨none, []⟩ (.obj [("a", .num 1)])
        .undefined .undefined).2 = .error (.error "Missing schema")) ∧
    (∀ fuel, (SchemaModel.set acceptAll (fuel + 3) ⟨some danglingRefSchema, []⟩
        (.obj [("a", .num 1)]) .undefined .undefined).2 = .error .typeError) ∧
    (∀ data schema, acceptAll.validateResult data schema = .ok ⟨true, none, []⟩) ∧
    (SchemaModel.set throwingEnv 4 ⟨some patternSchema, []⟩ (.obj [("a", .str "x")])
        .undefined .undefined).2
      = .error (.error "Invalid regular expression: /[/: Unterminated character class") :=
  ⟨fun _ => rfl, fun _ => rfl, fun _ _ => rfl, rfl⟩

/-- Claim C9, amended. Let the options resolve to `o`.  With `internal` true or
`validate` false, `set` never raises, whatever the validator would answer.  With
`internal` false and `validate` true, and when the instance serializes (`toJSON(true)`
returns; it raises for a class without schema or with a schema that does not resolve) and
the candidate snapshot `merge(toJSON(true), data)` is built: when the validator throws on
the snapshot, `set` raises what it throws; when the validator returns a result, `set`
raises if and only if the result is invalid or lists unresolved references, and the
message of the error is the validator's error message when one is present, otherwise
`Missing $ref schemas: ` followed by the identifiers joined by `, ` when there are any,
otherwise `Validation failed`. -/
theorem set_raises_iff (env : Env) (fuel : Nat) (this : Instance)
    (data value options o : Val)
    (ho : merge fuel DEFAULT_OPTIONS (setArgs data value options).2 = .ok o) :
    ((truthy (getProp o "internal") = true ∨ truthy (getProp o "validate") = false) →
      (SchemaModel.set env fuel this data value options).2 = .ok ()) ∧
    (truthy (getProp o "internal") = false → truthy (getProp o "validate") = true →
      ∀ json cand schema, SchemaModel.toJSON env fuel this true = .ok json →
        merge fuel json (setArgs data value options).1 = .ok cand →
        this.schema = some schema →
        (∀ e, env.validateResult cand schema = .error e →
          (SchemaModel.set env fuel this data value options).2 = .error e) ∧
        (∀ res, env.validateResult cand schema = .ok res →
          ((∃ e, (SchemaModel.set env fuel this data value options).2 = .error e) ↔
            (res.valid = false ∨ res.missing ≠ [])) ∧
          ((res.valid = false ∨ res.missing ≠ []) →
            (∀ e, res.error = some e → e.message ≠ "" →
              (SchemaModel.set env fuel this data value options).2
                = .error (.error e.message)) ∧
            ((∀ e, res.error = some e → e.message = "") → res.missing ≠ [] →
              (SchemaModel.set env fuel this data value options).2
                = .error (.error ("Missing $ref schemas: " ++
                    String.intercalate ", " res.missing))) ∧
            ((∀ e, res.error = some e → e.message = "") → res.missing = [] →
              (SchemaModel.set env fuel this data value options).2
                = .error (.error "Validation failed"))))) := by
  constructor
  · intro h
    rw [set_eq, ho]
    rcases h with h | h <;> simp [h]
  · intro hint hval json cand schema hj hc hs
    have hv := validate_data env fuel this cand schema (merge_truthy _ _ _ _ hc) hs
    constructor
    · intro e he
      rw [set_eq, ho]
      simp only [hint, hval, hj, hc, hv, he, ok_bind, error_bind, Bool.not_false,
        Bool.and_self, if_true]
    · intro res hres
      have hset : (SchemaModel.set env fuel this data value options).2 =
          if res.valid = false ∨ res.missing ≠ []
          then .error (validationFailure (checkedResult res))
          else .ok () := by
        rw [set_eq, ho]
        simp only [hint, hval, hj, hc, hv, hres, ok_bind, Bool.not_false, Bool.and_self,
          if_true]
        simp only [checkedResult]
        cases hvalid : res.valid <;> cases hmiss : res.missing <;> simp [hvalid, hmiss]
      have hfail : validationFailure (checkedResult res) = validationFailure res := by
        simp only [checkedResult]
        split <;> rfl
      refine ⟨?_, ?_⟩
      · rw [hset]
        constructor
        · rintro ⟨e, he⟩
          by_contra hcon
          rw [if_neg hcon] at he
          cases he
        · intro h
          rw [if_pos h]
          exact ⟨_, rfl⟩
      · intro h
        rw [hset, if_pos h, hfail]
        refine ⟨?_, ?_, ?_⟩
        · intro e he hm
          simp [validationFailure, he, hm]
        · intro hno hmiss
          cases herr : res.error with
          | none => simp [validationFailure, herr, hmiss]
          | some e => simp [validationFailure, herr, hno e herr, hmiss]
        · intro hno hmiss
          cases herr : res.error with
          | none => simp [validationFailure, herr, hmiss]
          | some e => simp [validationFailure, herr, hno e herr, hmiss]

/-- Witness of the amended C9: on the class bound to `{properties: {age: {type:
'number'}}}`, `new K().set('age', 'not-a-number')` raises the validator's message; on the
class bound to `{properties: {a: {type: 'string', pattern: '['}}}`, `set({a: 'x'})` raises
what the validator throws. -/
theorem set_raises_iff_witness :
    (SchemaModel.set ageEnv 4 ⟨some ageSchema, []⟩ (.str "age") (.str "not-a-number") .undefined).2
      = .error (.error "Invalid type: string (expected number)") ∧
    (SchemaModel.set throwingEnv 4 ⟨some patternSchema, []⟩ (.obj [("a", .str "x")])
        .undefined .undefined).2
      = .error (.error "Invalid regular expression: /[/: Unterminated character class") :=
  ⟨(((((set_raises_iff ageEnv 4 ⟨some ageSchema, []⟩ (.str "age") (.str "not-a-number")
      .undefined DEFAULT_OPTIONS rfl).2 rfl rfl (.obj [])
      (.obj [("age", .str "not-a-number")]) ageSchema rfl rfl rfl).2
      ⟨false, some ⟨"Invalid type: string (expected number)"⟩, []⟩ rfl).2 (Or.inl rfl)).1
      ⟨"Invalid type: string (expected number)"⟩ rfl (by decide)),
    ((set_raises_iff throwingEnv 4 ⟨some patternSchema, []⟩ (.obj [("a", .str "x")])
      .undefined .undefined DEFAULT_OPTIONS rfl).2 rfl rfl (.obj [])
      (.obj [("a", .str "x")]) patternSchema rfl rfl rfl).1 _ rfl⟩

/-- Counterexample to C10: `validate()` raises on an instance of the base class (`Missing
schema`) and on an instance of the class bound to `{$ref: '#/definitions/missing'}` (the
`TypeError` of `getProperties`, reached through `toJSON(true)`); and `validate(data)`
raises what the validator throws on a class bound to a schema the validator cannot use. -/
theorem validate_raises :
    (∀ fuel, SchemaModel.validate acceptAll (fuel + 1) ⟨none, []⟩ .undefined
      = .error (.error "Missing schema")) ∧
    (∀ fuel, SchemaModel.validate acceptAll (fuel + 2) ⟨some danglingRefSchema, []⟩ .undefined
      = .error .typeError) ∧
    (∀ fuel, SchemaModel.validate throwingEnv fuel ⟨some patternSchema, []⟩
        (.obj [("a", .str "x")])
      = .error (.error "Invalid regular expression: /[/: Unterminated character class")) :=
  ⟨fun _ => rfl, fun _ => rfl, fun _ => rfl⟩

/-- Claim C10, amended. On an instance of a class that has a schema, `validate(data)` with
data given returns a validation result whenever the validator returns one for the data
and the schema, and raises what the validator throws otherwise; `validate()` without data
does the same on the serialization of the instance, whenever the instance serializes (it
raises what `toJSON(true)` raises otherwise).  A result returned is the validator's result,
with `valid` turned to false when unresolved references are listed. -/
theorem validate_returns (env : Env) (fuel : Nat) (this : Instance) (data schema : Val)
    (hs : this.schema = some schema) :
    (truthy data = true →
      (∀ r, env.validateResult data schema = .ok r →
        ∃ res, SchemaModel.validate env fuel this data = .ok res ∧
          res.valid = (r.valid && r.missing.isEmpty) ∧ res.error = r.error ∧
          res.missing = r.missing) ∧
      (∀ e, env.validateResult data schema = .error e →
        SchemaModel.validate env fuel this data = .error e)) ∧
    (truthy data = false → ∀ json, SchemaModel.toJSON env fuel this true = .ok json →
      (∀ r, env.validateResult json schema = .ok r →
        ∃ res, SchemaModel.validate env fuel this data = .ok res ∧
          res.valid = (r.valid && r.missing.isEmpty) ∧ res.error = r.error ∧
          res.missing = r.missing) ∧
      (∀ e, env.validateResult json schema = .error e →
        SchemaModel.validate env fuel this data = .error e)) := by
  constructor
  · intro hd
    have hv := validate_data env fuel this data schema hd hs
    refine ⟨fun r hr => ⟨checkedResult r, ?_, checkedResult_fields r⟩, fun e he => ?_⟩
    · rw [hv, hr]; rfl
    · rw [hv, he]; rfl
  · intro hd json hj
    have hv := validate_no_data env fuel this data schema json hd hs hj
    refine ⟨fun r hr => ⟨checkedResult r, ?_, checkedResult_fields r⟩, fun e he => ?_⟩
    · rw [hv, hr]; rfl
    · rw [hv, he]; rfl

/-- Witness of the amended C10 on the class bound to `{properties: {age: {type:
'number'}}}`: `validate({age: 'x'})` returns an invalid result with the validator's error,
and `validate()` on the empty instance returns a valid one. -/
theorem validate_returns_witness :
    (∃ res, SchemaModel.validate ageEnv 4 ⟨some ageSchema, []⟩ (.obj [("age", .str "x")])
          = .ok res ∧
        res.valid = (false && ([] : List String).isEmpty) ∧
        res.error = some ⟨"Invalid type: string (expected number)"⟩ ∧
        res.missing = []) ∧
    (∃ res, SchemaModel.validate ageEnv 4 ⟨some ageSchema, []⟩ .undefined = .ok res ∧
        res.valid = (true && ([] : List String).isEmpty) ∧ res.error = none ∧
        res.missing = []) :=
  ⟨((validate_returns ageEnv 4 ⟨some ageSchema, []⟩ (.obj [("age", .str "x")]) ageSchema
      rfl).1 rfl).1 ⟨false, some ⟨"Invalid type: string (expected number)"⟩, []⟩ rfl,
    ((validate_returns ageEnv 4 ⟨some ageSchema, []⟩ .undefined ageSchema rfl).2 rfl
      (.obj []) rfl).1 ⟨true, none, []⟩ rfl⟩

theorem assocGet_some_mem {κ α : Type} [DecidableEq κ] (k : κ) (v : α) (l : List (κ × α))
    (h : assocGet k l = some v) : (k, v) ∈ l := by
  induction l with
  | nil => simp [assocGet] at h
  | cons p rest ih =>
    obtain ⟨k', v'⟩ := p
    simp only [assocGet] at h
    by_cases hk : k' = k
    · rw [if_pos hk] at h
      injection h with h
      subst hk; subst h
      exact List.mem_cons_self _ _
    · rw [if_neg hk] at h
      exact List.mem_cons_of_mem _ (ih h)

/-- Two objects with the same value under every key hold the same fields, in some
order. -/
theorem perm_of_assocGet_eq (l l' : List (String × Val)) (hl : (l.map Prod.fst).Nodup)
    (hl' : (l'.map Prod.fst).Nodup) (h : ∀ k, assocGet k l = assocGet k l') : l.Perm l' := by
  rw [List.perm_ext_iff_of_nodup (List.Nodup.of_map _ hl) (List.Nodup.of_map _ hl')]
  intro p
  obtain ⟨k, v⟩ := p
  constructor
  · intro hp
    apply assocGet_some_mem
    rw [← h k]
    exact assocGet_of_mem k v l hl hp
  · intro hp
    apply assocGet_some_mem
    rw [h k]
    exact assocGet_of_mem k v l' hl' hp

theorem schemaProperties_congr (fuel : Nat) (this that : Instance)
    (h : that.schema = this.schema) :
    SchemaModel.schemaProperties fuel that = SchemaModel.schemaProperties fuel this := by
  simp [SchemaModel.schemaProperties, SchemaModel.schema, h]

/-- When `set` returns under validation, the candidate snapshot was built and accepted,
and the data was written on the public path. -/
theorem set_ok_validated (env : Env) (fuel : Nat) (this : Instance)
    (data value options o : Val)
    (ho : merge fuel DEFAULT_OPTIONS (setArgs data value options).2 = .ok o)
    (hint : truthy (getProp o "internal") = false)
    (hval : truthy (getProp o "validate") = true)
    (hok : (SchemaModel.set env fuel this data value options).2 = .ok ()) :
    ∃ json cand res, SchemaModel.toJSON env fuel this true = .ok json ∧
      merge fuel json (setArgs data value options).1 = .ok cand ∧
      SchemaModel.validate env fuel this cand = .ok res ∧ res.valid = true ∧
      (SchemaModel.set env fuel this data value options).1 =
        ⟨this.schema, SchemaModelJs.set env.hasSymbol this.store
          (setArgs data value options).1 false⟩ := by
  rw [set_eq, ho] at hok ⊢
  simp only [hint, hval, Bool.not_false, Bool.and_self, if_true] at hok ⊢
  cases hj : SchemaModel.toJSON env fuel this true with
  | error e => simp [hj] at hok
  | ok json =>
    simp only [hj, ok_bind] at hok ⊢
    cases hc : merge fuel json (setArgs data value options).1 with
    | error e => simp [hc] at hok
    | ok cand =>
      simp only [hc, ok_bind] at hok ⊢
      cases hr : SchemaModel.validate env fuel this cand with
      | error e => simp [hr] at hok
      | ok res =>
        simp only [hr] at hok ⊢
        cases hv : res.valid with
        | false => simp [hv] at hok
        | true => exact ⟨json, cand, res, rfl, hc, hr, hv, by simp [hv]⟩

/-- Lookup does not depend on the order of the fields of an object. -/
theorem assocGet_perm (k : String) (l l' : List (String × Val)) (hn : (l.map Prod.fst).Nodup)
    (hp : l.Perm l') : assocGet k l = assocGet k l' := by
  have hn' : (l'.map Prod.fst).Nodup := (hp.map Prod.fst).nodup_iff.1 hn
  cases h : assocGet k l with
  | none =>
    have hk : k ∉ l.map Prod.fst := by
      rw [← assocGet_isSome_iff, h]; simp
    have hk' : k ∉ l'.map Prod.fst := fun hmem => hk ((hp.map Prod.fst).mem_iff.2 hmem)
    rw [assocGet_eq_none k l' hk']
  | some v =>
    have hm := hp.mem_iff.1 (assocGet_some_mem k v l h)
    rw [assocGet_of_mem k v l' hn' hm]

/-- The copy of an object is an object. -/
theorem merge_keys_aux (fuel : Nat) (la : List (String × Val)) (res : Val)
    (h : clone fuel (.obj la) none = .ok res) : ∃ lc, res = .obj lc ∧ True := by
  cases fuel with
  | zero => simp [clone] at h
  | succ m =>
    rw [clone_obj] at h
    obtain ⟨lc, hlc, _⟩ := foldlM_assign_keys _ _ _ _ h
    exact ⟨lc, hlc, trivial⟩

/-- An object returned by `clone` has pairwise different keys. -/
theorem clone_obj_nodup (fuel : Nat) (x : Val) (cb : Option Callback) (l : List (String × Val))
    (h : clone fuel x cb = .ok (.obj l)) : (l.map Prod.fst).Nodup := by
  cases fuel with
  | zero => simp [clone] at h
  | succ n =>
    by_cases hx : ∃ xs, x = .arr xs
    · obtain ⟨xs, rfl⟩ := hx
      revert h
      rw [clone_arr]
      cases (List.enum xs).mapM (cloneEntry n (cb.getD idCallback) (.arr xs)) with
      | error e => intro h; simp at h
      | ok ys => intro h; simp at h
    · by_cases hd : ∃ t, x = .date t
      · obtain ⟨t, rfl⟩ := hd
        simp [clone] at h
      · rw [clone_other _ _ _ (fun xs e => hx ⟨xs, e⟩) (fun t e => hd ⟨t, e⟩)] at h
        cases hk : objectKeysE x with
        | error e => simp [hk] at h
        | ok keys =>
          rw [hk] at h
          simp only [ok_bind] at h
          obtain ⟨l1, hl1, _, hn⟩ := foldlM_assign_keys _ _ _ _ h
          injection hl1 with hl1
          subst hl1
          exact hn (by simp)

/-- Merging onto an object gives an object with pairwise different keys. -/
theorem merge_obj_nodup (fuel : Nat) (la : List (String × Val)) (b r : Val)
    (h : merge fuel (.obj la) b = .ok r) : ∃ l, r = .obj l ∧ (l.map Prod.fst).Nodup := by
  cases fuel with
  | zero => simp [merge] at h
  | succ n =>
    rw [merge_succ] at h
    cases hc : clone n (.obj la) none with
    | error e => simp [hc] at h
    | ok res =>
      rw [hc] at h
      simp only [ok_bind] at h
      obtain ⟨lc, hlc, _⟩ := merge_keys_aux n la res hc
      subst hlc
      have hnc := clone_obj_nodup _ _ _ _ hc
      by_cases hb : isNullish b = true
      · simp [objectKeysE, hb] at h
      · simp only [objectKeysE, hb, ok_bind] at h
        obtain ⟨l, hl, _, hn⟩ := foldlM_assign_keys _ _ _ _ h
        exact ⟨l, hl, hn hnc⟩

/-- The property map `getProperties` returns, when it is an object, has pairwise
different names. -/
theorem getProperties_nodup (fuel : Nat) (schema : Val) (validator : Option Registry)
    (lp : List (String × Val)) (reg : Registry)
    (h : getProperties fuel schema validator = .ok (.obj lp, reg)) :
    (lp.map Prod.fst).Nodup := by
  cases fuel with
  | zero => simp [getProperties] at h
  | succ n =>
    rw [getProperties_succ] at h
    cases hr : readProp schema "$ref" with
    | error e => simp [hr] at h
    | ok ref =>
      rw [hr] at h
      simp only [ok_bind] at h
      revert h
      generalize (if truthy ref then (registered schema validator).getSchema ref else schema) = s'
      generalize registered schema validator = reg0
      intro h
      simp only [resolveFrom] at h
      cases hp : readProp s' "properties" with
      | error e => simp [hp] at h
      | ok props =>
        rw [hp] at h
        simp only [ok_bind] at h
        by_cases ht : truthy props = true
        · rw [if_pos ht] at h
          cases hc : clone n props none with
          | error e => simp [hc] at h
          | ok c =>
            rw [hc] at h
            simp only [ok_bind, Except.ok.injEq, Prod.mk.injEq] at h
            rw [h.1] at hc
            exact clone_obj_nodup _ _ _ _ hc
        · rw [if_neg ht] at h
          by_cases hd : truthy (compositionOf validator.isNone s') = true
          · rw [if_pos hd] at h
            cases hds : compositionOf validator.isNone s' with
            | arr ds =>
              rw [hds] at h
              simp only at h
              have key : ∀ (ds : List Val) (acc : Val × Registry) (out : Val × Registry),
                  (∃ la, acc.1 = .obj la ∧ (la.map Prod.fst).Nodup) →
                  ds.foldlM (branchStep n) acc = .ok out →
                  ∃ l, out.1 = .obj l ∧ (l.map Prod.fst).Nodup := by
                intro ds
                induction ds with
                | nil =>
                  intro acc out hacc hout
                  simp only [List.foldlM_nil, pure_eq_ok, Except.ok.injEq] at hout
                  rw [← hout]; exact hacc
                | cons d rest ih =>
                  intro acc out hacc hout
                  rw [List.foldlM_cons] at hout
                  cases hst : branchStep n acc d with
                  | error e => simp [hst] at hout
                  | ok acc' =>
                    rw [hst] at hout
                    apply ih acc' out _ hout
                    simp only [branchStep] at hst
                    cases hg : getProperties n d (some acc.2) with
                    | error e => simp [hg] at hst
                    | ok g =>
                      rw [hg] at hst
                      simp only [ok_bind] at hst
                      cases hm : merge n acc.1 g.1 with
                      | error e => simp [hm] at hst
                      | ok m =>
                        rw [hm] at hst
                        simp only [ok_bind, pure_eq_ok, Except.ok.injEq] at hst
                        obtain ⟨la, hla, _⟩ := hacc
                        rw [hla] at hm
                        rw [← hst]
                        exact merge_obj_nodup _ _ _ _ hm
              obtain ⟨l, hl, hn⟩ := key ds (.obj [], reg0) (.obj lp, reg) ⟨[], rfl, by simp⟩ h
              injection hl with hl
              subst hl
              exact hn
            | _ => rw [hds] at h; simp at h
          · rw [if_neg hd] at h
            simp only [Except.ok.injEq, Prod.mk.injEq] at h
            injection h.1 with h1
            subst h1
            simp

/-- The resolved property map of a class, when it is an object, has pairwise different
names. -/
theorem schemaProperties_nodup (fuel : Nat) (this : Instance) (lp : List (String × Val))
    (h : SchemaModel.schemaProperties fuel this = .ok (.obj lp)) : (lp.map Prod.fst).Nodup := by
  simp only [SchemaModel.schemaProperties] at h
  cases hs : SchemaModel.schema this with
  | error e => simp [hs] at h
  | ok s =>
    rw [hs] at h
    simp only [ok_bind] at h
    cases hg : getProperties fuel s none with
    | error e => simp [hg] at h
    | ok g =>
      rw [hg] at h
      simp only [ok_bind, pure_eq_ok, Except.ok.injEq] at h
      obtain ⟨p, r⟩ := g
      simp only at h
      subst h
      exact getProperties_nodup _ _ _ _ _ hg

/-- Counterexample to C2.  First: on the class bound to `{properties: {age: {type:
'number'}}}`, `set({age: 'x'}, {validate: false})` returns without raising on the public
path and leaves a serialization the validator rejects.  Second, with the default
options: on the class bound to `{properties: {p: {type: 'object', required: ['x']}}}`,
after `set({p: {x: 1}})` the call `set({p: {y: 2}})` returns, because the snapshot that is
validated is `{p: {x: 1, y: 2}}`, and leaves `p = {y: 2}`, which the validator rejects.
Third, with the default options: on the class bound to `{properties: {a: {type:
'string'}}, required: ['b']}`, `set({b: 1})` returns, because the snapshot `{b: 1}` is
valid, and leaves the serialization `{}` (the key `b` is not declared), which the
validator rejects. -/
theorem set_leaves_invalid_state :
    ((SchemaModel.set ageEnv 4 ⟨some ageSchema, []⟩ (.obj [("age", .str "x")])
        (.obj [("validate", .bool false)]) .undefined).2 = .ok () ∧
      (SchemaModel.set ageEnv 4 ⟨some ageSchema, []⟩ (.obj [("age", .str "x")])
        (.obj [("validate", .bool false)]) .undefined).1
          = ⟨some ageSchema, [(.str "age", .str "x")]⟩ ∧
      SchemaModel.validate ageEnv 4 ⟨some ageSchema, [(.str "age", .str "x")]⟩ .undefined
        = .ok ⟨false, some ⟨"Invalid type: string (expected number)"⟩, []⟩) ∧
    (SchemaModel.set nestedEnv 5 ⟨some nestedSchema, []⟩ (.obj [("p", .obj [("x", .num 1)])])
        .undefined .undefined
        = (⟨some nestedSchema, [(.str "p", .obj [("x", .num 1)])]⟩, .ok ()) ∧
      SchemaModel.set nestedEnv 5 ⟨some nestedSchema, [(.str "p", .obj [("x", .num 1)])]⟩
        (.obj [("p", .obj [("y", .num 2)])]) .undefined .undefined
        = (⟨some nestedSchema, [(.str "p", .obj [("y", .num 2)])]⟩, .ok ()) ∧
      SchemaModel.validate nestedEnv 5
        ⟨some nestedSchema, [(.str "p", .obj [("y", .num 2)])]⟩ .undefined
        = .ok ⟨false, some ⟨"Missing required property: x"⟩, []⟩) ∧
    (SchemaModel.set requiredEnv 4 ⟨some requiredSchema, []⟩ (.obj [("b", .num 1)])
        .undefined .undefined
        = (⟨some requiredSchema, [(.str "b", .num 1)]⟩, .ok ()) ∧
      SchemaModel.toJSON requiredEnv 4 ⟨some requiredSchema, [(.str "b", .num 1)]⟩ true
        = .ok (.obj []) ∧
      SchemaModel.validate requiredEnv 4 ⟨some requiredSchema, [(.str "b", .num 1)]⟩
        .undefined
        = .ok ⟨false, some ⟨"Missing required property: b"⟩, []⟩) :=
  ⟨⟨rfl, rfl, rfl⟩, ⟨rfl, rfl, rfl⟩, rfl, rfl, rfl⟩

theorem cloneArr_fold (n fuel : Nat) (IH : ClonesFresh n fuel) (heap0 : Heap) :
    ∀ (ys : List Slot) (ws : List Val) (e : List Cell) (zs : List Slot) (us : List Val),
    ys.mapM (reify n heap0) = .ok ws → (∀ w ∈ ws, structural w = true) →
    freshAbove heap0.length e →
    zs.mapM (reify n (heap0 ++ e)) = .ok us → (∀ s ∈ zs, s.above heap0.length) →
    ∃ e' zs', ys.foldlM (cloneArrStep fuel) (heap0 ++ e, zs) = .ok (heap0 ++ e', zs') ∧
      freshAbove heap0.length e' ∧
      zs'.mapM (reify n (heap0 ++ e')) = .ok (us ++ ws) ∧
      (∀ s ∈ zs', s.above heap0.length) := by
  intro ys
  induction ys with
  | nil =>
    intro ws e zs us hws _ hf hz ha
    have : ws = [] := by
      have h' : (Except.ok [] : Except Err (List Val)) = .ok ws := hws
      injection h' with h'
      exact h'.symm
    subst this
    exact ⟨e, zs, rfl, hf, by simpa using hz, ha⟩
  | cons y rest ih =>
    intro ws e zs us hws hst hf hz ha
    obtain ⟨w, ws', hy, hrest, rfl⟩ := mapM_ok_cons _ y rest ws hws
    rw [List.foldlM_cons]
    cases y with
    | prim p =>
      have hstep : cloneArrStep fuel (heap0 ++ e, zs) (.prim p)
          = .ok (heap0 ++ e, zs ++ [.prim p]) := rfl
      rw [hstep, ok_bind]
      have hw : reify n (heap0 ++ e) (.prim p) = .ok w := by
        rw [reify_prim] at hy ⊢; exact hy
      obtain ⟨e', zs', h1, h2, h3, h4⟩ := ih ws' e (zs ++ [.prim p]) (us ++ [w]) hrest
        (fun v hv => hst v (List.mem_cons_of_mem _ hv)) hf
        (mapM_append_ok _ zs _ us w hz hw)
        (by
          intro s hs
          rcases List.mem_append.1 hs with h | h
          · exact ha s h
          · simp only [List.mem_singleton] at h; subst h; trivial)
      exact ⟨e', zs', h1, h2, by simpa using h3, h4⟩
    | ref b =>
      have hb := reify_append n heap0 e (.ref b) w hy
      obtain ⟨ext, r, hc, hfe, hr1, _, hr3⟩ := IH (heap0 ++ e) b w hb
        (hst w (List.mem_cons_self _ _))
      have hstep : cloneArrStep fuel (heap0 ++ e, zs) (.ref b)
          = .ok (heap0 ++ (e ++ ext), zs ++ [.ref r]) := by
        simp only [cloneArrStep, hc, ok_bind, List.append_assoc]
        rfl
      rw [hstep, ok_bind]
      have hlen : heap0.length ≤ (heap0 ++ e).length := by simp
      rw [List.append_assoc] at hr3
      obtain ⟨e', zs', h1, h2, h3, h4⟩ := ih ws' (e ++ ext) (zs ++ [.ref r]) (us ++ [w]) hrest
        (fun v hv => hst v (List.mem_cons_of_mem _ hv))
        (freshAbove_append _ _ _ hf (freshAbove_mono _ _ hlen _ hfe))
        (mapM_append_ok _ zs _ us w
          (by
            rw [← List.append_assoc]
            exact mapM_mono _ _ (fun s v hv => reify_append n (heap0 ++ e) ext s v hv) zs us hz)
          hr3)
        (by
          intro s hs
          rcases List.mem_append.1 hs with h | h
          · exact ha s h
          · simp only [List.mem_singleton] at h
            subst h
            exact le_trans hlen hr1)
      exact ⟨e', zs', h1, h2, by simpa using h3, h4⟩

theorem cloneObj_fold (n fuel : Nat) (IH : ClonesFresh n fuel) (heap0 : Heap)
    (kvs : List (String × Slot)) :
    ∀ (l : List (String × Slot)) (ws : List (String × Val)) (e : List Cell)
      (zs : List (String × Slot)) (us : List (String × Val)),
    (∀ p ∈ l, assocGet p.1 kvs = some p.2) →
    l.mapM (reifyField n heap0) = .ok ws → (∀ q ∈ ws, structural q.2 = true) →
    ((zs.map Prod.fst) ++ (l.map Prod.fst)).Nodup →
    freshAbove heap0.length e →
    zs.mapM (reifyField n (heap0 ++ e)) = .ok us → (∀ p ∈ zs, p.2.above heap0.length) →
    ∃ e' zs', (l.map Prod.fst).foldlM (cloneObjStep fuel kvs) (heap0 ++ e, zs)
        = .ok (heap0 ++ e', zs') ∧
      freshAbove heap0.length e' ∧
      zs'.mapM (reifyField n (heap0 ++ e')) = .ok (us ++ ws) ∧
      (∀ p ∈ zs', p.2.above heap0.length) := by
  intro l
  induction l with
  | nil =>
    intro ws e zs us _ hws _ _ hf hz ha
    have : ws = [] := by
      have h' : (Except.ok [] : Except Err (List (String × Val))) = .ok ws := hws
      injection h' with h'
      exact h'.symm
    subst this
    exact ⟨e, zs, rfl, hf, by simpa using hz, ha⟩
  | cons y rest ih =>
    intro ws e zs us hget hws hst hnd hf hz ha
    obtain ⟨w, ws', hy, hrest, rfl⟩ := mapM_ok_cons _ y rest ws hws
    obtain ⟨k, s⟩ := y
    have hk : k ∉ zs.map Prod.fst := by
      intro hmem
      rw [List.nodup_append] at hnd
      exact hnd.2.2 hmem (by simp)
    have hnd' : ∀ s' : Slot,
        (((zs ++ [(k, s')]).map Prod.fst) ++ (rest.map Prod.fst)).Nodup := by
      intro s'
      simpa using hnd
    have hgk : (assocGet k kvs).getD (.prim .undefined) = s := by
      rw [hget (k, s) (List.mem_cons_self _ _)]; rfl
    rw [List.map_cons, List.foldlM_cons]
    simp only [reifyField] at hy
    cases hv : reify n heap0 s with
    | error err => simp [hv] at hy
    | ok v =>
      rw [hv] at hy
      simp only [ok_bind, Except.ok.injEq] at hy
      subst hy
      have hsv : structural v = true := hst (k, v) (List.mem_cons_self _ _)
      cases s with
      | prim p =>
        have hstep : cloneObjStep fuel kvs (heap0 ++ e, zs) k
            = .ok (heap0 ++ e, zs ++ [(k, .prim p)]) := by
          simp only [cloneObjStep, hgk, assocSet_append k _ zs hk]
          rfl
        rw [hstep, ok_bind]
        have hw : reifyField n (heap0 ++ e) (k, .prim p) = .ok (k, v) := by
          simp only [reifyField]
          rw [reify_prim] at hv ⊢
          rw [hv]; rfl
        obtain ⟨e', zs', h1, h2, h3, h4⟩ := ih ws' e (zs ++ [(k, .prim p)]) (us ++ [(k, v)])
          (fun q hq => hget q (List.mem_cons_of_mem _ hq)) hrest
          (fun q hq => hst q (List.mem_cons_of_mem _ hq)) (hnd' _) hf
          (mapM_append_ok _ zs _ us _ hz hw)
          (by
            intro q hq
            rcases List.mem_append.1 hq with h | h
            · exact ha q h
            · simp only [List.mem_singleton] at h; subst h; trivial)
        exact ⟨e', zs', h1, h2, by simpa using h3, h4⟩
      | ref b =>
        have hb := reify_append n heap0 e (.ref b) v hv
        obtain ⟨ext, r, hc, hfe, hr1, _, hr3⟩ := IH (heap0 ++ e) b v hb hsv
        have hstep : cloneObjStep fuel kvs (heap0 ++ e, zs) k
            = .ok (heap0 ++ (e ++ ext), zs ++ [(k, .ref r)]) := by
          simp only [cloneObjStep, hgk, hc, ok_bind, assocSet_append k _ zs hk,
            List.append_assoc]
          rfl
        rw [hstep, ok_bind]
        have hlen : heap0.length ≤ (heap0 ++ e).length := by simp
        rw [List.append_assoc] at hr3
        have hw : reifyField n (heap0 ++ (e ++ ext)) (k, .ref r) = .ok (k, v) := by
          simp only [reifyField, hr3]; rfl
        obtain ⟨e', zs', h1, h2, h3, h4⟩ := ih ws' (e ++ ext) (zs ++ [(k, .ref r)])
          (us ++ [(k, v)])
          (fun q hq => hget q (List.mem_cons_of_mem _ hq)) hrest
          (fun q hq => hst q (List.mem_cons_of_mem _ hq)) (hnd' _)
          (freshAbove_append _ _ _ hf (freshAbove_mono _ _ hlen _ hfe))
          (mapM_append_ok _ zs _ us _
            (by
              rw [← List.append_assoc]
              refine mapM_mono _ _ ?_ zs us hz
              intro q r' hr'
              simp only [reifyField] at hr' ⊢
              cases hq : reify n (heap0 ++ e) q.2 with
              | error err => simp [hq] at hr'
              | ok v' =>
                rw [hq] at hr'
                rw [reify_append n (heap0 ++ e) ext q.2 v' hq]
                exact hr')
            hw)
          (by
            intro q hq
            rcases List.mem_append.1 hq with h | h
            · exact ha q h
            · simp only [List.mem_singleton] at h
              subst h
              exact le_trans hlen hr1)
        exact ⟨e', zs', h1, h2, by simpa using h3, h4⟩

theorem reifyField_keys (n : Nat) (heap : Heap) : ∀ (kvs : List (String × Slot))
    (fs : List (String × Val)), kvs.mapM (reifyField n heap) = .ok fs →
    fs.map Prod.fst = kvs.map Prod.fst := by
  intro kvs
  induction kvs with
  | nil =>
    intro fs h
    have h' : (Except.ok [] : Except Err (List (String × Val))) = .ok fs := h
    injection h' with h'
    subst h'
    rfl
  | cons p rest ih =>
    intro fs h
    obtain ⟨q, qs, hq, hrest, rfl⟩ := mapM_ok_cons _ p rest fs h
    simp only [reifyField] at hq
    cases hv : reify n heap p.2 with
    | error e => simp [hv] at hq
    | ok v =>
      rw [hv] at hq
      simp only [ok_bind, Except.ok.injEq] at hq
      rw [List.map_cons, List.map_cons, ih qs hrest, ← hq]

theorem getElem?_append_length (heap : Heap) (e : List Cell) (c : Cell) :
    (heap ++ (e ++ [c]))[(heap ++ e).length]? = some c := by
  rw [← List.append_assoc, List.getElem?_append_right (le_refl _)]
  simp

/-- The copy `cloneAt` makes is entered above the heap it was given, together with every
container it reaches, and unfolds to the tree of the original. -/
theorem clonesFresh (n : Nat) : ∀ fuel, n ≤ fuel → ClonesFresh n fuel := by
  induction n with
  | zero =>
    intro fuel _ heap b w h _
    simp [reify] at h
  | succ n ih =>
    intro fuel hle heap b w h hs
    obtain ⟨f, rfl⟩ : ∃ f, fuel = f + 1 := ⟨fuel - 1, by omega⟩
    have IH := ih f (by omega)
    revert h
    rw [reify_ref, cloneAt_succ]
    cases hc : heap[b]? with
    | none => intro h; simp at h
    | some c =>
      cases c with
      | date t =>
        intro h
        simp only [Except.ok.injEq] at h
        subst h
        refine ⟨[.date t], heap.length, rfl, ?_, le_rfl, by simp, ?_⟩
        · intro c hc' s hs'
          simp only [List.mem_singleton] at hc'
          subst hc'
          simp [Cell.slots] at hs'
        · rw [reify_ref]
          have := getElem?_append_length heap [] (.date t)
          simp only [List.append_nil, List.nil_append] at this
          rw [this]
      | arr xs =>
        simp only
        cases hm : xs.mapM (reify n heap) with
        | error e => intro h; simp at h
        | ok vs =>
          intro h
          simp only [ok_bind, Except.ok.injEq] at h
          subst h
          have hvs : ∀ v ∈ vs, structural v = true :=
            (structuralList_iff vs).1 (by simpa [structural] using hs)
          obtain ⟨e', zs', h1, h2, h3, h4⟩ := cloneArr_fold n f IH heap xs vs [] [] [] hm hvs
            (by intro c hc'; simp at hc') rfl (by intro s hs'; simp at hs')
          simp only [List.append_nil, List.nil_append] at h1 h3
          rw [h1]
          refine ⟨e' ++ [.arr zs'], (heap ++ e').length, ?_, ?_, by simp, by simp, ?_⟩
          · simp only [ok_bind, List.append_assoc]
          · apply freshAbove_append _ _ _ h2
            intro c hc' s hs'
            simp only [List.mem_singleton] at hc'
            subst hc'
            exact h4 s hs'
          · rw [reify_ref, getElem?_append_length]
            simp only
            rw [← List.append_assoc,
              mapM_mono _ _ (fun s v hv => reify_append n (heap ++ e') [.arr zs'] s v hv)
                zs' vs h3]
            rfl
      | obj kvs =>
        simp only
        cases hm : kvs.mapM (reifyField n heap) with
        | error e => intro h; simp at h
        | ok fs =>
          intro h
          simp only [ok_bind, Except.ok.injEq] at h
          subst h
          simp only [structural, Bool.and_eq_true, decide_eq_true_eq] at hs
          have hkeys := reifyField_keys n heap kvs fs hm
          have hnd : (kvs.map Prod.fst).Nodup := hkeys ▸ hs.1
          obtain ⟨e', zs', h1, h2, h3, h4⟩ := cloneObj_fold n f IH heap kvs kvs fs [] [] []
            (fun p hp => assocGet_of_mem p.1 p.2 kvs hnd hp) hm
            ((structuralFields_iff fs).1 hs.2) (by simpa using hnd)
            (by intro c hc'; simp at hc') rfl (by intro s hs'; simp at hs')
          simp only [List.append_nil, List.nil_append] at h1 h3
          rw [h1]
          refine ⟨e' ++ [.obj zs'], (heap ++ e').length, ?_, ?_, by simp, by simp, ?_⟩
          · simp only [ok_bind, List.append_assoc]
          · apply freshAbove_append _ _ _ h2
            intro c hc' s hs'
            simp only [List.mem_singleton] at hc'
            subst hc'
            simp only [Cell.slots, List.mem_map] at hs'
            obtain ⟨p, hp, rfl⟩ := hs'
            exact h4 p hp
          · rw [reify_ref, getElem?_append_length]
            simp only
            have hstable : zs'.mapM (reifyField n (heap ++ e' ++ [.obj zs'])) = .ok fs := by
              refine mapM_mono (reifyField n (heap ++ e')) _ ?_ zs' fs h3
              intro q r' hr'
              simp only [reifyField] at hr' ⊢
              cases hq : reify n (heap ++ e') q.2 with
              | error err => simp [hq] at hr'
              | ok v' =>
                rw [hq] at hr'
                rw [reify_append n (heap ++ e') [.obj zs'] q.2 v' hq]
                exact hr'
            rw [← List.append_assoc, hstable]
            rfl

/-- Claim C7. For every structural value `x` (a date, or an array or object nesting
arrays, objects, dates and primitives, `null` and `undefined` leaves included), `clone(x)`
with the default transform returns a value deeply equal to `x` (in the value model, the
same tree), for every call depth that reaches the leaves of `x`; and every container of
the result is newly built: on a heap that holds `x` at address `a`, the copy and all the
containers it reaches are cells entered by the call, above every cell of the heap given,
which is left as it was. -/
theorem clone_deep_equal (x : Val) (fuel : Nat) (hs : structural x = true)
    (ho : isObject x = true) (hd : depth x ≤ fuel) :
    clone fuel x none = .ok x ∧
      ∀ (heap : Heap) (a : Nat), reify fuel heap (.ref a) = .ok x →
        ∃ ext r, cloneAt fuel heap a = .ok (heap ++ ext, r) ∧ freshAbove heap.length ext ∧
          heap.length ≤ r ∧ r < (heap ++ ext).length ∧
          reify fuel (heap ++ ext) (.ref r) = .ok x :=
  ⟨clone_structural fuel x none rfl hs ho hd,
    fun heap a h => clonesFresh fuel fuel le_rfl heap a x h hs⟩

/-- Witness of C7 on `{p: [1, {a: undefined}], d: <date>}`, held at address 3 of a heap
of four containers. -/
theorem clone_deep_equal_witness :
    clone 3 (.obj [("p", .arr [.num 1, .obj [("a", .undefined)]]), ("d", .date 7)]) none
        = .ok (.obj [("p", .arr [.num 1, .obj [("a", .undefined)]]), ("d", .date 7)]) ∧
      ∃ ext r, cloneAt 3 exampleHeap 3 = .ok (exampleHeap ++ ext, r) ∧
        freshAbove exampleHeap.length ext ∧ exampleHeap.length ≤ r ∧
        r < (exampleHeap ++ ext).length ∧
        reify 3 (exampleHeap ++ ext) (.ref r)
          = .ok (.obj [("p", .arr [.num 1, .obj [("a", .undefined)]]), ("d", .date 7)]) :=
  ⟨(clone_deep_equal _ 3 (by decide) (by decide) (by decide)).1,
    (clone_deep_equal _ 3 (by decide) (by decide) (by decide)).2 exampleHeap 3 rfl⟩

/-! ## Reading what was written -/

theorem inheritedMembers_text_injective :
    ∀ p ∈ inheritedMembers, ∀ q ∈ inheritedMembers, p.2 = q.2 → p.1 = q.1 := by
  decide

theorem inheritedMembers_text_head :
    ∀ p ∈ inheritedMembers, p.2.data.head? ≠ some '_' := by
  decide

theorem getSymbol_other (hasSymbol : Bool) (k : String)
    (h : assocGet k inheritedMembers = none) :
    getSymbol hasSymbol k = if hasSymbol then .sym k else .str ("__" ++ k) := by
  simp only [getSymbol, h]

theorem getSymbol_inherited (hasSymbol : Bool) (k t : String)
    (h : assocGet k inheritedMembers = some t) : getSymbol hasSymbol k = .str t := by
  simp only [getSymbol, h]

/-- No inherited member of the cache has the key that `getSymbol` makes for another
name. -/
theorem getSymbol_inherited_ne (hasSymbol : Bool) (k k' t : String)
    (h : assocGet k inheritedMembers = some t) (h' : assocGet k' inheritedMembers = none) :
    getSymbol hasSymbol k ≠ getSymbol hasSymbol k' := by
  rw [getSymbol_inherited _ _ _ h, getSymbol_other _ _ h']
  cases hasSymbol
  · intro e
    simp only [Bool.false_eq_true, if_false, Key.str.injEq] at e
    have hh := inheritedMembers_text_head _ (assocGet_some_mem _ _ _ h)
    apply hh
    show t.data.head? = some '_'
    rw [e]
    rfl
  · intro e
    simp at e

/-- The internal key of a name is the key of no other name. -/
theorem getSymbol_injective (hasSymbol : Bool) (k k' : String)
    (h : getSymbol hasSymbol k = getSymbol hasSymbol k') : k = k' := by
  cases hk : assocGet k inheritedMembers with
  | some t =>
    cases hk' : assocGet k' inheritedMembers with
    | some t' =>
      rw [getSymbol_inherited _ _ _ hk, getSymbol_inherited _ _ _ hk'] at h
      simp only [Key.str.injEq] at h
      subst h
      exact inheritedMembers_text_injective _ (assocGet_some_mem _ _ _ hk) _
        (assocGet_some_mem _ _ _ hk') rfl
    | none => exact absurd h (getSymbol_inherited_ne hasSymbol k k' t hk hk')
  | none =>
    cases hk' : assocGet k' inheritedMembers with
    | some t' => exact absurd h.symm (getSymbol_inherited_ne hasSymbol k' k t' hk' hk)
    | none =>
      rw [getSymbol_other _ _ hk, getSymbol_other _ _ hk'] at h
      cases hasSymbol
      · simp only [Bool.false_eq_true, if_false, Key.str.injEq] at h
        exact append_left_cancel_str _ _ _ h
      · simpa using h

theorem storageKey_injective (hasSymbol internal : Bool) (k k' : String)
    (h : storageKey hasSymbol internal k = storageKey hasSymbol internal k') : k = k' := by
  cases internal
  · simpa [storageKey] using h
  · exact getSymbol_injective hasSymbol k k' (by simpa [storageKey] using h)

theorem get_eq_storageKey (hasSymbol : Bool) (scope : List (Key × Val)) (k : String)
    (internal : Bool) :
    SchemaModelJs.get hasSymbol scope k internal =
      readKey scope (storageKey hasSymbol internal k) := rfl

/-- What the private `set(scope, data, internal)` leaves under the keys of the same
path. -/
theorem get_set_fold (hasSymbol internal : Bool) (data : Val) (k : String) (ks : List String) :
    ∀ (scope : List (Key × Val)),
    SchemaModelJs.get hasSymbol (ks.foldl (fun scope ok =>
        let key : Key := if internal then getSymbol hasSymbol ok else .str ok
        if strictNe (readKey scope key) (getProp data ok) then
          assocSet key (getProp data ok) scope
        else scope) scope) k internal =
      if k ∈ ks then getProp data k else SchemaModelJs.get hasSymbol scope k internal := by
  induction ks with
  | nil => intro scope; simp
  | cons k' rest ih =>
    intro scope
    rw [List.foldl_cons, ih]
    by_cases hr : k ∈ rest
    · simp [hr]
    · simp only [hr, if_false, List.mem_cons, or_false]
      have hkey : ∀ ok, (if internal then getSymbol hasSymbol ok else Key.str ok)
          = storageKey hasSymbol internal ok := fun _ => rfl
      simp only [hkey, get_eq_storageKey]
      by_cases hk : k = k'
      · subst hk
        simp only [if_true]
        by_cases hne : strictNe (readKey scope (storageKey hasSymbol internal k))
            (getProp data k) = true
        · rw [if_pos hne]
          simp [readKey_assocSet]
        · rw [if_neg hne]
          exact strictNe_false _ _ (by simpa using hne)
      · rw [if_neg hk]
        by_cases hne : strictNe (readKey scope (storageKey hasSymbol internal k'))
            (getProp data k') = true
        · rw [if_pos hne, readKey_assocSet, if_neg]
          intro e
          exact hk (storageKey_injective _ _ _ _ e).symm
        · rw [if_neg hne]

theorem get_set (hasSymbol internal : Bool) (store : List (Key × Val)) (data : Val)
    (k : String) :
    SchemaModelJs.get hasSymbol (SchemaModelJs.set hasSymbol store data internal) k internal =
      if k ∈ objectKeys data then getProp data k
      else SchemaModelJs.get hasSymbol store k internal :=
  get_set_fold hasSymbol internal data k (objectKeys data) store

/-- The instance `set` leaves when it returns. -/
theorem set_ok_state (env : Env) (fuel : Nat) (this : Instance) (data value options o : Val)
    (ho : merge fuel DEFAULT_OPTIONS (setArgs data value options).2 = .ok o)
    (hok : (SchemaModel.set env fuel this data value options).2 = .ok ()) :
    (SchemaModel.set env fuel this data value options).1 =
      ⟨this.schema, SchemaModelJs.set env.hasSymbol this.store
        (setArgs data value options).1 (truthy (getProp o "internal"))⟩ := by
  rw [set_eq, ho] at hok ⊢
  simp only at hok ⊢
  split
  · rename_i hc
    rw [if_pos hc] at hok
    split
    · rename_i e he
      rw [he] at hok
      simp at hok
    · rename_i res hres
      rw [hres] at hok
      simp only at hok ⊢
      split
      · rename_i hv
        rw [if_pos hv] at hok
        simp at hok
      · rfl
  · rfl

/-- Claim C11. Read-after-write: after `set(data, options)` returns without raising,
`get(k, options)` with the same options, hence the same resolved `internal` flag, returns
`data[k]` for every key `k` of `data`; the same holds after the constructor `new K(data,
options)`. -/
theorem read_after_write (env : Env) (fuel : Nat) (this : Instance)
    (ld : List (String × Val)) (options o : Val)
    (ho : merge fuel DEFAULT_OPTIONS (setArgs (.obj ld) options .undefined).2 = .ok o) :
    ((SchemaModel.set env fuel this (.obj ld) options .undefined).2 = .ok () →
      ∀ k ∈ objectKeys (.obj ld),
        SchemaModel.get env fuel (SchemaModel.set env fuel this (.obj ld) options .undefined).1
          k options = .ok (getProp (.obj ld) k)) ∧
    ((SchemaModel.new env fuel this.schema (.obj ld) options).2 = .ok () →
      ∀ k ∈ objectKeys (.obj ld),
        SchemaModel.get env fuel (SchemaModel.new env fuel this.schema (.obj ld) options).1
          k options = .ok (getProp (.obj ld) k)) := by
  have key : ∀ that : Instance,
      (SchemaModel.set env fuel that (.obj ld) options .undefined).2 = .ok () →
      ∀ k ∈ objectKeys (.obj ld),
        SchemaModel.get env fuel (SchemaModel.set env fuel that (.obj ld) options .undefined).1
          k options = .ok (getProp (.obj ld) k) := by
    intro that hok k hk
    rw [set_ok_state env fuel that _ _ _ o ho hok]
    have ho' : merge fuel DEFAULT_OPTIONS (if truthy options then options else .obj [])
        = .ok o := ho
    simp only [SchemaModel.get, ho', ok_bind, pure_eq_ok]
    have hd : (setArgs (.obj ld) options .undefined).1 = .obj ld := rfl
    rw [hd, get_set, if_pos hk]
  exact ⟨key this, key ⟨this.schema, []⟩⟩

/-- Witness of C11: on the class bound to `{properties: {name: {type: 'string'}}}`,
`new K({name: 'a'}).get('name')` is `'a'`, and `toJSON()` is `{name: 'a'}`. -/
theorem read_after_write_witness :
    (∀ k ∈ objectKeys (.obj [("name", .str "a")]),
      SchemaModel.get nameEnv 4
          (SchemaModel.new nameEnv 4 (some nameSchema) (.obj [("name", .str "a")]) .undefined).1
          k .undefined = .ok (getProp (.obj [("name", .str "a")]) k)) ∧
    SchemaModel.toJSON nameEnv 4
        (SchemaModel.new nameEnv 4 (some nameSchema) (.obj [("name", .str "a")]) .undefined).1
        false = .ok (.obj [("name", .str "a")]) :=
  ⟨(read_after_write nameEnv 4 ⟨some nameSchema, []⟩ [("name", .str "a")] .undefined
    DEFAULT_OPTIONS rfl).2 rfl, rfl⟩

theorem schemaProperties_zero (this : Instance) (props : Val) :
    SchemaModel.schemaProperties 0 this ≠ .ok props := by
  intro h
  simp only [SchemaModel.schemaProperties] at h
  cases hs : SchemaModel.schema this with
  | error e => simp [hs] at h
  | ok s => simp [hs, getProperties] at h

/-- What `toJSON` returns, key by key.  When the class's properties resolve to the names
of `lp`: the keys of `toJSON(false)` are exactly the declared names, and the keys of
`toJSON(true)` are exactly the declared names whose public value (what `get` reads: the
own property, or the member inherited under the name) is not `undefined`; under a key
whose public value is not a container the serialization holds that value; a key stored
on the instance that the schema does not declare appears in neither.  The serialization
returns for an instance that holds plain structured data under the declared names. -/
theorem toJSON_keys (env : Env) (fuel : Nat) (this : Instance) (strip : Bool)
    (lp : List (String × Val))
    (hp : SchemaModel.schemaProperties fuel this = .ok (.obj lp)) :
    (∀ json, SchemaModel.toJSON env (fuel + 1) this strip = .ok json →
      ∃ l, json = .obj l ∧
        (∀ k, k ∈ l.map Prod.fst ↔
          (k ∈ lp.map Prod.fst ∧
            (strip = false ∨ isUndefined (publicValue this.store k) = false))) ∧
        (∀ k, k ∈ l.map Prod.fst → isObject (publicValue this.store k) = false →
          assocGet k l = some (publicValue this.store k))) ∧
    (2 ≤ fuel →
      (∀ k ∈ lp.map Prod.fst, structural (publicValue this.store k) = true ∧
        depth (publicValue this.store k) < fuel) →
      ∃ json, SchemaModel.toJSON env (fuel + 1) this strip = .ok json) := by
  have hnd : (lp.map Prod.fst).Nodup := schemaProperties_nodup fuel this lp hp
  constructor
  · intro json h
    rw [toJSON_succ, hp] at h
    simp only [ok_bind, objectKeysE_obj] at h
    cases hloop : (lp.map Prod.fst).foldlM (fun res key =>
        SchemaModel.get env fuel this key .undefined >>= fun val =>
          if !strip || !isUndefined val then setProp res key val else .ok res) (.obj []) with
    | error e => rw [hloop] at h; exact absurd h (by simp [error_bind])
    | ok res =>
      rw [hloop] at h
      simp only [ok_bind] at h
      have hres := toJSON_loop_of_ok env fuel this strip _ hnd res hloop
      subst hres
      obtain ⟨m, rfl⟩ : ∃ m, fuel = m + 1 := by
        cases fuel with
        | zero => exact absurd hp (schemaProperties_zero this _)
        | succ m => exact ⟨m, rfl⟩
      rw [clone_obj] at h
      have hrn : ((rawJSON this.store strip (lp.map Prod.fst)).map Prod.fst).Nodup := by
        rw [rawJSON_keys]; exact hnd.filter _
      obtain ⟨l, hl, hkeys, _⟩ := foldlM_assign_keys _ _ _ _ h
      obtain ⟨l', hl', _, hin⟩ := foldlM_assign_get _
        (fun l l' k _ => cloneVal_congr m _ _ l l' k) _ _ _ hrn h
      have e : l' = l := by rw [hl'] at hl; injection hl
      subst e
      have hmem : ∀ k, k ∈ (rawJSON this.store strip (lp.map Prod.fst)).map Prod.fst ↔
          (k ∈ lp.map Prod.fst ∧
            (strip = false ∨ isUndefined (publicValue this.store k) = false)) := by
        intro k
        rw [rawJSON_keys, List.mem_filter]
        simp
      refine ⟨l', hl', ?_, ?_⟩
      · intro k
        rw [hkeys k, hmem k]
        simp
      · intro k hk hno
        have hk' : k ∈ (rawJSON this.store strip (lp.map Prod.fst)).map Prod.fst := by
          rw [hkeys k] at hk
          simpa using hk
        obtain ⟨v, hv, hget⟩ := hin k hk'
        have hg : getProp (.obj (rawJSON this.store strip (lp.map Prod.fst))) k
            = publicValue this.store k := by
          rw [getProp_obj, assocGet_rawJSON, if_pos]
          · rfl
          · have := (hmem k).1 hk'
            refine ⟨this.1, ?_⟩
            rcases this.2 with h1 | h1 <;> simp [h1]
        have hcb : jsonCallback env (m + 1) strip
            (.obj (rawJSON this.store strip (lp.map Prod.fst))) k (publicValue this.store k)
            = .ok (publicValue this.store k) := by
          cases hpv : publicValue this.store k <;> simp_all [jsonCallback, isObject]
        simp only [cloneVal, Option.getD_some, hg, hcb, ok_bind, hno, Bool.false_eq_true,
          if_false, Except.ok.injEq] at hv
        rw [hget, hv]
  · intro h2 hst
    exact ⟨_, toJSON_plain env fuel this strip lp h2 hp hnd (fun k hk => (hst k hk).1)
      (fun k hk => (hst k hk).2)⟩

/-- An example of `toJSON_keys`: the instance of `personSchema` with `name = 'a'`, no
`age` and an undeclared `extra` serializes with `toJSON(true)` to `{name: 'a'}`, whose keys
are the declared names with a defined value. -/
theorem toJSON_keys_witness :
    SchemaModel.toJSON acceptAll 4 personInstance true = .ok (.obj [("name", .str "a")]) ∧
    SchemaModel.toJSON acceptAll 4 personInstance false
      = .ok (.obj [("name", .str "a"), ("age", .undefined)]) ∧
    ∃ l, Val.obj [("name", .str "a")] = .obj l ∧
      (∀ k, k ∈ l.map Prod.fst ↔
        (k ∈ ["name", "age"] ∧
          (true = false ∨ isUndefined (publicValue personInstance.store k) = false))) ∧
      (∀ k, k ∈ l.map Prod.fst → isObject (publicValue personInstance.store k) = false →
        assocGet k l = some (publicValue personInstance.store k)) :=
  ⟨rfl, rfl, (toJSON_keys acceptAll 3 personInstance true
    [("name", typeString), ("age", typeNumber)] rfl).1 _ rfl⟩

/-- Claim C12, as the code behaves. On an instance of the class bound to `{properties:
{get: {}}}` that holds nothing, `get('get')` reads the method the instance inherits, not
`undefined`; so `toJSON(true)` has the key `get`, although the property was never set,
and `toJSON(false)` holds the method, not `undefined`, under it. -/
theorem toJSON_inherited_member :
    SchemaModel.get acceptAll 2 ⟨some getterSchema, []⟩ "get" .undefined
      = .ok (.func "get") ∧
    SchemaModel.toJSON acceptAll 4 ⟨some getterSchema, []⟩ true
      = .ok (.obj [("get", .func "get")]) ∧
    SchemaModel.toJSON acceptAll 4 ⟨some getterSchema, []⟩ false
      = .ok (.obj [("get", .func "get")]) :=
  ⟨rfl, rfl, rfl⟩

/-! ## Property resolution: `oneOf`, dangling references, own properties, precedence -/

/-- Claim C15. A schema with no `$ref`, `properties`, `anyOf` or `allOf` whose `oneOf` is
the list of branches `bs`: resolved at the top level (without a registry) it yields the
left-to-right fold of `merge` over the property maps of its branches; resolved as a nested
schema (with the registry of the enclosing call, as a branch of `allOf`, `anyOf` or
`oneOf` is) it yields the empty property map, so that in the enclosing loop it
contributes `merge(res, {})`. -/
theorem getProperties_oneOf (fuel : Nat) (schema : Val) (bs : List Val)
    (hn : isNullish schema = false)
    (href : truthy (getProp schema "$ref") = false)
    (hprops : truthy (getProp schema "properties") = false)
    (hany : truthy (getProp schema "anyOf") = false)
    (hall : truthy (getProp schema "allOf") = false)
    (hone : getProp schema "oneOf" = .arr bs) :
    (∀ ps reg', resolveBranches fuel bs (registered schema none) = .ok (ps, reg') →
      getProperties (fuel + 1) schema none =
        (ps.foldlM (merge fuel) (.obj []) >>= fun res => .ok (res, reg'))) ∧
    (∀ reg, getProperties (fuel + 1) schema (some reg) =
      .ok (.obj [], registered schema (some reg))) ∧
    (∀ acc reg, branchStep (fuel + 1) (acc, reg) schema =
      (merge (fuel + 1) acc (.obj []) >>= fun res =>
        .ok (res, registered schema (some reg)))) := by
  have hnested : ∀ reg, getProperties (fuel + 1) schema (some reg) =
      .ok (.obj [], registered schema (some reg)) := by
    intro reg
    rw [getProperties_succ]
    simp [readProp, hn, href, resolveFrom, hprops, compositionOf, hany, hall,
      truthy_bool_false]
  refine ⟨?_, hnested, ?_⟩
  · intro ps reg' hps
    rw [getProperties_succ]
    simp only [readProp, hn, ok_bind, href, resolveFrom, hprops, compositionOf, hany, hall,
      hone, truthy_arr, Option.isNone_none, Bool.false_eq_true, if_false, if_true]
    exact foldlM_branchStep fuel bs _ _ _ _ hps
  · intro acc reg
    simp only [branchStep]
    rw [hnested]
    rfl

/-- Witness of C15 on `{oneOf: [{properties: {a: {type: 'string'}}}]}`: at the top level it
resolves to the name `a`, as a nested schema to the empty map. -/
theorem getProperties_oneOf_witness :
    getProperties 4 oneOfDefinition none
      = .ok (.obj [("a", typeString)], registered oneOfDefinition none) ∧
    (∀ reg, getProperties 4 oneOfDefinition (some reg) =
      .ok (.obj [], registered oneOfDefinition (some reg))) :=
  ⟨((getProperties_oneOf 3 oneOfDefinition [.obj [("properties", .obj [("a", typeString)])]]
      rfl rfl rfl rfl rfl rfl).1 [.obj [("a", typeString)]] _ rfl).trans rfl,
    (getProperties_oneOf 3 oneOfDefinition [.obj [("properties", .obj [("a", typeString)])]]
      rfl rfl rfl rfl rfl rfl).2.1⟩

/-- Claim C16, as the code behaves. A schema whose `$ref` names nothing the registry holds
makes `getProperties` throw a `TypeError` (it reads `properties` of `undefined`), for every
fuel and whatever else the schema holds, at the top level and nested; so does the class
schema `{$ref: '#/definitions/missing'}`.  A schema with no `$ref`, no `properties` and no
composition keyword does resolve to the empty map. -/
theorem getProperties_dangling_ref (fuel : Nat) (schema : Val) (validator : Option Registry)
    (hn : isNullish schema = false) :
    (truthy (getProp schema "$ref") = true →
      (registered schema validator).getSchema (getProp schema "$ref") = .undefined →
      getProperties (fuel + 1) schema validator = .error .typeError) ∧
    (truthy (getProp schema "$ref") = false →
      truthy (getProp schema "properties") = false →
      truthy (getProp schema "anyOf") = false →
      truthy (getProp schema "allOf") = false →
      truthy (getProp schema "oneOf") = false →
      getProperties (fuel + 1) schema validator = .ok (.obj [], registered schema validator)) := by
  constructor
  · intro href hmiss
    rw [getProperties_succ]
    simp only [readProp, hn, Bool.false_eq_true, if_false, ok_bind, href, if_true, hmiss,
      resolveFrom]
    rfl
  · intro href hprops hany hall hone
    rw [getProperties_succ]
    cases validator <;>
      simp [readProp, hn, href, resolveFrom, hprops, compositionOf, hany, hall, hone,
        truthy_bool_false]

/-- Witness of C16 as the code behaves: `{$ref: '#/definitions/missing'}` throws a
`TypeError` at every positive fuel, and `{type: 'string'}` resolves to the empty map. -/
theorem getProperties_dangling_ref_witness :
    (∀ fuel, getProperties (fuel + 1) danglingRefSchema none = .error .typeError) ∧
    getProperties 1 typeString none = .ok (.obj [], registered typeString none) :=
  ⟨fun fuel => (getProperties_dangling_ref fuel danglingRefSchema none rfl).1 rfl rfl,
    (getProperties_dangling_ref 0 typeString none rfl).2 rfl rfl rfl rfl rfl⟩

/-- Claim C17. For a schema without `$ref` whose `properties` is a map of plain structured
data, `getProperties` returns that map (the copy `clone` builds, equal to it as a value),
for every fuel that covers its depth, at the top level and nested, whatever the schema
holds under `anyOf`, `allOf` and `oneOf`, also when the map is empty; the registry
returned is the one holding the schema's definitions. -/
theorem getProperties_own_properties (fuel : Nat) (schema : Val)
    (validator : Option Registry) (lp : List (String × Val))
    (hn : isNullish schema = false)
    (href : truthy (getProp schema "$ref") = false)
    (hprops : getProp schema "properties" = .obj lp)
    (hs : structural (.obj lp) = true)
    (hd : depth (.obj lp) ≤ fuel) :
    getProperties (fuel + 1) schema validator
      = .ok (.obj lp, registered schema validator) := by
  rw [getProperties_succ]
  simp only [readProp, hn, ok_bind, href, resolveFrom, hprops, Bool.false_eq_true, if_false]
  have ht : truthy (.obj lp) = true := rfl
  rw [if_pos ht, clone_structural fuel (.obj lp) none rfl hs rfl hd]
  rfl

/-- Witness of C17 on `{properties: {a: {type: 'string'}}, allOf: [{properties: {b: {type:
'number'}}}]}`, which resolves to the single name `a`. -/
theorem getProperties_own_properties_witness :
    getProperties 3 propertiesAllOfSchema none
      = .ok (.obj [("a", typeString)], registered propertiesAllOfSchema none) :=
  getProperties_own_properties 2 propertiesAllOfSchema none [("a", typeString)]
    rfl rfl rfl (by decide) (by decide)

/-- Claim C19. For a schema with no `$ref` and no `properties`, `getProperties` folds the
branches of one keyword only: those of `anyOf` when it is present, whatever `allOf` and
`oneOf` hold; otherwise those of `allOf` when it is present, whatever `oneOf` holds;
otherwise, at the top level only, those of `oneOf`.  Hence with both `anyOf` and `allOf`
the result is the fold over the property maps `ps` of the `anyOf` branches alone, and a
name is in the result only if a branch of `anyOf` has it. -/
theorem getProperties_precedence (fuel : Nat) (schema : Val) (validator : Option Registry)
    (bs ps : List Val) (reg' : Registry)
    (hn : isNullish schema = false)
    (href : truthy (getProp schema "$ref") = false)
    (hprops : truthy (getProp schema "properties") = false)
    (hps : resolveBranches fuel bs (registered schema validator) = .ok (ps, reg'))
    (hsel : getProp schema "anyOf" = .arr bs ∨
      (truthy (getProp schema "anyOf") = false ∧ getProp schema "allOf" = .arr bs) ∨
      (truthy (getProp schema "anyOf") = false ∧ truthy (getProp schema "allOf") = false ∧
        validator = none ∧ getProp schema "oneOf" = .arr bs)) :
    getProperties (fuel + 1) schema validator =
        (ps.foldlM (merge fuel) (.obj []) >>= fun res => .ok (res, reg')) ∧
      ∀ res reg, getProperties (fuel + 1) schema validator = .ok (res, reg) →
        ∀ k, k ∈ objectKeys res → ∃ p ∈ ps, k ∈ objectKeys p := by
  have hc : compositionOf validator.isNone schema = .arr bs := by
    rcases hsel with h | ⟨h1, h2⟩ | ⟨h1, h2, h3, h4⟩
    · simp [compositionOf, h, truthy_arr]
    · simp [compositionOf, h1, h2, truthy_arr]
    · simp [compositionOf, h1, h2, h3, h4]
  have heq : getProperties (fuel + 1) schema validator =
      (ps.foldlM (merge fuel) (.obj []) >>= fun res => .ok (res, reg')) := by
    rw [getProperties_succ]
    simp only [readProp, hn, ok_bind, href, resolveFrom, hprops, hc, truthy_arr,
      Bool.false_eq_true, if_false, if_true]
    exact foldlM_branchStep fuel bs _ _ _ _ hps
  refine ⟨heq, ?_⟩
  intro res reg h k hk
  rw [heq] at h
  cases hf : ps.foldlM (merge fuel) (.obj []) with
  | error e => rw [hf] at h; exact absurd h (by simp)
  | ok m =>
    rw [hf] at h
    simp only [ok_bind, Except.ok.injEq, Prod.mk.injEq] at h
    obtain ⟨l, hl, hkeys⟩ := foldlM_merge_keys _ _ _ _ hf
    rw [← h.1, hl] at hk
    have hk' : k ∈ l.map Prod.fst := hk
    rw [hkeys k] at hk'
    simpa using hk'

/-- Witness of C19 on `{anyOf: [{properties: {a: {type: 'string'}}}], allOf: [{properties:
{b: {type: 'number'}}}]}`: the result is the map of the `anyOf` branch, with the single
name `a`; the name `b` of the `allOf` branch is absent. -/
theorem getProperties_precedence_witness :
    getProperties 4 anyOfAllOfSchema none
      = .ok (.obj [("a", typeString)], registered anyOfAllOfSchema none) ∧
    ∀ res reg, getProperties 4 anyOfAllOfSchema none = .ok (res, reg) →
      ∀ k, k ∈ objectKeys res → ∃ p ∈ [Val.obj [("a", typeString)]], k ∈ objectKeys p :=
  ⟨(getProperties_precedence 3 anyOfAllOfSchema none
      [.obj [("properties", .obj [("a", typeString)])]] [.obj [("a", typeString)]]
      (registered anyOfAllOfSchema none) rfl rfl rfl rfl (Or.inl rfl)).1.trans rfl,
    (getProperties_precedence 3 anyOfAllOfSchema none
      [.obj [("properties", .obj [("a", typeString)])]] [.obj [("a", typeString)]]
      (registered anyOfAllOfSchema none) rfl rfl rfl rfl (Or.inl rfl)).2⟩

/-! ## Nested model instances in a serialization -/

theorem mem_assocSet {κ α : Type} [DecidableEq κ] (k : κ) (v : α) (l : List (κ × α))
    (p : κ × α) (h : p ∈ assocSet k v l) : p = (k, v) ∨ p ∈ l := by
  induction l with
  | nil => simp only [assocSet, List.mem_singleton] at h; exact Or.inl h
  | cons q rest ih =>
    obtain ⟨k', v'⟩ := q
    simp only [assocSet] at h
    by_cases hk : k' = k
    · rw [if_pos hk] at h
      rcases List.mem_cons.1 h with e | e
      · left; rw [e, hk]
      · right; exact List.mem_cons_of_mem _ e
    · rw [if_neg hk] at h
      rcases List.mem_cons.1 h with e | e
      · right; rw [e]; exact List.mem_cons_self _ _
      · rcases ih e with e' | e'
        · exact Or.inl e'
        · right; exact List.mem_cons_of_mem _ e'

/-- A property of the assigned values holds of every field of the object the loop builds. -/
theorem foldlM_assign_all (g : Val → String → Except Err Val) (P : Val → Prop)
    (hg : ∀ res k v, g res k = .ok v → P v) (ks : List String) :
    ∀ (l0 : List (String × Val)) (r : Val), (∀ p ∈ l0, P p.2) →
    ks.foldlM (assignWith g) (.obj l0) = .ok r → ∃ l, r = .obj l ∧ ∀ p ∈ l, P p.2 := by
  induction ks with
  | nil =>
    intro l0 r h0 h
    simp only [List.foldlM_nil, pure_eq_ok, Except.ok.injEq] at h
    exact ⟨l0, h.symm, h0⟩
  | cons k rest ih =>
    intro l0 r h0 h
    rw [List.foldlM_cons] at h
    cases hk : g (.obj l0) k with
    | error e => simp [assignWith, hk] at h
    | ok v =>
      simp only [assignWith, hk, ok_bind, setProp_obj] at h
      refine ih _ _ ?_ h
      intro p hp
      rcases mem_assocSet _ _ _ _ hp with e | e
      · rw [e]; exact hg _ _ _ hk
      · exact h0 p e

theorem mapM_all {α β : Type} (f : α → Except Err β) (P : β → Prop)
    (hf : ∀ a b, f a = .ok b → P b) (l : List α) :
    ∀ (r : List β), l.mapM f = .ok r → ∀ b ∈ r, P b := by
  induction l with
  | nil =>
    intro r h b hb
    have h' : (Except.ok [] : Except Err (List β)) = .ok r := h
    injection h' with h'
    rw [← h'] at hb
    simp at hb
  | cons a rest ih =>
    intro r h b hb
    obtain ⟨b0, bs, h0, hrest, rfl⟩ := mapM_ok_cons f a rest r h
    rcases List.mem_cons.1 hb with e | e
    · rw [e]; exact hf _ _ h0
    · exact ih bs hrest b e

theorem depthList_le (l : List Val) (n : Nat) (h : ∀ x ∈ l, depth x ≤ n) :
    depthList l ≤ n := by
  induction l with
  | nil => simp [depthList]
  | cons x rest ih =>
    simp only [depthList]
    exact max_le (h x (List.mem_cons_self _ _))
      (ih (fun q hq => h q (List.mem_cons_of_mem _ hq)))

theorem not_isObject_structural (v : Val) (h : isObject v = false) :
    structural v = true ∧ depth v = 0 := by
  cases v <;> simp_all [isObject, structural, depth]

/-- Whatever the callback, what `clone` returns is plain structured data (no model
instance in it) no deeper than the fuel. -/
theorem clone_output (fuel : Nat) : ∀ (x : Val) (cb : Option Callback) (r : Val),
    clone fuel x cb = .ok r → structural r = true ∧ depth r ≤ fuel := by
  induction fuel with
  | zero => intro x cb r h; simp [clone] at h
  | succ n ih =>
    intro x cb r h
    have hval : ∀ (m : Except Err Val) (v : Val),
        (m >>= fun val => if isObject val then clone n val (some (cb.getD idCallback))
          else .ok val) = .ok v → structural v = true ∧ depth v ≤ n := by
      intro m v hv
      cases hm : m with
      | error e => rw [hm] at hv; exact absurd hv (by simp)
      | ok val =>
        rw [hm] at hv
        simp only [ok_bind] at hv
        by_cases ho : isObject val = true
        · rw [if_pos ho] at hv
          exact ih _ _ _ hv
        · rw [if_neg ho] at hv
          injection hv with hv
          subst hv
          have := not_isObject_structural val (by simpa using ho)
          exact ⟨this.1, by omega⟩
    by_cases hx : ∃ xs, x = .arr xs
    · obtain ⟨xs, rfl⟩ := hx
      revert h
      rw [clone_arr]
      cases hm : (List.enum xs).mapM (cloneEntry n (cb.getD idCallback) (.arr xs)) with
      | error e => intro h; simp at h
      | ok ys =>
        intro h
        simp only [ok_bind, Except.ok.injEq] at h
        subst h
        have hall := mapM_all _ (fun v => structural v = true ∧ depth v ≤ n)
          (fun p b hb => hval _ b hb) _ ys hm
        refine ⟨?_, ?_⟩
        · simp only [structural]
          exact (structuralList_iff ys).2 (fun y hy => (hall y hy).1)
        · simp only [depth]
          exact Nat.succ_le_succ (depthList_le ys n (fun y hy => (hall y hy).2))
    · by_cases hd : ∃ t, x = .date t
      · obtain ⟨t, rfl⟩ := hd
        simp only [clone, pure_eq_ok, Except.ok.injEq] at h
        subst h
        exact ⟨rfl, by simp [depth]⟩
      · have h1 : ∀ xs, x ≠ .arr xs := fun xs e => hx ⟨xs, e⟩
        have h2 : ∀ t, x ≠ .date t := fun t e => hd ⟨t, e⟩
        rw [clone_other _ _ _ h1 h2] at h
        cases hk : objectKeysE x with
        | error e => simp [hk] at h
        | ok keys =>
          rw [hk] at h
          simp only [ok_bind] at h
          obtain ⟨l, hl, _, hnd⟩ := foldlM_assign_keys _ _ _ _ h
          obtain ⟨l', hl', hall⟩ := foldlM_assign_all _
            (fun v => structural v = true ∧ depth v ≤ n)
            (fun res k v hv => hval _ v hv) _ _ _ (by simp) h
          have e : l' = l := by rw [hl'] at hl; injection hl
          subst e
          subst hl'
          refine ⟨?_, ?_⟩
          · simp only [structural, Bool.and_eq_true, decide_eq_true_eq]
            exact ⟨hnd (by simp), (structuralFields_iff l').2 (fun p hp => (hall p hp).1)⟩
          · simp only [depth]
            exact Nat.succ_le_succ (depthFields_le l' n (fun p hp => (hall p hp).2))

/-- More fuel and a callback that returns wherever the given one does leave the result of
`clone` the same. -/
theorem clone_mono_cb (cb cb' : Callback)
    (hcb : ∀ scope k v r, cb scope k v = .ok r → cb' scope k v = .ok r) (fuel : Nat) :
    ∀ (m : Nat), fuel ≤ m → ∀ (x : Val) (r : Val),
    clone fuel x (some cb) = .ok r → clone m x (some cb') = .ok r := by
  induction fuel with
  | zero => intro m _ x r h; simp [clone] at h
  | succ n ih =>
    intro m hm x r h
    obtain ⟨m, rfl⟩ : ∃ m', m = m' + 1 := ⟨m - 1, by omega⟩
    have hnm : n ≤ m := by omega
    have hval : ∀ (scope : Val) (k : String) (v w : Val),
        (cb scope k v >>= fun val =>
          if isObject val then clone n val (some cb) else .ok val) = .ok w →
        (cb' scope k v >>= fun val =>
          if isObject val then clone m val (some cb') else .ok val) = .ok w := by
      intro scope k v w hw
      cases hc : cb scope k v with
      | error e => rw [hc] at hw; exact absurd hw (by simp)
      | ok val =>
        rw [hc] at hw
        rw [hcb _ _ _ _ hc]
        simp only [ok_bind] at hw ⊢
        by_cases ho : isObject val = true
        · rw [if_pos ho] at hw ⊢
          exact ih m hnm _ _ hw
        · rw [if_neg ho] at hw ⊢
          exact hw
    by_cases hx : ∃ xs, x = .arr xs
    · obtain ⟨xs, rfl⟩ := hx
      revert h
      rw [clone_arr, clone_arr]
      simp only [Option.getD_some]
      cases hmm : (List.enum xs).mapM (cloneEntry n cb (.arr xs)) with
      | error e => intro h; simp at h
      | ok ys =>
        rw [mapM_mono _ (cloneEntry m cb' (.arr xs)) _ (List.enum xs) ys hmm]
        · exact id
        · intro p y hy
          exact hval _ _ _ _ hy
    · by_cases hd : ∃ t, x = .date t
      · obtain ⟨t, rfl⟩ := hd
        exact h
      · have h1 : ∀ xs, x ≠ .arr xs := fun xs e => hx ⟨xs, e⟩
        have h2 : ∀ t, x ≠ .date t := fun t e => hd ⟨t, e⟩
        rw [clone_other _ _ _ h1 h2] at h ⊢
        simp only [Option.getD_some] at h ⊢
        cases hk : objectKeysE x with
        | error e => simp [hk] at h
        | ok keys =>
          rw [hk] at h
          simp only [ok_bind] at h ⊢
          refine foldlM_mono _ _ ?_ _ _ _ h
          intro s a r' hr'
          simp only [assignWith] at hr' ⊢
          cases hc : cloneVal n cb x s a with
          | error e => simp [hc] at hr'
          | ok v =>
            rw [hc] at hr'
            have hc' : cloneVal m cb' x s a = .ok v := hval _ _ _ _ hc
            rw [hc']
            exact hr'

theorem get_mono (env : Env) (n m : Nat) (hle : n ≤ m) (this : Instance) (key : String)
    (options v : Val) (h : SchemaModel.get env n this key options = .ok v) :
    SchemaModel.get env m this key options = .ok v := by
  simp only [SchemaModel.get] at h ⊢
  cases hm : merge n DEFAULT_OPTIONS (if truthy options then options else .obj []) with
  | error e => rw [hm] at h; exact absurd h (by simp)
  | ok o =>
    rw [hm] at h
    rw [merge_mono_le n m hle _ _ _ hm]
    exact h

theorem schemaProperties_mono (n m : Nat) (hle : n ≤ m) (this : Instance) (props : Val)
    (h : SchemaModel.schemaProperties n this = .ok props) :
    SchemaModel.schemaProperties m this = .ok props := by
  simp only [SchemaModel.schemaProperties] at h ⊢
  cases hs : SchemaModel.schema this with
  | error e => rw [hs] at h; exact absurd h (by simp)
  | ok s =>
    rw [hs] at h
    simp only [ok_bind] at h ⊢
    cases hg : getProperties n s none with
    | error e => rw [hg] at h; exact absurd h (by simp)
    | ok r =>
      rw [hg] at h
      rw [getProperties_mono_le n m hle _ _ _ hg]
      exact h

/-- More fuel leaves the result of `toJSON` the same. -/
theorem toJSON_mono (env : Env) (strip : Bool) (fuel : Nat) :
    ∀ (m : Nat), fuel ≤ m → ∀ (this : Instance) (j : Val),
    SchemaModel.toJSON env fuel this strip = .ok j →
    SchemaModel.toJSON env m this strip = .ok j := by
  induction fuel with
  | zero => intro m _ this j h; simp [SchemaModel.toJSON] at h
  | succ n ih =>
    intro m hm this j h
    obtain ⟨m, rfl⟩ : ∃ m', m = m' + 1 := ⟨m - 1, by omega⟩
    have hnm : n ≤ m := by omega
    rw [toJSON_succ] at h ⊢
    cases hp : SchemaModel.schemaProperties n this with
    | error e => rw [hp] at h; exact absurd h (by simp)
    | ok props =>
      rw [hp] at h
      rw [schemaProperties_mono n m hnm this props hp]
      simp only [ok_bind] at h ⊢
      cases hk : objectKeysE props with
      | error e => rw [hk] at h; exact absurd h (by simp)
      | ok keys =>
        rw [hk] at h
        simp only [ok_bind] at h ⊢
        cases hl : keys.foldlM (fun res key =>
            SchemaModel.get env n this key .undefined >>= fun val =>
              if !strip || !isUndefined val then setProp res key val else .ok res)
            (.obj []) with
        | error e => rw [hl] at h; exact absurd h (by simp)
        | ok res =>
          rw [hl] at h
          have hl' : keys.foldlM (fun res key =>
              SchemaModel.get env m this key .undefined >>= fun val =>
                if !strip || !isUndefined val then setProp res key val else .ok res)
              (.obj []) = .ok res := by
            refine foldlM_mono _ _ ?_ _ _ _ hl
            intro s a r hr
            cases hg : SchemaModel.get env n this a .undefined with
            | error e => rw [hg] at hr; exact absurd hr (by simp)
            | ok v =>
              rw [hg] at hr
              rw [get_mono env n m hnm this a _ v hg]
              exact hr
          rw [hl']
          simp only [ok_bind] at h ⊢
          refine clone_mono_cb _ _ ?_ n m hnm _ _ h
          intro scope k v r hr
          cases v with
          | model schema store => exact ih m hnm _ _ hr
          | _ => exact hr

/-- A copy made with a callback that leaves plain structured data alone, of plain
structured data, is that data. -/
theorem clone_fixed (cb : Callback)
    (hcb : ∀ scope k v, structural v = true → cb scope k v = .ok v)
    (n : Nat) (x r : Val) (hs : structural x = true) (ho : isObject x = true)
    (h : clone n x (some cb) = .ok r) : r = x := by
  have h1 := clone_mono_le n (max n (depth x)) (le_max_left _ _) x (some cb) r h
  have h2 := clone_structural_cb cb hcb (max n (depth x)) x hs ho (le_max_right _ _)
  rw [h1] at h2
  injection h2

/-- What `toJSON` returns is a container of plain structured data (no model instance in
it), less deep than the fuel. -/
theorem toJSON_output (env : Env) (fuel : Nat) (this : Instance) (strip : Bool) (j : Val)
    (h : SchemaModel.toJSON env fuel this strip = .ok j) :
    structural j = true ∧ isObject j = true ∧ depth j < fuel := by
  cases fuel with
  | zero => simp [SchemaModel.toJSON] at h
  | succ n =>
    rw [toJSON_succ] at h
    cases hp : SchemaModel.schemaProperties n this with
    | error e => rw [hp] at h; exact absurd h (by simp)
    | ok props =>
      rw [hp] at h
      simp only [ok_bind] at h
      cases hk : objectKeysE props with
      | error e => rw [hk] at h; exact absurd h (by simp)
      | ok keys =>
        rw [hk] at h
        simp only [ok_bind] at h
        cases hl : keys.foldlM (fun res key =>
            SchemaModel.get env n this key .undefined >>= fun val =>
              if !strip || !isUndefined val then setProp res key val else .ok res)
            (.obj []) with
        | error e => rw [hl] at h; exact absurd h (by simp)
        | ok res =>
          rw [hl] at h
          simp only [ok_bind] at h
          have ho := clone_output n _ _ _ h
          exact ⟨ho.1, clone_isObject n _ _ _ h, Nat.lt_succ_of_le ho.2⟩

/-- What the clone of `toJSON` puts in the place of a model instance is the instance's own
serialization. -/
theorem serialize_model (env : Env) (n m : Nat) (strip : Bool) (scope : Val) (k : String)
    (sch : Option Val) (st : List (Key × Val)) (v : Val)
    (h : (jsonCallback env n strip scope k (.model sch st) >>= fun val =>
      if isObject val then clone m val (some (jsonCallback env n strip)) else .ok val)
      = .ok v) :
    SchemaModel.toJSON env n ⟨sch, st⟩ strip = .ok v := by
  have hcb : jsonCallback env n strip scope k (.model sch st)
      = SchemaModel.toJSON env n ⟨sch, st⟩ strip := rfl
  rw [hcb] at h
  cases hj : SchemaModel.toJSON env n ⟨sch, st⟩ strip with
  | error e => rw [hj] at h; exact absurd h (by simp)
  | ok j =>
    rw [hj] at h
    obtain ⟨hs, ho, _⟩ := toJSON_output env n _ strip j hj
    simp only [ok_bind, ho, if_true] at h
    rw [clone_fixed _ (jsonCallback_structural env n strip) m j v hs ho h]

theorem mapM_getElem {α β : Type} (f : α → Except Err β) (l : List α) :
    ∀ (r : List β) (i : Nat) (a : α), l.mapM f = .ok r → l[i]? = some a →
    ∃ b, f a = .ok b ∧ r[i]? = some b := by
  induction l with
  | nil => intro r i a _ ha; simp at ha
  | cons a0 rest ih =>
    intro r i a h ha
    obtain ⟨b0, bs, h0, hrest, rfl⟩ := mapM_ok_cons f a0 rest r h
    cases i with
    | zero =>
      simp only [List.getElem?_cons_zero, Option.some.injEq] at ha
      subst ha
      exact ⟨b0, h0, by simp⟩
    | succ i =>
      simp only [List.getElem?_cons_succ] at ha ⊢
      exact ih bs i a hrest ha

/-- The value `toJSON` leaves under a declared name whose public value is not
`undefined`: the callback applied to it, then cloned. -/
theorem toJSON_field (env : Env) (m : Nat) (outer : Instance) (strip : Bool)
    (names : List String) (hnd : names.Nodup) (J : Val)
    (hJ : clone (m + 1) (.obj (rawJSON outer.store strip names))
      (some (jsonCallback env (m + 1) strip)) = .ok J)
    (p : String) (hp : p ∈ names) (hdef : isUndefined (publicValue outer.store p) = false) :
    ∃ w, (jsonCallback env (m + 1) strip (.obj (rawJSON outer.store strip names)) p
        (publicValue outer.store p) >>= fun val =>
          if isObject val then clone m val (some (jsonCallback env (m + 1) strip))
          else .ok val) = .ok w ∧ getProp J p = w := by
  rw [clone_obj] at hJ
  have hrn : ((rawJSON outer.store strip names).map Prod.fst).Nodup := by
    rw [rawJSON_keys]; exact hnd.filter _
  obtain ⟨l, hl, _, hin⟩ := foldlM_assign_get _
    (fun l l' k _ => cloneVal_congr m _ _ l l' k) _ _ _ hrn hJ
  have hk : p ∈ (rawJSON outer.store strip names).map Prod.fst := by
    rw [rawJSON_keys, List.mem_filter]
    exact ⟨hp, by simp [hdef]⟩
  obtain ⟨w, hw, hget⟩ := hin p hk
  have hg : getProp (.obj (rawJSON outer.store strip names)) p
      = publicValue outer.store p := by
    rw [getProp_obj, assocGet_rawJSON, if_pos ⟨hp, by simp [hdef]⟩]
    rfl
  simp only [cloneVal, Option.getD_some, hg] at hw
  refine ⟨w, hw, ?_⟩
  rw [hl, getProp_obj, hget]
  rfl

/-- Claim C13. When the class's properties resolve to the names of `lp` and
`outer.toJSON(s)` returns `J`: no model instance occurs anywhere in `J`; and for every
declared name `p` and model instance `inner` (schema `sch`, store `st`), `inner.toJSON(s)`
returns some `j` (the same for every larger fuel) and `j` is the value of `J` at the place
of `inner`, which is `J[p]` when `outer` holds `inner` under `p`, `J[p][i]` when it holds
an array with `inner` at index `i`, and `J[p][q]` when it holds a plain object with `inner`
under `q`.  `outer.toJSON(s)` does return when every declared name holds plain structured
data or a model instance whose own `toJSON(s)` returns. -/
theorem toJSON_nested (env : Env) (fuel : Nat) (outer : Instance) (strip : Bool)
    (lp : List (String × Val))
    (hp : SchemaModel.schemaProperties fuel outer = .ok (.obj lp)) :
    (∀ J, SchemaModel.toJSON env (fuel + 1) outer strip = .ok J →
      structural J = true ∧
      ∀ p ∈ lp.map Prod.fst, ∀ (sch : Option Val) (st : List (Key × Val)),
        (publicValue outer.store p = .model sch st →
          ∃ j, (∀ m, fuel ≤ m → SchemaModel.toJSON env m ⟨sch, st⟩ strip = .ok j) ∧
            getProp J p = j) ∧
        (∀ (xs : List Val) (i : Nat), publicValue outer.store p = .arr xs →
          xs[i]? = some (.model sch st) →
          ∃ j ys, (∀ m, fuel ≤ m → SchemaModel.toJSON env m ⟨sch, st⟩ strip = .ok j) ∧
            getProp J p = .arr ys ∧ ys[i]? = some j) ∧
        (∀ (fs : List (String × Val)) (q : String), publicValue outer.store p = .obj fs →
          (fs.map Prod.fst).Nodup → assocGet q fs = some (.model sch st) →
          ∃ j l, (∀ m, fuel ≤ m → SchemaModel.toJSON env m ⟨sch, st⟩ strip = .ok j) ∧
            getProp J p = .obj l ∧ assocGet q l = some j)) ∧
    (2 ≤ fuel →
      (∀ k ∈ lp.map Prod.fst,
        (structural (publicValue outer.store k) = true ∧
          depth (publicValue outer.store k) < fuel) ∨
        (∃ sch st j, publicValue outer.store k = .model sch st ∧
          SchemaModel.toJSON env fuel ⟨sch, st⟩ strip = .ok j)) →
      ∃ J, SchemaModel.toJSON env (fuel + 1) outer strip = .ok J) := by
  have hnd : (lp.map Prod.fst).Nodup := schemaProperties_nodup fuel outer lp hp
  obtain ⟨m, rfl⟩ : ∃ m, fuel = m + 1 := by
    cases fuel with
    | zero => exact absurd hp (schemaProperties_zero outer _)
    | succ m => exact ⟨m, rfl⟩
  constructor
  · intro J hJ
    rw [toJSON_succ, hp] at hJ
    simp only [ok_bind, objectKeysE_obj] at hJ
    cases hloop : (lp.map Prod.fst).foldlM (fun res key =>
        SchemaModel.get env (m + 1) outer key .undefined >>= fun val =>
          if !strip || !isUndefined val then setProp res key val else .ok res) (.obj []) with
    | error e => rw [hloop] at hJ; exact absurd hJ (by simp [error_bind])
    | ok res =>
      rw [hloop] at hJ
      simp only [ok_bind] at hJ
      have hres := toJSON_loop_of_ok env (m + 1) outer strip _ hnd res hloop
      subst hres
      refine ⟨(clone_output _ _ _ _ hJ).1, ?_⟩
      intro p hpd sch st
      refine ⟨?_, ?_, ?_⟩
      · intro hv
        obtain ⟨w, hw, hget⟩ := toJSON_field env m outer strip _ hnd J hJ p hpd
          (by rw [hv]; rfl)
        rw [hv] at hw
        have hj := serialize_model env (m + 1) m strip _ _ sch st w hw
        exact ⟨w, fun m' hm' => toJSON_mono env strip (m + 1) m' hm' _ _ hj, hget⟩
      · intro xs i hv hi
        obtain ⟨w, hw, hget⟩ := toJSON_field env m outer strip _ hnd J hJ p hpd
          (by rw [hv]; rfl)
        rw [hv] at hw
        have hcb : jsonCallback env (m + 1) strip
            (.obj (rawJSON outer.store strip (lp.map Prod.fst))) p (.arr xs)
            = .ok (.arr xs) := rfl
        rw [hcb] at hw
        simp only [ok_bind, isObject, if_true] at hw
        cases m with
        | zero => simp [clone] at hw
        | succ m' =>
          revert hw
          rw [clone_arr]
          simp only [Option.getD_some]
          cases hmm : (List.enum xs).mapM
              (cloneEntry m' (jsonCallback env (m' + 1 + 1) strip) (.arr xs)) with
          | error e => intro hw; simp at hw
          | ok ys =>
            intro hw
            simp only [ok_bind, Except.ok.injEq] at hw
            have hei : (List.enum xs)[i]? = some (i, .model sch st) := by
              rw [List.getElem?_enum, hi]; rfl
            obtain ⟨b, hb, hyi⟩ := mapM_getElem _ _ ys i _ hmm hei
            simp only [cloneEntry] at hb
            have hj := serialize_model env (m' + 1 + 1) m' strip _ _ sch st b hb
            exact ⟨b, ys, fun k hk => toJSON_mono env strip _ k hk _ _ hj,
              by rw [hget, ← hw], hyi⟩
      · intro fs q hv hfn hq
        obtain ⟨w, hw, hget⟩ := toJSON_field env m outer strip _ hnd J hJ p hpd
          (by rw [hv]; rfl)
        rw [hv] at hw
        have hcb : jsonCallback env (m + 1) strip
            (.obj (rawJSON outer.store strip (lp.map Prod.fst))) p (.obj fs)
            = .ok (.obj fs) := rfl
        rw [hcb] at hw
        simp only [ok_bind, isObject, if_true] at hw
        cases m with
        | zero => simp [clone] at hw
        | succ m' =>
          rw [clone_obj] at hw
          obtain ⟨l, hl, _, hin⟩ := foldlM_assign_get _
            (fun l l' k _ => cloneVal_congr m' _ _ l l' k) _ _ _ hfn hw
          have hqk : q ∈ fs.map Prod.fst := by
            rw [← assocGet_isSome_iff, hq]; rfl
          obtain ⟨b, hb, hgb⟩ := hin q hqk
          have hgq : getProp (.obj fs) q = .model sch st := by
            rw [getProp_obj, hq]; rfl
          simp only [cloneVal, Option.getD_some, hgq] at hb
          have hj := serialize_model env (m' + 1 + 1) m' strip _ _ sch st b hb
          exact ⟨b, l, fun k hk => toJSON_mono env strip _ k hk _ _ hj,
            by rw [hget, hl], hgb⟩
  · intro h2 hall
    rw [toJSON_succ, hp]
    simp only [ok_bind, objectKeysE_obj]
    rw [toJSON_loop env (m + 1) outer strip h2 _ [] (by simpa using hnd)]
    simp only [ok_bind, List.nil_append]
    rw [clone_obj]
    have hrn : ((rawJSON outer.store strip (lp.map Prod.fst)).map Prod.fst).Nodup := by
      rw [rawJSON_keys]; exact hnd.filter _
    refine foldlM_assign_ok _ (fun l l' k _ => cloneVal_congr m _ _ l l' k) _ _ hrn ?_
    intro k hk
    rw [rawJSON_keys, List.mem_filter] at hk
    have hg : getProp (.obj (rawJSON outer.store strip (lp.map Prod.fst))) k
        = publicValue outer.store k := by
      rw [getProp_obj, assocGet_rawJSON, if_pos ⟨hk.1, hk.2⟩]
      rfl
    simp only [cloneVal, Option.getD_some, hg]
    rcases hall k hk.1 with ⟨hs, hd⟩ | ⟨sch, st, j, hv, hj⟩
    · rw [jsonCallback_structural env (m + 1) strip _ _ _ hs]
      simp only [ok_bind]
      by_cases ho : isObject (publicValue outer.store k) = true
      · rw [if_pos ho]
        exact ⟨_, clone_structural_cb _ (jsonCallback_structural env (m + 1) strip) m _ hs ho
          (by omega)⟩
      · rw [if_neg ho]
        exact ⟨_, rfl⟩
    · rw [hv]
      have hcb : jsonCallback env (m + 1) strip
          (.obj (rawJSON outer.store strip (lp.map Prod.fst))) k (.model sch st)
          = SchemaModel.toJSON env (m + 1) ⟨sch, st⟩ strip := rfl
      rw [hcb, hj]
      obtain ⟨hs, ho, hd⟩ := toJSON_output env (m + 1) _ strip j hj
      simp only [ok_bind, ho, if_true]
      exact ⟨_, clone_structural_cb _ (jsonCallback_structural env (m + 1) strip) m _ hs ho
        (by omega)⟩

/-- Witness of C13: the instance that holds the model `{name: 'a'}` under `child`, in the
array `list` and in the object `box` serializes to `{child: {name: 'a'}, list: [{name:
'a'}], box: {q: {name: 'a'}}}`, and each of the three places holds what the inner
`toJSON` returns. -/
theorem toJSON_nested_witness :
    SchemaModel.toJSON acceptAll 5 outerInstance false
      = .ok (.obj [("child", .obj [("name", .str "a")]),
          ("list", .arr [.obj [("name", .str "a")]]),
          ("box", .obj [("q", .obj [("name", .str "a")])])]) ∧
    (∃ j, (∀ m, 4 ≤ m → SchemaModel.toJSON acceptAll m
        ⟨some nameSchema, [(.str "name", .str "a")]⟩ false = .ok j) ∧
      getProp (.obj [("child", .obj [("name", .str "a")]),
          ("list", .arr [.obj [("name", .str "a")]]),
          ("box", .obj [("q", .obj [("name", .str "a")])])]) "child" = j) ∧
    (∃ j ys, (∀ m, 4 ≤ m → SchemaModel.toJSON acceptAll m
        ⟨some nameSchema, [(.str "name", .str "a")]⟩ false = .ok j) ∧
      getProp (.obj [("child", .obj [("name", .str "a")]),
          ("list", .arr [.obj [("name", .str "a")]]),
          ("box", .obj [("q", .obj [("name", .str "a")])])]) "list" = .arr ys ∧
      ys[0]? = some j) :=
  ⟨rfl,
    (((toJSON_nested acceptAll 4 outerInstance false
      [("child", .obj []), ("list", .obj []), ("box", .obj [])] rfl).1 _ rfl).2
      "child" (by simp) (some nameSchema) [(.str "name", .str "a")]).1 rfl,
    (((toJSON_nested acceptAll 4 outerInstance false
      [("child", .obj []), ("list", .obj []), ("box", .obj [])] rfl).1 _ rfl).2
      "list" (by simp) (some nameSchema) [(.str "name", .str "a")]).2.1
      [innerModel] 0 rfl rfl⟩

/-! ## The internal and the public path -/

/-- An entry of the cache stays what it is through a call of `getSymbol`. -/
theorem getSymbolCached_entry (hasSymbol : Bool) (cache : SymbolCache) (n m : String)
    (k : CachedKey) (h : assocGet n cache.entries = some k) :
    assocGet n (getSymbolCached hasSymbol cache m).2.entries = some k := by
  simp only [getSymbolCached]
  cases hi : assocGet m inheritedMembers with
  | some t => exact h
  | none =>
    cases he : assocGet m cache.entries with
    | some k' => exact h
    | none =>
      have hne : m ≠ n := by
        intro e
        rw [e, h] at he
        exact Option.noConfusion he
      cases hasSymbol
      · simp only [Bool.false_eq_true, if_false, assocGet_assocSet, if_neg hne, h]
      · simp only [if_true, assocGet_assocSet, if_neg hne, h]

theorem getSymbolCalls_entry (hasSymbol : Bool) (ns : List String) :
    ∀ (cache : SymbolCache) (n : String) (k : CachedKey),
    assocGet n cache.entries = some k →
    assocGet n (getSymbolCalls hasSymbol cache ns).entries = some k := by
  induction ns with
  | nil => intro cache n k h; exact h
  | cons m rest ih =>
    intro cache n k h
    exact ih _ n k (getSymbolCached_entry hasSymbol cache n m k h)

/-- What a call of `getSymbol` returns for a name is, unless the name is inherited, the
entry of the cache after the call. -/
theorem getSymbolCached_stored (hasSymbol : Bool) (cache : SymbolCache) (n : String)
    (hn : assocGet n inheritedMembers = none) :
    assocGet n (getSymbolCached hasSymbol cache n).2.entries
      = some (getSymbolCached hasSymbol cache n).1 := by
  simp only [getSymbolCached, hn]
  cases he : assocGet n cache.entries with
  | some k => exact he
  | none =>
    cases hasSymbol
    · simp [assocGet_assocSet]
    · simp [assocGet_assocSet]

/-- A call of `getSymbol` returns what an earlier call for the same name did, whatever
calls were made in between. -/
theorem getSymbolCached_stable (hasSymbol : Bool) (cache : SymbolCache) (n : String)
    (later : List String) :
    (getSymbolCached hasSymbol
        (getSymbolCalls hasSymbol (getSymbolCached hasSymbol cache n).2 later) n).1
      = (getSymbolCached hasSymbol cache n).1 := by
  cases hn : assocGet n inheritedMembers with
  | some t => simp only [getSymbolCached, hn]
  | none =>
    have h := getSymbolCalls_entry hasSymbol later _ n _
      (getSymbolCached_stored hasSymbol cache n hn)
    generalize getSymbolCalls hasSymbol (getSymbolCached hasSymbol cache n).2 later = c at h
    generalize (getSymbolCached hasSymbol cache n).1 = k at h
    simp only [getSymbolCached, hn, h]

/-- Every entry of a cache that the calls of `getSymbol` built holds the key `getSymbol`
gives to its name. -/
theorem getSymbolCalls_toKey (hasSymbol : Bool) (ns : List String) :
    ∀ (cache : SymbolCache),
    (∀ n k, assocGet n cache.entries = some k → k.toKey = getSymbol hasSymbol n) →
    ∀ n k, assocGet n (getSymbolCalls hasSymbol cache ns).entries = some k →
      k.toKey = getSymbol hasSymbol n := by
  induction ns with
  | nil => intro cache h; exact h
  | cons m rest ih =>
    intro cache h
    refine ih _ ?_
    intro n k hk
    simp only [getSymbolCached] at hk
    cases hi : assocGet m inheritedMembers with
    | some t => rw [hi] at hk; exact h n k hk
    | none =>
      rw [hi] at hk
      cases he : assocGet m cache.entries with
      | some k' => rw [he] at hk; exact h n k hk
      | none =>
        rw [he] at hk
        cases hasSymbol
        · simp only [Bool.false_eq_true, if_false, assocGet_assocSet] at hk
          by_cases hmn : m = n
          · rw [if_pos hmn] at hk
            injection hk with hk
            rw [← hk, ← hmn, getSymbol_other _ _ hi]
            rfl
          · rw [if_neg hmn] at hk
            exact h n k hk
        · simp only [if_true, assocGet_assocSet] at hk
          by_cases hmn : m = n
          · rw [if_pos hmn] at hk
            injection hk with hk
            rw [← hk, ← hmn, getSymbol_other _ _ hi]
            rfl
          · rw [if_neg hmn] at hk
            exact h n k hk

/-- The key `getSymbol` of the value model gives to a name is the key that the function
with its cache returns for it, after any calls. -/
theorem getSymbolCached_toKey (hasSymbol : Bool) (history : List String) (n : String) :
    (getSymbolCached hasSymbol (getSymbolCalls hasSymbol SymbolCache.empty history) n).1.toKey
      = getSymbol hasSymbol n := by
  have hwf := getSymbolCalls_toKey hasSymbol history SymbolCache.empty
    (fun n k h => by simp [SymbolCache.empty, assocGet] at h)
  generalize getSymbolCalls hasSymbol SymbolCache.empty history = c at hwf
  cases hn : assocGet n inheritedMembers with
  | some t =>
    simp only [getSymbolCached, hn, getSymbol]
    rfl
  | none =>
    cases he : assocGet n c.entries with
    | some k =>
      simp only [getSymbolCached, hn, he]
      exact hwf n k he
    | none =>
      rw [getSymbol_other _ _ hn]
      cases hasSymbol <;> simp [getSymbolCached, hn, he, CachedKey.toKey]

/-- The private `set` leaves alone what the private `get` reads under a key that is the
storage key of no name of the data. -/
theorem get_set_other (hasSymbol i j : Bool) (data : Val) (k : String) (ks : List String)
    (hk : ∀ ok ∈ ks, storageKey hasSymbol i ok ≠ storageKey hasSymbol j k) :
    ∀ (scope : List (Key × Val)),
    SchemaModelJs.get hasSymbol (ks.foldl (fun scope ok =>
        let key : Key := if i then getSymbol hasSymbol ok else .str ok
        if strictNe (readKey scope key) (getProp data ok) then
          assocSet key (getProp data ok) scope
        else scope) scope) k j = SchemaModelJs.get hasSymbol scope k j := by
  induction ks with
  | nil => intro scope; rfl
  | cons k' rest ih =>
    intro scope
    rw [List.foldl_cons, ih (fun ok hok => hk ok (List.mem_cons_of_mem _ hok))]
    have hkey : (if i then getSymbol hasSymbol k' else Key.str k')
        = storageKey hasSymbol i k' := rfl
    simp only [hkey, get_eq_storageKey]
    by_cases hne : strictNe (readKey scope (storageKey hasSymbol i k'))
        (getProp data k') = true
    · rw [if_pos hne, readKey_assocSet, if_neg (hk k' (List.mem_cons_self _ _))]
    · rw [if_neg hne]

theorem storageKey_internal_ne_public (n m : String)
    (hn : assocGet n inheritedMembers = none) :
    storageKey true true n ≠ storageKey true false m := by
  simp [storageKey, getSymbol_other _ _ hn]

/-- The options `get` and `set` work with are the defaults overlaid with the given ones:
for no options the defaults, for `{internal: true}` the defaults with `internal` set. -/
theorem merge_options (fuel : Nat) (o : Val) :
    (merge fuel DEFAULT_OPTIONS (.obj []) = .ok o → o = DEFAULT_OPTIONS) ∧
    (merge fuel DEFAULT_OPTIONS internalOptions = .ok o →
      o = .obj [("validate", .bool true), ("internal", .bool true)]) :=
  ⟨fun h => merge_fuel_unique fuel 2 _ _ _ _ h rfl,
    fun h => merge_fuel_unique fuel 2 _ _ _ _ h rfl⟩

/-- The method `get` with given options reads under one storage key: two instances that
agree there give the same. -/
theorem classGet_congr_at (env : Env) (fuel : Nat) (this that : Instance) (m : String)
    (options : Val) (i : Bool)
    (hi : ∀ o, merge fuel DEFAULT_OPTIONS (if truthy options then options else .obj [])
      = .ok o → truthy (getProp o "internal") = i)
    (h : SchemaModelJs.get env.hasSymbol that.store m i
      = SchemaModelJs.get env.hasSymbol this.store m i) :
    SchemaModel.get env fuel that m options = SchemaModel.get env fuel this m options := by
  simp only [SchemaModel.get]
  cases hm : merge fuel DEFAULT_OPTIONS (if truthy options then options else .obj []) with
  | error e => rfl
  | ok o => simp only [ok_bind, hi o hm, h]

/-- Two instances of one class with the same public values serialize the same. -/
theorem toJSON_congr (env : Env) (fuel : Nat) (this that : Instance) (strip : Bool)
    (hs : that.schema = this.schema)
    (hpub : ∀ m, SchemaModelJs.get env.hasSymbol that.store m false
      = SchemaModelJs.get env.hasSymbol this.store m false) :
    SchemaModel.toJSON env fuel that strip = SchemaModel.toJSON env fuel this strip := by
  cases fuel with
  | zero => rfl
  | succ n =>
    rw [toJSON_succ, toJSON_succ, schemaProperties_congr n this that hs]
    have hget : ∀ key, SchemaModel.get env n that key .undefined
        = SchemaModel.get env n this key .undefined := by
      intro key
      refine classGet_congr_at env n this that key .undefined false ?_ (hpub key)
      intro o ho
      rw [(merge_options n o).1 ho]
      rfl
    simp only [hget]

/-- The instance after a call of `set`: the one before it when the call raised, otherwise
the one the private `set` wrote to, on the path the merged options name. -/
theorem set_state (env : Env) (fuel : Nat) (this : Instance) (data value options : Val) :
    (SchemaModel.set env fuel this data value options).1 = this ∨
    ∃ o, merge fuel DEFAULT_OPTIONS (setArgs data value options).2 = .ok o ∧
      (SchemaModel.set env fuel this data value options).1 =
        ⟨this.schema, SchemaModelJs.set env.hasSymbol this.store
          (setArgs data value options).1 (truthy (getProp o "internal"))⟩ := by
  cases hr : (SchemaModel.set env fuel this data value options).2 with
  | error e => exact Or.inl (set_error_unchanged env fuel this data value options e hr)
  | ok u =>
    cases hm : merge fuel DEFAULT_OPTIONS (setArgs data value options).2 with
    | error e =>
      left
      rw [set_eq, hm]
    | ok o => exact Or.inr ⟨o, rfl, set_ok_state env fuel this data value options o hm hr⟩

/-- Claim C14, as amended. On a runtime that has `Symbol`: for a name `n` that the cache
object of `getSymbol` does not inherit from `Object.prototype`, `set(n, v, {internal:
true})` leaves `get(m)` on the public path unchanged for every name `m`, leaves `toJSON`
unchanged, and the internal key of `n` is no public (string) key; a public-path `set(n,
v)` leaves `get(m, {internal: true})` unchanged for every name `m` that is not inherited;
the internal key of a name is the internal key of no other name; and the key is the same
on every call: with the cache explicit, a call returns what an earlier call for the name
returned, whatever calls came in between, and that key is the one of the value model. -/
theorem internal_public_separate (env : Env) (fuel : Nat) (this : Instance) (n : String)
    (v : Val) (hsym : env.hasSymbol = true) :
    (assocGet n inheritedMembers = none →
      (∀ m, SchemaModel.get env fuel
          (SchemaModel.set env fuel this (.str n) v internalOptions).1 m .undefined
        = SchemaModel.get env fuel this m .undefined) ∧
      (∀ strip, SchemaModel.toJSON env fuel
          (SchemaModel.set env fuel this (.str n) v internalOptions).1 strip
        = SchemaModel.toJSON env fuel this strip) ∧
      (∀ k, getSymbol env.hasSymbol n ≠ .str k)) ∧
    (∀ m, assocGet m inheritedMembers = none →
      SchemaModel.get env fuel
          (SchemaModel.set env fuel this (.str n) v .undefined).1 m internalOptions
        = SchemaModel.get env fuel this m internalOptions) ∧
    (∀ n', getSymbol env.hasSymbol n = getSymbol env.hasSymbol n' → n = n') ∧
    (∀ history later,
      (getSymbolCached env.hasSymbol
          (getSymbolCalls env.hasSymbol SymbolCache.empty history) n).1.toKey
        = getSymbol env.hasSymbol n ∧
      (getSymbolCached env.hasSymbol
          (getSymbolCalls env.hasSymbol
            (getSymbolCached env.hasSymbol
              (getSymbolCalls env.hasSymbol SymbolCache.empty history) n).2 later) n).1
        = (getSymbolCached env.hasSymbol
            (getSymbolCalls env.hasSymbol SymbolCache.empty history) n).1) := by
  refine ⟨?_, ?_, fun n' h => getSymbol_injective _ _ _ h,
    fun history later => ⟨getSymbolCached_toKey _ history n,
      getSymbolCached_stable _ _ n later⟩⟩
  · intro hn
    have hpub : ∀ m, SchemaModelJs.get env.hasSymbol
        (SchemaModel.set env fuel this (.str n) v internalOptions).1.store m false
        = SchemaModelJs.get env.hasSymbol this.store m false := by
      intro m
      rcases set_state env fuel this (.str n) v internalOptions with h | ⟨o, ho, h⟩
      · rw [h]
      · rw [h]
        have hi : truthy (getProp o "internal") = true := by
          rw [(merge_options fuel o).2 ho]; rfl
        rw [hi]
        refine get_set_other env.hasSymbol true false _ m [n] ?_ this.store
        intro ok hok
        rw [List.mem_singleton] at hok
        rw [hok, hsym]
        exact storageKey_internal_ne_public n m hn
    have hsch : (SchemaModel.set env fuel this (.str n) v internalOptions).1.schema
        = this.schema := by
      rcases set_state env fuel this (.str n) v internalOptions with h | ⟨o, _, h⟩ <;> rw [h]
    refine ⟨?_, ?_, ?_⟩
    · intro m
      refine classGet_congr_at env fuel this _ m .undefined false ?_ (hpub m)
      intro o ho
      rw [(merge_options fuel o).1 ho]
      rfl
    · intro strip
      exact toJSON_congr env fuel this _ strip hsch hpub
    · intro k
      rw [hsym, getSymbol_other _ _ hn]
      simp
  · intro m hm
    refine classGet_congr_at env fuel this _ m internalOptions true ?_ ?_
    · intro o ho
      rw [(merge_options fuel o).2 ho]
      rfl
    · rcases set_state env fuel this (.str n) v .undefined with h | ⟨o, ho, h⟩
      · rw [h]
      · rw [h]
        have hi : truthy (getProp o "internal") = false := by
          rw [(merge_options fuel o).1 ho]; rfl
        rw [hi]
        refine get_set_other env.hasSymbol false true _ m [n] ?_ this.store
        intro ok hok
        rw [hsym]
        simp [storageKey, getSymbol_other _ _ hm]

/-- Witness of C14 as amended: on the instance `{name: 'a'}` of the class bound to
`nameSchema`, `set('name', 's', {internal: true})` leaves the public `get` and `toJSON`
as they were, and the instance still serializes to `{name: 'a'}`. -/
theorem internal_public_separate_witness :
    ((∀ m, SchemaModel.get nameEnv 4
          (SchemaModel.set nameEnv 4 ⟨some nameSchema, [(.str "name", .str "a")]⟩
            (.str "name") (.str "s") internalOptions).1 m .undefined
        = SchemaModel.get nameEnv 4 ⟨some nameSchema, [(.str "name", .str "a")]⟩ m
            .undefined) ∧
      (∀ strip, SchemaModel.toJSON nameEnv 4
          (SchemaModel.set nameEnv 4 ⟨some nameSchema, [(.str "name", .str "a")]⟩
            (.str "name") (.str "s") internalOptions).1 strip
        = SchemaModel.toJSON nameEnv 4 ⟨some nameSchema, [(.str "name", .str "a")]⟩ strip) ∧
      (∀ k, getSymbol nameEnv.hasSymbol "name" ≠ .str k)) ∧
    SchemaModel.toJSON nameEnv 4
        (SchemaModel.set nameEnv 4 ⟨some nameSchema, [(.str "name", .str "a")]⟩
          (.str "name") (.str "s") internalOptions).1 true
      = .ok (.obj [("name", .str "a")]) ∧
    SchemaModel.get nameEnv 4
        (SchemaModel.set nameEnv 4 ⟨some nameSchema, [(.str "name", .str "a")]⟩
          (.str "name") (.str "s") internalOptions).1 "name" internalOptions
      = .ok (.str "s") :=
  ⟨(internal_public_separate nameEnv 4 ⟨some nameSchema, [(.str "name", .str "a")]⟩ "name"
    (.str "s") rfl).1 (by decide), rfl, rfl⟩

/-- Counterexample to C14: on a runtime without `Symbol` the internal key of `a` is the
string `__a`, a public key.  On an instance of the class bound to `{properties: {__a:
{}}}`, `set('a', 1, {internal: true})` changes the public `get('__a')` from `undefined`
to `1` and `toJSON(true)` from `{}` to `{__a: 1}`. -/
theorem internal_set_changes_public :
    getSymbol noSymbolEnv.hasSymbol "a" = .str "__a" ∧
    SchemaModel.get noSymbolEnv 4 ⟨some underscoreSchema, []⟩ "__a" .undefined
      = .ok .undefined ∧
    SchemaModel.get noSymbolEnv 4
        (SchemaModel.set noSymbolEnv 4 ⟨some underscoreSchema, []⟩ (.str "a") (.num 1)
          internalOptions).1 "__a" .undefined = .ok (.num 1) ∧
    SchemaModel.toJSON noSymbolEnv 4 ⟨some underscoreSchema, []⟩ true = .ok (.obj []) ∧
    SchemaModel.toJSON noSymbolEnv 4
        (SchemaModel.set noSymbolEnv 4 ⟨some underscoreSchema, []⟩ (.str "a") (.num 1)
          internalOptions).1 true = .ok (.obj [("__a", .num 1)]) ∧
    SchemaModel.get noSymbolEnv 4
        (SchemaModel.set noSymbolEnv 4 ⟨some underscoreSchema, []⟩ (.str "a") (.num 1)
          internalOptions).1 "__a" .undefined
      ≠ SchemaModel.get noSymbolEnv 4 ⟨some underscoreSchema, []⟩ "__a" .undefined := by
  refine ⟨by decide, rfl, rfl, rfl, rfl, ?_⟩
  rw [show SchemaModel.get noSymbolEnv 4
        (SchemaModel.set noSymbolEnv 4 ⟨some underscoreSchema, []⟩ (.str "a") (.num 1)
          internalOptions).1 "__a" .undefined = .ok (.num 1) from rfl,
    show SchemaModel.get noSymbolEnv 4 ⟨some underscoreSchema, []⟩ "__a" .undefined
      = .ok .undefined from rfl]
  simp

/-! ## What `set` validates and what it writes -/

/-- Claim C20, as the code behaves. On the instance `{tags: ['a', 'b']}` of the class
bound to `{properties: {tags: {type: 'array'}}}`, `set({tags: ['c']})` with validation on
returns without raising; the candidate snapshot that was validated is
`merge(toJSON(true), data) = {tags: ['c', 'b']}`, but what is committed is the data:
afterwards `toJSON(true)` is `{tags: ['c']}`, which is not the candidate. -/
theorem set_commits_data_not_candidate :
    SchemaModel.toJSON acceptAll 5 tagsInstance true
      = .ok (.obj [("tags", .arr [.str "a", .str "b"])]) ∧
    merge 5 (.obj [("tags", .arr [.str "a", .str "b"])]) (.obj [("tags", .arr [.str "c"])])
      = .ok (.obj [("tags", .arr [.str "c", .str "b"])]) ∧
    (SchemaModel.set acceptAll 5 tagsInstance (.obj [("tags", .arr [.str "c"])])
      .undefined .undefined).2 = .ok () ∧
    SchemaModel.toJSON acceptAll 5
        (SchemaModel.set acceptAll 5 tagsInstance (.obj [("tags", .arr [.str "c"])])
          .undefined .undefined).1 true
      = .ok (.obj [("tags", .arr [.str "c"])]) ∧
    (∀ json cand after, SchemaModel.toJSON acceptAll 5 tagsInstance true = .ok json →
      merge 5 json (.obj [("tags", .arr [.str "c"])]) = .ok cand →
      SchemaModel.toJSON acceptAll 5
        (SchemaModel.set acceptAll 5 tagsInstance (.obj [("tags", .arr [.str "c"])])
          .undefined .undefined).1 true = .ok after →
      after ≠ cand) := by
  refine ⟨rfl, rfl, rfl, rfl, ?_⟩
  intro json cand after hj hc ha
  rw [show SchemaModel.toJSON acceptAll 5 tagsInstance true
    = .ok (.obj [("tags", .arr [.str "a", .str "b"])]) from rfl] at hj
  injection hj with hj
  subst hj
  rw [show merge 5 (.obj [("tags", .arr [.str "a", .str "b"])])
      (.obj [("tags", .arr [.str "c"])])
    = .ok (.obj [("tags", .arr [.str "c", .str "b"])]) from rfl] at hc
  injection hc with hc
  subst hc
  rw [show SchemaModel.toJSON acceptAll 5
        (SchemaModel.set acceptAll 5 tagsInstance (.obj [("tags", .arr [.str "c"])])
          .undefined .undefined).1 true
      = .ok (.obj [("tags", .arr [.str "c"])]) from rfl] at ha
  injection ha with ha
  subst ha
  simp

/-! ## Termination of property resolution -/

/-- The resolver called on `{$ref: '#/definitions/n'}` under a registry that holds the
self-referring definition under that name runs out of every fuel. -/
theorem getProperties_selfRef (fuel : Nat) : ∀ (reg : Registry),
    reg.getSchema (.str "#/definitions/n") = selfDefinition →
    getProperties fuel selfRef (some reg) = .error .outOfFuel := by
  induction fuel with
  | zero => intro reg _; rfl
  | succ n ih =>
    intro reg hreg
    rw [getProperties_succ]
    have hr : registered selfRef (some reg) = reg := rfl
    have href : readProp selfRef "$ref" = .ok (.str "#/definitions/n") := rfl
    rw [hr, href]
    have ht : truthy (.str "#/definitions/n") = true := by decide
    simp only [ok_bind, ht, if_true, hreg]
    have hc : compositionOf (some reg).isNone selfDefinition = .arr [selfRef] := rfl
    have hp : readProp selfDefinition "properties" = .ok .undefined := rfl
    simp only [resolveFrom, hp, ok_bind, hc, truthy_arr, if_true]
    have hu : truthy .undefined = false := rfl
    simp only [hu, Bool.false_eq_true, if_false, List.foldlM_cons, branchStep, ih reg hreg,
      error_bind]

/-- On the cyclic schema the resolver runs out of every fuel. -/
theorem getProperties_cyclic_outOfFuel (fuel : Nat) :
    getProperties fuel cyclicSchema none = .error .outOfFuel := by
  cases fuel with
  | zero => rfl
  | succ n =>
    rw [getProperties_succ]
    have href : readProp cyclicSchema "$ref" = .ok (.str "#/definitions/n") := rfl
    have ht : truthy (.str "#/definitions/n") = true := by decide
    have hreg : (registered cyclicSchema none).getSchema (.str "#/definitions/n")
        = selfDefinition := rfl
    rw [href]
    simp only [ok_bind, ht, if_true, hreg]
    have hc : compositionOf (none : Option Registry).isNone selfDefinition = .arr [selfRef] :=
      rfl
    have hp : readProp selfDefinition "properties" = .ok .undefined := rfl
    have hu : truthy .undefined = false := rfl
    simp only [resolveFrom, hp, ok_bind, hc, truthy_arr, if_true, hu, Bool.false_eq_true,
      if_false, List.foldlM_cons, branchStep,
      getProperties_selfRef n (registered cyclicSchema none) hreg, error_bind]

/-- Counterexample to C18: on `{$ref: '#/definitions/n', definitions: {n: {allOf: [{$ref:
'#/definitions/n'}]}}}` the resolver calls itself on `{$ref: '#/definitions/n'}` again and
again; no fuel is enough for it to return, so it returns no property map. -/
theorem getProperties_cyclic_diverges :
    (∀ fuel, getProperties fuel cyclicSchema none = .error .outOfFuel) ∧
    ¬ ∃ fuel r, getProperties fuel cyclicSchema none = .ok r :=
  ⟨getProperties_cyclic_outOfFuel, fun ⟨fuel, r, h⟩ => by
    rw [getProperties_cyclic_outOfFuel fuel] at h
    exact Except.noConfusion h⟩

theorem depth_le_depthStore (kvs : List (Key × Val)) (p : Key × Val) (h : p ∈ kvs) :
    depth p.2 ≤ depthStore kvs := by
  induction kvs with
  | nil => simp at h
  | cons q rest ih =>
    obtain ⟨k, v⟩ := q
    simp only [depthStore]
    rcases List.mem_cons.1 h with e | e
    · subst e; exact le_max_left _ _
    · exact le_trans (ih e) (le_max_right _ _)

theorem instanceMembers_not_isObject (k : String) :
    isObject ((assocGet k instanceMembers).getD .undefined) = false := by
  cases h : assocGet k instanceMembers with
  | none => rfl
  | some v =>
    have hall : ∀ p ∈ instanceMembers, isObject p.2 = false := by decide
    exact hall (k, v) (assocGet_some_mem _ _ _ h)

/-- A container read from a value lies one level below it. -/
theorem depth_getProp (v : Val) (k : String) (h : isObject (getProp v k) = true) :
    depth (getProp v k) + 1 ≤ depth v := by
  cases v with
  | obj kvs =>
    rw [getProp_obj] at h ⊢
    cases hg : assocGet k kvs with
    | none => rw [hg] at h; simp [isObject] at h
    | some x =>
      simp only [Option.getD_some, depth]
      exact Nat.succ_le_succ (depth_le_depthFields kvs (k, x) (assocGet_some_mem _ _ _ hg))
  | arr xs =>
    simp only [getProp] at h ⊢
    cases hi : arrIndex xs.length k with
    | none =>
      rw [hi] at h
      simp only at h
      split at h <;> simp [isObject] at h
    | some i =>
      rw [hi] at h
      simp only at h ⊢
      by_cases hlt : i < xs.length
      · have hx : xs.getD i .undefined = xs[i] := by simp [List.getD, hlt]
        rw [hx]
        simp only [depth]
        exact Nat.succ_le_succ (depth_le_depthList xs _ (List.getElem_mem _))
      · have hx : xs.getD i .undefined = .undefined := by
          simp [List.getD, List.getElem?_eq_none (Nat.le_of_not_lt hlt)]
        rw [hx] at h
        simp [isObject] at h
  | str s =>
    simp only [getProp] at h
    split at h
    · simp [isObject] at h
    · split at h <;> simp [isObject] at h
  | model sch store =>
    simp only [getProp] at h ⊢
    cases hg : assocGet (Key.str k) store with
    | none =>
      simp only [readKey, hg] at h
      rw [instanceMembers_not_isObject] at h
      exact absurd h (by simp)
    | some x =>
      simp only [readKey, hg, depth]
      exact Nat.succ_le_succ (depth_le_depthStore store (Key.str k, x)
        (assocGet_some_mem _ _ _ hg))
  | _ => simp [getProp, isObject] at h

theorem depth_not_isObject (v : Val) (h : isObject v = false) : depth v = 0 :=
  (not_isObject_structural v h).2

/-- A value read from a value lies below it. -/
theorem depth_getProp_le (v : Val) (k : String) :
    depth (getProp v k) + 1 ≤ max 1 (depth v) := by
  by_cases h : isObject (getProp v k) = true
  · exact le_trans (depth_getProp v k h) (le_max_right _ _)
  · rw [depth_not_isObject _ (by simpa using h)]
    exact le_max_left _ _

theorem depthFields_assocSet (k : String) (v : Val) (l : List (String × Val)) :
    depthFields (assocSet k v l) ≤ max (depthFields l) (depth v) := by
  apply depthFields_le
  intro p hp
  rcases mem_assocSet _ _ _ _ hp with e | e
  · rw [e]; exact le_max_right _ _
  · exact le_trans (depth_le_depthFields l p e) (le_max_left _ _)

theorem depthStore_le (l : List (Key × Val)) (n : Nat) (h : ∀ p ∈ l, depth p.2 ≤ n) :
    depthStore l ≤ n := by
  induction l with
  | nil => simp [depthStore]
  | cons p rest ih =>
    obtain ⟨k, v⟩ := p
    simp only [depthStore]
    exact max_le (h (k, v) (List.mem_cons_self _ _))
      (ih (fun q hq => h q (List.mem_cons_of_mem _ hq)))

theorem depthStore_assocSet (k : Key) (v : Val) (l : List (Key × Val)) :
    depthStore (assocSet k v l) ≤ max (depthStore l) (depth v) := by
  apply depthStore_le
  intro p hp
  rcases mem_assocSet _ _ _ _ hp with e | e
  · rw [e]; exact le_max_right _ _
  · exact le_trans (depth_le_depthStore l p e) (le_max_left _ _)

/-- An assignment puts the value one level below the container. -/
theorem depth_setProp (res : Val) (k : String) (v r : Val) (h : setProp res k v = .ok r) :
    depth r ≤ max (depth res) (depth v + 1) := by
  cases res with
  | obj kvs =>
    simp only [setProp_obj, Except.ok.injEq] at h
    subst h
    simp only [depth]
    have := depthFields_assocSet k v kvs
    omega
  | arr xs =>
    simp only [setProp] at h
    cases hi : arrIndex (xs.length + 1) k with
    | none => rw [hi] at h; simp at h
    | some i =>
      rw [hi] at h
      simp only at h
      have hall : ∀ ys : List Val, (∀ y ∈ ys, y = v ∨ y ∈ xs) →
          depth (.arr ys) ≤ max (depth (.arr xs)) (depth v + 1) := by
        intro ys hys
        simp only [depth]
        have : depthList ys ≤ max (depthList xs) (depth v) := by
          apply depthList_le
          intro y hy
          rcases hys y hy with e | e
          · rw [e]; exact le_max_right _ _
          · exact le_trans (depth_le_depthList xs y e) (le_max_left _ _)
        omega
      split at h
      · injection h with h
        subst h
        apply hall
        intro y hy
        rcases List.mem_or_eq_of_mem_set hy with e | e
        · exact Or.inr e
        · exact Or.inl e
      · injection h with h
        subst h
        apply hall
        intro y hy
        rcases List.mem_append.1 hy with e | e
        · exact Or.inr e
        · exact Or.inl (List.mem_singleton.1 e)
  | model sch store =>
    simp only [setProp, Except.ok.injEq] at h
    subst h
    simp only [depth]
    have := depthStore_assocSet (Key.str k) v store
    omega
  | _ => simp [setProp] at h

/-- A loop whose steps keep an invariant and never raise a given error keeps the invariant
and does not raise that error. -/
theorem foldlM_inv {σ α : Type} (f : σ → α → Except Err σ) (I : σ → Prop) (e : Err)
    (l : List α)
    (h : ∀ s a, a ∈ l → I s → f s a ≠ .error e ∧ ∀ s', f s a = .ok s' → I s') :
    ∀ s, I s → l.foldlM f s ≠ .error e ∧ ∀ r, l.foldlM f s = .ok r → I r := by
  induction l with
  | nil =>
    intro s hs
    refine ⟨by simp [pure, Except.pure], ?_⟩
    intro r hr
    simp only [List.foldlM_nil, pure_eq_ok, Except.ok.injEq] at hr
    rw [← hr]; exact hs
  | cons a rest ih =>
    intro s hs
    rw [List.foldlM_cons]
    obtain ⟨hne, hok⟩ := h s a (List.mem_cons_self _ _) hs
    cases hf : f s a with
    | error e' =>
      simp only [error_bind]
      refine ⟨?_, by simp⟩
      intro he
      rw [hf] at hne
      exact hne he
    | ok s' =>
      simp only [ok_bind]
      exact ih (fun s a ha => h s a (List.mem_cons_of_mem _ ha)) s' (hok s' hf)

/-- A `mapM` whose steps never raise a given error does not raise it, and each result
comes from an element. -/
theorem mapM_inv {α β : Type} (f : α → Except Err β) (e : Err) (l : List α)
    (h : ∀ a ∈ l, f a ≠ .error e) :
    l.mapM f ≠ .error e ∧ ∀ r, l.mapM f = .ok r → ∀ b ∈ r, ∃ a ∈ l, f a = .ok b := by
  induction l with
  | nil =>
    refine ⟨fun he => ?_, ?_⟩
    · have h' : (Except.ok [] : Except Err (List β)) = .error e := he
      exact Except.noConfusion h'
    intro r hr b hb
    have h' : (Except.ok [] : Except Err (List β)) = .ok r := hr
    injection h' with h'
    rw [← h'] at hb
    simp at hb
  | cons a rest ih =>
    obtain ⟨ihne, ihok⟩ := ih (fun a ha => h a (List.mem_cons_of_mem _ ha))
    rw [mapM_cons_ok]
    cases hf : f a with
    | error e' =>
      simp only [error_bind]
      refine ⟨?_, by simp⟩
      intro he
      injection he with he
      subst he
      exact h a (List.mem_cons_self _ _) hf
    | ok b0 =>
      simp only [ok_bind]
      cases hr : rest.mapM f with
      | error e' =>
        simp only [error_bind]
        refine ⟨?_, by simp⟩
        intro he
        injection he with he
        subst he
        exact ihne hr
      | ok bs =>
        simp only [ok_bind]
        refine ⟨by simp, ?_⟩
        intro r h' b hb
        simp only [Except.ok.injEq] at h'
        subst h'
        rcases List.mem_cons.1 hb with e1 | e1
        · exact ⟨a, List.mem_cons_self _ _, by rw [e1]; exact hf⟩
        · obtain ⟨a', ha', hfa'⟩ := ihok bs hr b e1
          exact ⟨a', List.mem_cons_of_mem _ ha', hfa'⟩

/-- With the default callback, fuel at least `1` and at least the depth of the value is
enough for `clone` not to run out of it; the copy is no deeper than the value. -/
theorem clone_terminates (fuel : Nat) : ∀ (x : Val) (cb : Option Callback),
    cb.getD idCallback = idCallback → 1 ≤ fuel → depth x ≤ fuel →
    clone fuel x cb ≠ .error .outOfFuel ∧
      ∀ r, clone fuel x cb = .ok r → depth r ≤ max 1 (depth x) := by
  induction fuel with
  | zero => intro x cb _ h1; omega
  | succ n ih =>
    intro x cb hcb _ hd
    have hval : ∀ (v : Val), depth v + 1 ≤ max 1 (depth x) →
        (idCallback x "" v >>= fun val =>
          if isObject val then clone n val (some idCallback) else .ok val)
          ≠ .error .outOfFuel ∧
        ∀ w, (idCallback x "" v >>= fun val =>
          if isObject val then clone n val (some idCallback) else .ok val) = .ok w →
          depth w + 1 ≤ max 1 (depth x) := by
      intro v hv
      simp only [idCallback, ok_bind]
      by_cases ho : isObject v = true
      · rw [if_pos ho]
        have h1 := isObject_depth_pos v ho
        obtain ⟨hne, hok⟩ := ih v (some idCallback) rfl (by omega) (by omega)
        refine ⟨hne, fun w hw => ?_⟩
        have := hok w hw
        omega
      · rw [if_neg ho]
        refine ⟨by simp, fun w hw => ?_⟩
        injection hw with hw
        rw [← hw]
        exact hv
    by_cases hx : ∃ xs, x = .arr xs
    · obtain ⟨xs, rfl⟩ := hx
      rw [clone_arr, hcb]
      have hent : ∀ p ∈ List.enum xs, cloneEntry n idCallback (.arr xs) p ≠ .error .outOfFuel ∧
          ∀ w, cloneEntry n idCallback (.arr xs) p = .ok w →
            depth w + 1 ≤ max 1 (depth (.arr xs)) := by
        intro p hp
        have hmem : p.2 ∈ xs := by
          obtain ⟨i, y⟩ := p
          obtain ⟨hlt, hy⟩ := List.mem_enum hp
          rw [hy]
          exact List.getElem_mem _
        have hdp : depth p.2 + 1 ≤ max 1 (depth (.arr xs)) := by
          have := depth_le_depthList xs p.2 hmem
          simp only [depth]
          omega
        exact hval p.2 hdp
      obtain ⟨hne, hok⟩ := mapM_inv (cloneEntry n idCallback (.arr xs)) .outOfFuel
        (List.enum xs) (fun p hp => (hent p hp).1)
      cases hm : (List.enum xs).mapM (cloneEntry n idCallback (.arr xs)) with
      | error e =>
        simp only [error_bind]
        refine ⟨?_, by simp⟩
        intro he
        injection he with he
        subst he
        exact hne hm
      | ok ys =>
        simp only [ok_bind]
        refine ⟨by simp, fun r hr => ?_⟩
        injection hr with hr
        subst hr
        have : depthList ys + 1 ≤ max 1 (depth (.arr xs)) := by
          have hle : depthList ys ≤ max 1 (depth (.arr xs)) - 1 := by
            apply depthList_le
            intro y hy
            obtain ⟨p, hp, hfp⟩ := hok ys hm y hy
            have := (hent p hp).2 y hfp
            omega
          have : 1 ≤ max 1 (depth (.arr xs)) := le_max_left _ _
          omega
        simpa only [depth] using this
    · by_cases hdt : ∃ t, x = .date t
      · obtain ⟨t, rfl⟩ := hdt
        refine ⟨by simp [clone], fun r hr => ?_⟩
        simp only [clone, pure_eq_ok, Except.ok.injEq] at hr
        subst hr
        simp [depth]
      · have h1 : ∀ xs, x ≠ .arr xs := fun xs e => hx ⟨xs, e⟩
        have h2 : ∀ t, x ≠ .date t := fun t e => hdt ⟨t, e⟩
        rw [clone_other _ _ _ h1 h2, hcb]
        cases hk : objectKeysE x with
        | error e =>
          simp only [error_bind]
          refine ⟨?_, by simp⟩
          simp only [objectKeysE] at hk
          split at hk
          · injection hk with hk
            rw [← hk]; simp
          · simp at hk
        | ok keys =>
          simp only [ok_bind]
          have hstep : ∀ (s : Val) (a : String), a ∈ keys →
              (∃ l, s = .obj l ∧ ∀ p ∈ l, depth p.2 + 1 ≤ max 1 (depth x)) →
              assignWith (cloneVal n idCallback x) s a ≠ .error .outOfFuel ∧
              ∀ s', assignWith (cloneVal n idCallback x) s a = .ok s' →
                ∃ l, s' = .obj l ∧ ∀ p ∈ l, depth p.2 + 1 ≤ max 1 (depth x) := by
            intro s a _ hs
            obtain ⟨l, rfl, hl⟩ := hs
            obtain ⟨hne, hok⟩ := hval (getProp x a) (depth_getProp_le x a)
            simp only [assignWith, cloneVal]
            cases hv : (idCallback x a (getProp x a) >>= fun val =>
                if isObject val then clone n val (some idCallback) else .ok val) with
            | error e =>
              simp only [error_bind]
              refine ⟨?_, by simp⟩
              intro he
              exact hne (hv.trans he)
            | ok w =>
              simp only [ok_bind, setProp_obj]
              refine ⟨by simp, fun s' hs' => ?_⟩
              injection hs' with hs'
              refine ⟨_, hs'.symm, ?_⟩
              intro p hp
              rcases mem_assocSet _ _ _ _ hp with e | e
              · rw [e]; exact hok w hv
              · exact hl p e
          obtain ⟨hne, hok⟩ := foldlM_inv _ _ .outOfFuel keys hstep (.obj [])
            ⟨[], rfl, by simp⟩
          refine ⟨hne, fun r hr => ?_⟩
          obtain ⟨l, rfl, hl⟩ := hok r hr
          have hle : depthFields l ≤ max 1 (depth x) - 1 := by
            apply depthFields_le
            intro p hp
            have := hl p hp
            omega
          have : 1 ≤ max 1 (depth x) := le_max_left _ _
          simp only [depth]
          omega

theorem setProp_ne_outOfFuel (res : Val) (k : String) (v : Val) :
    setProp res k v ≠ .error .outOfFuel := by
  cases res with
  | arr xs =>
    simp only [setProp]
    cases arrIndex (xs.length + 1) k with
    | none => simp
    | some i =>
      simp only
      split <;> simp
  | _ => simp [setProp]

theorem objectKeysE_ne_outOfFuel (v : Val) : objectKeysE v ≠ .error .outOfFuel := by
  simp only [objectKeysE]
  split <;> simp

theorem readProp_ne_outOfFuel (v : Val) (k : String) : readProp v k ≠ .error .outOfFuel := by
  simp only [readProp]
  split <;> simp

/-- Fuel above `1` and above the depth of both values is enough for `merge` not to run
out of it; the result is no deeper than the deeper of the two. -/
theorem merge_terminates (n : Nat) : ∀ (a b : Val), 1 ≤ n → depth a ≤ n → depth b ≤ n →
    merge (n + 1) a b ≠ .error .outOfFuel ∧
      ∀ r, merge (n + 1) a b = .ok r → depth r ≤ max 1 (max (depth a) (depth b)) := by
  induction n with
  | zero => intro a b h1; omega
  | succ m ih =>
    intro a b _ hda hdb
    rw [merge_succ]
    obtain ⟨hcne, hcok⟩ := clone_terminates (m + 1) a none rfl (by omega) hda
    cases hc : clone (m + 1) a none with
    | error e =>
      simp only [error_bind]
      refine ⟨?_, by simp⟩
      intro he
      injection he with he
      subst he
      exact hcne hc
    | ok res =>
      simp only [ok_bind]
      cases hk : objectKeysE b with
      | error e =>
        simp only [error_bind]
        refine ⟨?_, by simp⟩
        intro he
        injection he with he
        subst he
        exact objectKeysE_ne_outOfFuel b hk
      | ok keys =>
        simp only [ok_bind]
        have hB : max 1 (max (depth a) (depth b)) ≤ m + 1 := by
          simp only [max_le_iff]
          omega
        have hstep : ∀ (s : Val) (key : String), key ∈ keys →
            depth s ≤ max 1 (max (depth a) (depth b)) →
            assignWith (mergeVal (m + 1) b) s key ≠ .error .outOfFuel ∧
            ∀ s', assignWith (mergeVal (m + 1) b) s key = .ok s' →
              depth s' ≤ max 1 (max (depth a) (depth b)) := by
          intro s key _ hs
          have hval : mergeVal (m + 1) b s key ≠ .error .outOfFuel ∧
              ∀ w, mergeVal (m + 1) b s key = .ok w →
                depth w + 1 ≤ max 1 (max (depth a) (depth b)) := by
            have hvb : depth (getProp b key) + 1 ≤ max 1 (max (depth a) (depth b)) := by
              have := depth_getProp_le b key
              have h1 : max 1 (depth b) ≤ max 1 (max (depth a) (depth b)) := by
                simp only [max_le_iff, le_max_iff]
                omega
              omega
            simp only [mergeVal]
            by_cases hob : isObject (getProp b key) = true
            · rw [if_pos hob]
              by_cases hos : isObject (getProp s key) = true
              · rw [if_pos hos]
                have h1 := isObject_depth_pos _ hos
                have h2 := depth_getProp s key hos
                have h3 := depth_getProp b key hob
                obtain ⟨hne, hok⟩ := ih (getProp s key) (getProp b key) (by omega) (by omega)
                  (by omega)
                refine ⟨hne, fun w hw => ?_⟩
                have h4 := hok w hw
                have h5 : max 1 (max (depth (getProp s key)) (depth (getProp b key))) + 1
                    ≤ max 1 (max (depth a) (depth b)) := by
                  have : max (depth (getProp s key)) (depth (getProp b key)) + 1
                      ≤ max 1 (max (depth a) (depth b)) := by
                    rcases Nat.le_total (depth (getProp s key)) (depth (getProp b key))
                      with hle | hle
                    · rw [max_eq_right hle]; exact hvb
                    · rw [max_eq_left hle]; omega
                  have h6 : 1 ≤ max (depth (getProp s key)) (depth (getProp b key)) :=
                    le_trans h1 (le_max_left _ _)
                  rw [max_eq_right h6]
                  exact this
                omega
              · rw [if_neg hos]
                refine ⟨by simp, fun w hw => ?_⟩
                injection hw with hw
                rw [← hw]; exact hvb
            · rw [if_neg hob]
              refine ⟨by simp, fun w hw => ?_⟩
              injection hw with hw
              rw [← hw]; exact hvb
          simp only [assignWith]
          cases hv : mergeVal (m + 1) b s key with
          | error e =>
            simp only [error_bind]
            refine ⟨?_, by simp⟩
            intro he
            injection he with he
            subst he
            exact hval.1 hv
          | ok w =>
            simp only [ok_bind]
            refine ⟨setProp_ne_outOfFuel _ _ _, fun s' hs' => ?_⟩
            have h1 := depth_setProp s key w s' hs'
            have h2 := hval.2 w hv
            exact le_trans h1 (max_le hs h2)
        have hres : depth res ≤ max 1 (max (depth a) (depth b)) := by
          have h1 := hcok res hc
          have h2 : max 1 (depth a) ≤ max 1 (max (depth a) (depth b)) := by
            simp only [max_le_iff, le_max_iff]
            omega
          omega
        exact foldlM_inv _ _ .outOfFuel keys hstep res hres

/-- The branches `getProperties` folds are members of the composition lists. -/
theorem compositionOf_branches (root : Bool) (schema : Val) (ds : List Val)
    (h : compositionOf root schema = .arr ds) : ∀ d ∈ ds, d ∈ branchesOf schema := by
  intro d hd
  simp only [branchesOf, List.mem_flatMap]
  simp only [compositionOf] at h
  split at h
  · exact ⟨"anyOf", by simp, by rw [h]; exact hd⟩
  · split at h
    · exact ⟨"allOf", by simp, by rw [h]; exact hd⟩
    · split at h
      · exact ⟨"oneOf", by simp, by rw [h]; exact hd⟩
      · exact Val.noConfusion h

/-- A member of a composition list lies two levels below the schema. -/
theorem depth_branch (schema d : Val) (h : d ∈ branchesOf schema) :
    depth d + 2 ≤ depth schema := by
  simp only [branchesOf, List.mem_flatMap] at h
  obtain ⟨k, _, hk⟩ := h
  cases hg : getProp schema k with
  | arr ds =>
    rw [hg] at hk
    have h1 := depth_getProp schema k (by rw [hg]; rfl)
    rw [hg] at h1
    simp only [depth] at h1
    have h2 := depth_le_depthList ds d hk
    omega
  | _ => rw [hg] at hk; simp at hk

theorem depth_getProp_le_self (v : Val) (k : String) : depth (getProp v k) ≤ depth v := by
  have := depth_getProp_le v k
  rcases Nat.le_total 1 (depth v) with h | h
  · rw [max_eq_right h] at this; omega
  · rw [max_eq_left h] at this; omega

theorem foldl_addSchema_depth (pre : String) (f : String → Val) (d : Nat)
    (hf : ∀ k, depth (f k) ≤ d) (ks : List String) :
    ∀ (v0 : Registry), v0.depthAtMost d →
      (ks.foldl (fun v k => v.addSchema (pre ++ k) (f k)) v0).depthAtMost d := by
  induction ks with
  | nil => intro v0 h; exact h
  | cons k rest ih =>
    intro v0 h
    rw [List.foldl_cons]
    apply ih
    intro p hp
    simp only [Registry.addSchema, List.mem_cons] at hp
    rcases hp with e | e
    · rw [e]; exact hf k
    · exact h p e

/-- The registry after the definitions of a schema are registered holds nothing deeper
than the schema and what it held. -/
theorem registered_depthAtMost (schema : Val) (validator : Option Registry) (d : Nat)
    (hs : depth schema ≤ d) (hv : ∀ r0, validator = some r0 → r0.depthAtMost d) :
    (registered schema validator).depthAtMost d := by
  have hbase : (match validator with
      | some v => v
      | none => Registry.fresh.addSchema "" schema).depthAtMost d := by
    cases validator with
    | some v => exact hv v rfl
    | none =>
      intro p hp
      simp only [Registry.addSchema, Registry.fresh, List.mem_cons, List.not_mem_nil,
        or_false] at hp
      rw [hp]; exact hs
  simp only [registered]
  split
  · exact foldl_addSchema_depth _ _ d
      (fun k => le_trans (depth_getProp_le_self _ _)
        (le_trans (depth_getProp_le_self _ _) hs)) _ _ hbase
  · exact hbase

theorem getSchema_depth (reg : Registry) (d : Nat) (ref : Val) (h : reg.depthAtMost d) :
    depth (reg.getSchema ref) ≤ d := by
  cases ref with
  | str id =>
    simp only [Registry.getSchema]
    cases hg : assocGet id reg.schemas with
    | none => simp [depth]
    | some v => exact h (id, v) (assocGet_some_mem _ _ _ hg)
  | _ => simp [Registry.getSchema, depth]

theorem followRef_depth (schema : Val) (validator : Option Registry) (d : Nat)
    (hs : depth schema ≤ d) (hv : ∀ r0, validator = some r0 → r0.depthAtMost d) :
    depth (followRef schema validator) ≤ d := by
  simp only [followRef]
  split
  · exact getSchema_depth _ d _ (registered_depthAtMost schema validator d hs hv)
  · exact hs

theorem getProperties_eq_followRef (fuel : Nat) (schema : Val) (validator : Option Registry) :
    getProperties (fuel + 1) schema validator =
      readProp schema "$ref" >>= fun _ =>
        resolveFrom fuel validator.isNone (followRef schema validator)
          (registered schema validator) := by
  rw [getProperties_succ]
  simp only [readProp, followRef]
  split <;> rfl

theorem callsWithin_succ (n : Nat) (schema : Val) (validator : Option Registry) :
    callsWithin (n + 1) schema validator =
      if truthy (getProp (followRef schema validator) "properties") then
        some (registered schema validator)
      else
        match compositionOf validator.isNone (followRef schema validator) with
        | .arr ds =>
          ds.foldlM (fun reg d => callsWithin n d (some reg)) (registered schema validator)
        | _ => some (registered schema validator) := rfl

/-- When no chain of calls from the schema is longer than `n`, fuel for `n` calls and for
the copies and merges of values as deep as the schemas is enough for `getProperties`: it
does not run out of fuel, and what it returns is the registry of the calls and a property
map no deeper than the schemas. -/
theorem getProperties_calls_aux (d : Nat) (n : Nat) :
    ∀ (fuel : Nat) (schema : Val) (validator : Option Registry) (reg : Registry),
    callsWithin n schema validator = some reg → depth schema ≤ d →
    (∀ r0, validator = some r0 → r0.depthAtMost d) → n + max 1 d + 1 ≤ fuel →
    getProperties fuel schema validator ≠ .error .outOfFuel ∧
      ∀ r, getProperties fuel schema validator = .ok r →
        depth r.1 ≤ max 1 d ∧ r.2 = reg ∧ reg.depthAtMost d := by
  induction n with
  | zero => intro fuel schema validator reg h; simp [callsWithin] at h
  | succ k ih =>
    intro fuel schema validator reg hcalls hs hv hfuel
    obtain ⟨f, rfl⟩ : ∃ f, fuel = f + 1 := ⟨fuel - 1, by omega⟩
    have hD1 : 1 ≤ max 1 d := le_max_left _ _
    have hDd : d ≤ max 1 d := le_max_right _ _
    have hreg0 := registered_depthAtMost schema validator d hs hv
    have ht := followRef_depth schema validator d hs hv
    rw [callsWithin_succ] at hcalls
    rw [getProperties_eq_followRef]
    cases href : readProp schema "$ref" with
    | error e =>
      simp only [error_bind]
      refine ⟨?_, by simp⟩
      intro he
      injection he with he
      subst he
      exact readProp_ne_outOfFuel _ _ href
    | ok ref =>
      simp only [ok_bind]
      revert hcalls
      generalize registered schema validator = reg0 at hreg0 ⊢
      generalize followRef schema validator = t at ht ⊢
      generalize validator.isNone = root
      intro hcalls
      simp only [resolveFrom]
      cases hp : readProp t "properties" with
      | error e =>
        simp only [error_bind]
        refine ⟨?_, by simp⟩
        intro he
        injection he with he
        subst he
        exact readProp_ne_outOfFuel _ _ hp
      | ok props =>
        have hpv : props = getProp t "properties" := by
          simp only [readProp] at hp
          split at hp
          · simp at hp
          · injection hp with hp
            exact hp.symm
        subst hpv
        simp only [ok_bind]
        by_cases htp : truthy (getProp t "properties") = true
        · rw [if_pos htp] at hcalls ⊢
          injection hcalls with hcalls
          subst hcalls
          have hdp := depth_getProp_le_self t "properties"
          obtain ⟨hne, hok⟩ := clone_terminates f (getProp t "properties") none rfl
            (by omega) (by omega)
          cases hc : clone f (getProp t "properties") none with
          | error e =>
            simp only [error_bind]
            refine ⟨?_, by simp⟩
            intro he
            injection he with he
            subst he
            exact hne hc
          | ok res =>
            simp only [ok_bind]
            refine ⟨by simp, fun r hr => ?_⟩
            injection hr with hr
            rw [← hr]
            refine ⟨?_, rfl, hreg0⟩
            have h1 := hok res hc
            show depth res ≤ max 1 d
            have h2 : max 1 (depth (getProp t "properties")) ≤ max 1 d :=
              max_le hD1 (le_trans (le_trans hdp ht) hDd)
            omega
        · rw [if_neg htp] at hcalls ⊢
          cases hcomp : compositionOf root t with
          | arr ds =>
            rw [hcomp] at hcalls
            simp only [truthy_arr, if_true] at hcalls ⊢
            have hds : ∀ d' ∈ ds, depth d' ≤ d := by
              intro d' hd'
              have := depth_branch t d' (compositionOf_branches root t ds hcomp d' hd')
              omega
            have hfold : ∀ (ds : List Val) (acc : Val × Registry) (final : Registry),
                (∀ d' ∈ ds, depth d' ≤ d) → depth acc.1 ≤ max 1 d → acc.2.depthAtMost d →
                ds.foldlM (fun reg d => callsWithin k d (some reg)) acc.2 = some final →
                ds.foldlM (branchStep f) acc ≠ .error .outOfFuel ∧
                ∀ out, ds.foldlM (branchStep f) acc = .ok out →
                  depth out.1 ≤ max 1 d ∧ out.2 = final ∧ final.depthAtMost d := by
              intro ds
              induction ds with
              | nil =>
                intro acc final _ hacc hbd hfin
                simp only [List.foldlM_nil, pure, Option.some.injEq] at hfin
                refine ⟨by simp [pure, Except.pure], fun out hout => ?_⟩
                simp only [List.foldlM_nil, pure_eq_ok, Except.ok.injEq] at hout
                rw [← hout, ← hfin]
                exact ⟨hacc, rfl, hbd⟩
              | cons d' rest ihds =>
                intro acc final hall hacc hbd hfin
                rw [List.foldlM_cons] at hfin ⊢
                cases hc1 : callsWithin k d' (some acc.2) with
                | none => rw [hc1] at hfin; simp at hfin
                | some r1 =>
                  rw [hc1] at hfin
                  replace hfin : rest.foldlM (fun reg d => callsWithin k d (some reg)) r1
                      = some final := hfin
                  obtain ⟨hgne, hgok⟩ := ih f d' (some acc.2) r1 hc1
                    (hall d' (List.mem_cons_self _ _))
                    (fun r0 hr0 => by injection hr0 with hr0; rw [← hr0]; exact hbd)
                    (by omega)
                  simp only [branchStep]
                  cases hg : getProperties f d' (some acc.2) with
                  | error e =>
                    simp only [error_bind]
                    refine ⟨?_, by simp⟩
                    intro he
                    injection he with he
                    subst he
                    exact hgne hg
                  | ok g =>
                    simp only [ok_bind]
                    obtain ⟨hg1, hg2, hg3⟩ := hgok g hg
                    obtain ⟨f', rfl⟩ : ∃ f', f = f' + 1 := ⟨f - 1, by omega⟩
                    obtain ⟨hmne, hmok⟩ := merge_terminates f' acc.1 g.1 (by omega) (by omega)
                      (by omega)
                    cases hm : merge (f' + 1) acc.1 g.1 with
                    | error e =>
                      simp only [error_bind]
                      refine ⟨?_, by simp⟩
                      intro he
                      injection he with he
                      subst he
                      exact hmne hm
                    | ok res =>
                      simp only [ok_bind, pure_eq_ok]
                      have hres : depth res ≤ max 1 d := by
                        have := hmok res hm
                        have h3 : max 1 (max (depth acc.1) (depth g.1)) ≤ max 1 d :=
                          max_le hD1 (max_le hacc hg1)
                        omega
                      exact ihds (res, g.2) final
                        (fun x hx => hall x (List.mem_cons_of_mem _ hx)) hres
                        (by rw [hg2]; exact hg3) (by rw [hg2]; exact hfin)
            exact hfold ds (.obj [], reg0) reg hds (by simp [depth, depthFields]) hreg0 hcalls
          | _ =>
            rw [hcomp] at hcalls
            simp only [Option.some.injEq] at hcalls
            subst hcalls
            split
            · exact ⟨by simp, by simp⟩
            · refine ⟨by simp, fun r hr => ?_⟩
              injection hr with hr
              rw [← hr]
              exact ⟨by simp [depth, depthFields], rfl, hreg0⟩

/-- When `getProperties` returns, no chain of its calls was longer than the fuel, and the
registry it returns is the registry of the calls. -/
theorem callsWithin_of_ok (fuel : Nat) : ∀ (schema : Val) (validator : Option Registry)
    (r : Val × Registry), getProperties fuel schema validator = .ok r →
    callsWithin fuel schema validator = some r.2 := by
  induction fuel with
  | zero => intro schema validator r h; simp [getProperties] at h
  | succ f ih =>
    intro schema validator r h
    rw [getProperties_eq_followRef] at h
    rw [callsWithin_succ]
    cases href : readProp schema "$ref" with
    | error e => rw [href] at h; exact absurd h (by simp)
    | ok ref =>
      rw [href] at h
      simp only [ok_bind] at h
      revert h
      generalize registered schema validator = reg0
      generalize followRef schema validator = t
      generalize validator.isNone = root
      intro h
      simp only [resolveFrom] at h
      cases hp : readProp t "properties" with
      | error e => rw [hp] at h; exact absurd h (by simp)
      | ok props =>
        have hpv : props = getProp t "properties" := by
          simp only [readProp] at hp
          split at hp
          · simp at hp
          · injection hp with hp
            exact hp.symm
        subst hpv
        rw [hp] at h
        simp only [ok_bind] at h
        by_cases htp : truthy (getProp t "properties") = true
        · rw [if_pos htp] at h ⊢
          cases hc : clone f (getProp t "properties") none with
          | error e => rw [hc] at h; exact absurd h (by simp)
          | ok res =>
            rw [hc] at h
            simp only [ok_bind, Except.ok.injEq] at h
            rw [← h]
        · rw [if_neg htp] at h ⊢
          cases hcomp : compositionOf root t with
          | arr ds =>
            rw [hcomp] at h
            simp only [truthy_arr, if_true] at h ⊢
            have hfold : ∀ (ds : List Val) (acc out : Val × Registry),
                ds.foldlM (branchStep f) acc = .ok out →
                ds.foldlM (fun reg d => callsWithin f d (some reg)) acc.2 = some out.2 := by
              intro ds
              induction ds with
              | nil =>
                intro acc out hout
                simp only [List.foldlM_nil, pure_eq_ok, Except.ok.injEq] at hout
                rw [← hout]; rfl
              | cons d' rest ihds =>
                intro acc out hout
                rw [List.foldlM_cons] at hout ⊢
                cases hst : branchStep f acc d' with
                | error e => rw [hst] at hout; exact absurd hout (by simp)
                | ok acc' =>
                  rw [hst] at hout
                  simp only [ok_bind] at hout
                  simp only [branchStep] at hst
                  cases hg : getProperties f d' (some acc.2) with
                  | error e => rw [hg] at hst; exact absurd hst (by simp)
                  | ok g =>
                    rw [hg] at hst
                    simp only [ok_bind] at hst
                    cases hm : merge f acc.1 g.1 with
                    | error e => rw [hm] at hst; exact absurd hst (by simp)
                    | ok res =>
                      rw [hm] at hst
                      simp only [ok_bind, pure_eq_ok, Except.ok.injEq] at hst
                      rw [ih d' (some acc.2) g hg]
                      have := ihds acc' out hout
                      rw [← hst] at this
                      exact this
            exact hfold ds (.obj [], reg0) r h
          | _ =>
            rw [hcomp] at h
            split at h
            · exact absurd h (by simp)
            · simp only [Except.ok.injEq] at h
              rw [← h]

/-- Claim C18, as amended. Property resolution is a finite computation exactly when the
chain of calls the resolver makes is finite.  When no chain of nested calls from the
schema (the definitions registered, `$ref` followed through the registry, the members of
the folded list called in order) is longer than `n`, then with fuel for `n` calls and two
more than the nesting depth of the schema `getProperties` does not run out of fuel: it
returns (or raises because the document is malformed), what it returns is the registry of
those calls and a property map no deeper than the schema, and every larger fuel gives the
same.  Conversely, whenever it returns with some fuel, no chain of calls is longer than
that fuel. -/
theorem getProperties_finite_calls (schema : Val) :
    (∀ n reg fuel, callsWithin n schema none = some reg → n + depth schema + 2 ≤ fuel →
      getProperties fuel schema none ≠ .error .outOfFuel ∧
      ∀ r, getProperties fuel schema none = .ok r →
        r.2 = reg ∧ depth r.1 ≤ max 1 (depth schema) ∧
        ∀ m, fuel ≤ m → getProperties m schema none = .ok r) ∧
    (∀ fuel r, getProperties fuel schema none = .ok r →
      callsWithin fuel schema none = some r.2) := by
  refine ⟨?_, fun fuel r h => callsWithin_of_ok fuel schema none r h⟩
  intro n reg fuel hcalls hfuel
  have hmax : max 1 (depth schema) ≤ depth schema + 1 := max_le (by omega) (by omega)
  obtain ⟨hne, hok⟩ := getProperties_calls_aux (depth schema) n fuel schema none reg hcalls
    le_rfl (fun r0 hr0 => Option.noConfusion hr0) (by omega)
  refine ⟨hne, fun r hr => ?_⟩
  obtain ⟨h1, h2, _⟩ := hok r hr
  exact ⟨h2, h1, fun m hm => getProperties_mono_le fuel m hm _ _ _ hr⟩

/-- Witness of C18 as amended: on `{allOf: [{$ref: '#/definitions/a'}], definitions: {a:
{properties: {x: {}}}}}` no chain of calls is longer than two (the call on the schema and
the call on its branch, which follows the reference to a definition with `properties`);
the schema is five deep, and with fuel `9` the resolver returns the name `x`. -/
theorem getProperties_finite_calls_witness :
    callsWithin 2 branchRefSchema none = some (registered branchRefSchema none) ∧
    (getProperties 9 branchRefSchema none ≠ .error .outOfFuel ∧
      ∀ r, getProperties 9 branchRefSchema none = .ok r →
        r.2 = registered branchRefSchema none ∧ depth r.1 ≤ max 1 (depth branchRefSchema) ∧
        ∀ m, 9 ≤ m → getProperties m branchRefSchema none = .ok r) ∧
    getProperties 9 branchRefSchema none
      = .ok (.obj [("x", .obj [])], registered branchRefSchema none) :=
  ⟨rfl, (getProperties_finite_calls branchRefSchema).1 2 (registered branchRefSchema none) 9
    rfl (by decide), rfl⟩

/-! ## The state `set` commits and the snapshot it validated -/

theorem serializeValue_eq (env : Env) (m : Nat) (strip : Bool) (scope : Val) (k : String)
    (v : Val) :
    (jsonCallback env (m + 1) strip scope k v >>= fun val =>
      if isObject val then clone m val (some (jsonCallback env (m + 1) strip)) else .ok val)
      = serializeValue env m strip v := rfl

/-- The fields of a serialization: the declared names that are not stripped, each with the
serialization of its public value. -/
theorem toJSON_fields (env : Env) (m : Nat) (this : Instance) (strip : Bool)
    (lp : List (String × Val)) (J : Val)
    (hp : SchemaModel.schemaProperties (m + 1) this = .ok (.obj lp))
    (hJ : SchemaModel.toJSON env (m + 2) this strip = .ok J) :
    ∃ l, J = .obj l ∧ (l.map Prod.fst).Nodup ∧
      (∀ k, k ∈ l.map Prod.fst ↔
        (k ∈ lp.map Prod.fst ∧
          (!strip || !isUndefined (publicValue this.store k)) = true)) ∧
      (∀ k, k ∈ l.map Prod.fst →
        ∃ w, serializeValue env m strip (publicValue this.store k) = .ok w ∧
          assocGet k l = some w) := by
  have hnd : (lp.map Prod.fst).Nodup := schemaProperties_nodup _ this lp hp
  rw [toJSON_succ, hp] at hJ
  simp only [ok_bind, objectKeysE_obj] at hJ
  cases hloop : (lp.map Prod.fst).foldlM (fun res key =>
      SchemaModel.get env (m + 1) this key .undefined >>= fun val =>
        if !strip || !isUndefined val then setProp res key val else .ok res) (.obj []) with
  | error e => rw [hloop] at hJ; exact absurd hJ (by simp [error_bind])
  | ok res =>
    rw [hloop] at hJ
    simp only [ok_bind] at hJ
    have hres := toJSON_loop_of_ok env (m + 1) this strip _ hnd res hloop
    subst hres
    rw [clone_obj] at hJ
    have hrn : ((rawJSON this.store strip (lp.map Prod.fst)).map Prod.fst).Nodup := by
      rw [rawJSON_keys]; exact hnd.filter _
    obtain ⟨l, hl, hkeys, hln⟩ := foldlM_assign_keys _ _ _ _ hJ
    obtain ⟨l', hl', _, hin⟩ := foldlM_assign_get _
      (fun l l' k _ => cloneVal_congr m _ _ l l' k) _ _ _ hrn hJ
    have e : l' = l := by rw [hl'] at hl; injection hl
    subst e
    have hmem : ∀ k, k ∈ l'.map Prod.fst ↔
        (k ∈ lp.map Prod.fst ∧
          (!strip || !isUndefined (publicValue this.store k)) = true) := by
      intro k
      rw [hkeys k, rawJSON_keys, List.mem_filter]
      simp
    refine ⟨l', hl', hln (by simp), hmem, ?_⟩
    intro k hk
    have hk' : k ∈ (rawJSON this.store strip (lp.map Prod.fst)).map Prod.fst := by
      rw [hkeys k] at hk
      simpa using hk
    obtain ⟨w, hw, hget⟩ := hin k hk'
    have hg : getProp (.obj (rawJSON this.store strip (lp.map Prod.fst))) k
        = publicValue this.store k := by
      rw [getProp_obj, assocGet_rawJSON, if_pos ((hmem k).1 hk)]
      rfl
    simp only [cloneVal, Option.getD_some, hg, serializeValue_eq] at hw
    exact ⟨w, hw, hget⟩

/-- A serialization returns when the serialization of every public value it keeps does. -/
theorem toJSON_of_fields (env : Env) (m : Nat) (this : Instance) (strip : Bool)
    (lp : List (String × Val))
    (hp : SchemaModel.schemaProperties (m + 1) this = .ok (.obj lp))
    (hm : lp = [] ∨ 1 ≤ m)
    (h : ∀ k ∈ lp.map Prod.fst,
      (!strip || !isUndefined (publicValue this.store k)) = true →
      ∃ w, serializeValue env m strip (publicValue this.store k) = .ok w) :
    ∃ J, SchemaModel.toJSON env (m + 2) this strip = .ok J := by
  have hnd : (lp.map Prod.fst).Nodup := schemaProperties_nodup _ this lp hp
  rw [toJSON_succ, hp]
  simp only [ok_bind, objectKeysE_obj]
  have hloop : (lp.map Prod.fst).foldlM (fun res key =>
      SchemaModel.get env (m + 1) this key .undefined >>= fun val =>
        if !strip || !isUndefined val then setProp res key val else .ok res) (.obj [])
      = .ok (.obj ([] ++ rawJSON this.store strip (lp.map Prod.fst))) := by
    rcases hm with hm | hm
    · subst hm
      rfl
    · exact toJSON_loop env (m + 1) this strip (by omega) _ [] (by simpa using hnd)
  rw [hloop]
  simp only [ok_bind, List.nil_append]
  rw [clone_obj]
  have hrn : ((rawJSON this.store strip (lp.map Prod.fst)).map Prod.fst).Nodup := by
    rw [rawJSON_keys]; exact hnd.filter _
  refine foldlM_assign_ok _ (fun l l' k _ => cloneVal_congr m _ _ l l' k) _ _ hrn ?_
  intro k hk
  rw [rawJSON_keys, List.mem_filter] at hk
  have hg : getProp (.obj (rawJSON this.store strip (lp.map Prod.fst))) k
      = publicValue this.store k := by
    rw [getProp_obj, assocGet_rawJSON, if_pos ⟨hk.1, hk.2⟩]
    rfl
  simp only [cloneVal, Option.getD_some, hg, serializeValue_eq]
  exact h k hk.1 hk.2

/-- A serialization of an instance with a declared name needs fuel for the call of
`get`. -/
theorem toJSON_fuel (env : Env) (m : Nat) (this : Instance) (strip : Bool)
    (lp : List (String × Val)) (J : Val)
    (hp : SchemaModel.schemaProperties (m + 1) this = .ok (.obj lp))
    (hJ : SchemaModel.toJSON env (m + 2) this strip = .ok J) : lp = [] ∨ 1 ≤ m := by
  cases lp with
  | nil => exact Or.inl rfl
  | cons p rest =>
    right
    rw [toJSON_succ, hp] at hJ
    simp only [ok_bind, objectKeysE_obj, List.map_cons, List.foldlM_cons] at hJ
    cases hg : SchemaModel.get env (m + 1) this p.1 .undefined with
    | error e => rw [hg] at hJ; exact absurd hJ (by simp [error_bind])
    | ok v =>
      have := (get_public_of_ok env (m + 1) this p.1 v hg).1
      omega

/-- Plain structured data serializes to itself. -/
theorem serializeValue_structural (env : Env) (m : Nat) (strip : Bool) (v : Val)
    (hs : structural v = true) (hd : depth v ≤ m) :
    serializeValue env m strip v = .ok v := by
  simp only [serializeValue, jsonCallback_structural env (m + 1) strip _ _ _ hs, ok_bind]
  by_cases ho : isObject v = true
  · rw [if_pos ho]
    exact clone_structural_cb _ (jsonCallback_structural env (m + 1) strip) m v hs ho hd
  · rw [if_neg ho]

/-- A value that is no container serializes to itself. -/
theorem serializeValue_not_isObject (env : Env) (m : Nat) (strip : Bool) (v w : Val)
    (ho : isObject v = false) (h : serializeValue env m strip v = .ok w) : w = v := by
  have hs := (not_isObject_structural v ho).1
  simp only [serializeValue, jsonCallback_structural env (m + 1) strip _ _ _ hs, ok_bind,
    ho, Bool.false_eq_true, if_false, Except.ok.injEq] at h
  exact h.symm

/-- Claim C2, amended. Let the class's properties resolve to the names of `lp`, and let
`set(data)` be called with validation on (`internal = false`, `validate = true`), on any
instance, with a data object whose keys are declared names and whose values are defined
plain structured data, no key holding a container both in the data and in the instance.
If the call returns without raising: the snapshot `merge(toJSON(true), data)` was built
and validated, the instance's public-facing data `toJSON(true)` after the call is that
snapshot up to the order of its keys, and `validate()` on the instance answers valid, for
a validator that does not depend on the order of the keys. -/
theorem set_keeps_valid (env : Env) (m : Nat) (this : Instance)
    (data value options o : Val) (lp ld : List (String × Val))
    (horder : ∀ l l' s, (l.map Prod.fst).Nodup → l.Perm l' →
      env.validateResult (.obj l) s = env.validateResult (.obj l') s)
    (ho : merge (m + 2) DEFAULT_OPTIONS (setArgs data value options).2 = .ok o)
    (hint : truthy (getProp o "internal") = false)
    (hval : truthy (getProp o "validate") = true)
    (hp : SchemaModel.schemaProperties (m + 1) this = .ok (.obj lp))
    (hdata : (setArgs data value options).1 = .obj ld)
    (hld : (ld.map Prod.fst).Nodup)
    (hdecl : ∀ k ∈ ld.map Prod.fst, k ∈ lp.map Prod.fst)
    (hvals : ∀ k ∈ ld.map Prod.fst, structural (getProp (.obj ld) k) = true ∧
      isUndefined (getProp (.obj ld) k) = false ∧ depth (getProp (.obj ld) k) ≤ m ∧
      (isObject (getProp (.obj ld) k) = false ∨ isObject (publicValue this.store k) = false))
    (hok : (SchemaModel.set env (m + 2) this data value options).2 = .ok ()) :
    ∃ json lc lafter res,
      SchemaModel.toJSON env (m + 2) this true = .ok json ∧
      merge (m + 2) json (.obj ld) = .ok (.obj lc) ∧
      SchemaModel.toJSON env (m + 2)
        (SchemaModel.set env (m + 2) this data value options).1 true = .ok (.obj lafter) ∧
      lafter.Perm lc ∧
      SchemaModel.validate env (m + 2)
        (SchemaModel.set env (m + 2) this data value options).1 .undefined = .ok res ∧
      res.valid = true := by
  obtain ⟨json, cand, res, hj, hc, hr, hv, hafter⟩ :=
    set_ok_validated env (m + 2) this data value options o ho hint hval hok
  obtain ⟨schema, hs⟩ := toJSON_ok_schema env _ this true json hj
  -- the serialization before the call
  obtain ⟨lj, hlj, hljn, hljk, hljv⟩ := toJSON_fields env m this true lp json hp hj
  subst hlj
  obtain ⟨hjs, hjo, hjd⟩ := toJSON_output env (m + 2) this true _ hj
  -- the candidate snapshot
  rw [hdata] at hc hafter
  obtain ⟨lc0, lc, hcl, hcand, hlcn, _, hout, hin⟩ := merge_obj_get (m + 1) lj ld cand hljn hld hc
  have hlc0 : lj = lc0 := by
    rw [clone_structural (m + 1) _ none rfl hjs hjo (by omega)] at hcl
    injection hcl with hcl
    injection hcl with hcl
  subst hlc0
  subst hcand
  -- the instance after the call
  have hstore' : ∀ k, publicValue (SchemaModelJs.set env.hasSymbol this.store (.obj ld) false) k
      = if k ∈ ld.map Prod.fst then getProp (.obj ld) k else publicValue this.store k :=
    fun k => publicValue_set_public env.hasSymbol this.store (.obj ld) k
  have hp' : SchemaModel.schemaProperties (m + 1)
      ⟨this.schema, SchemaModelJs.set env.hasSymbol this.store (.obj ld) false⟩
      = .ok (.obj lp) := (schemaProperties_congr (m + 1) this ⟨this.schema, _⟩ rfl).trans hp
  obtain ⟨J', hJ'⟩ := toJSON_of_fields env m
    ⟨this.schema, SchemaModelJs.set env.hasSymbol this.store (.obj ld) false⟩ true lp hp'
    (toJSON_fuel env m this true lp _ hp hj) (by
      intro k hk hdef
      simp only [hstore' k] at hdef ⊢
      by_cases hmem : k ∈ ld.map Prod.fst
      · rw [if_pos hmem]
        exact ⟨_, serializeValue_structural env m true _ (hvals k hmem).1 (hvals k hmem).2.2.1⟩
      · rw [if_neg hmem] at hdef ⊢
        obtain ⟨w, hw, _⟩ := hljv k ((hljk k).2 ⟨hk, hdef⟩)
        exact ⟨w, hw⟩)
  obtain ⟨la, hla, hlan, hlak, hlav⟩ := toJSON_fields env m _ true lp J' hp' hJ'
  subst hla
  simp only at hlak hlav
  -- both hold the same value under every key
  have hperm : la.Perm lc := by
    apply perm_of_assocGet_eq _ _ hlan hlcn
    intro k
    by_cases hk : k ∈ ld.map Prod.fst
    · have hka : k ∈ la.map Prod.fst := by
        rw [hlak k, hstore' k, if_pos hk]
        exact ⟨hdecl k hk, by simp [(hvals k hk).2.1]⟩
      obtain ⟨w, hw, hgw⟩ := hlav k hka
      rw [hstore' k, if_pos hk,
        serializeValue_structural env m true _ (hvals k hk).1 (hvals k hk).2.2.1] at hw
      injection hw with hw
      obtain ⟨v, hv', hget⟩ := hin k hk
      have hvk : v = getProp (.obj ld) k := by
        simp only [mergeVal] at hv'
        rcases (hvals k hk).2.2.2 with h1 | h1
        · rw [if_neg (by rw [h1]; simp)] at hv'
          injection hv' with hv'; exact hv'.symm
        · have h3 : isObject (getProp (.obj lj) k) = false := by
            rw [getProp_obj]
            cases hg : assocGet k lj with
            | none => rfl
            | some x =>
              have hkj : k ∈ lj.map Prod.fst := by
                rw [← assocGet_isSome_iff, hg]; rfl
              obtain ⟨w', hw', hgw'⟩ := hljv k hkj
              rw [hg] at hgw'
              injection hgw' with hgw'
              rw [Option.getD_some, hgw',
                serializeValue_not_isObject env m true _ w' h1 hw']
              exact h1
          split at hv'
          · rw [if_neg (by rw [h3]; simp)] at hv'
            injection hv' with hv'; exact hv'.symm
          · injection hv' with hv'; exact hv'.symm
      rw [hgw, hget, hvk, hw]
    · rw [hout k hk]
      have hiff : k ∈ la.map Prod.fst ↔ k ∈ lj.map Prod.fst := by
        rw [hlak k, hljk k, hstore' k, if_neg hk]
      by_cases hkj : k ∈ lj.map Prod.fst
      · obtain ⟨w, hw, hgw⟩ := hljv k hkj
        obtain ⟨w', hw', hgw'⟩ := hlav k (hiff.2 hkj)
        rw [hstore' k, if_neg hk, hw] at hw'
        injection hw' with hw'
        rw [hgw, hgw', hw']
      · rw [assocGet_eq_none k lj hkj, assocGet_eq_none k la (fun h => hkj (hiff.1 h))]
  -- the validator answers the same on both
  rw [hafter]
  have hvd := validate_data env (m + 2) this (.obj lc) schema rfl hs
  rw [hvd] at hr
  refine ⟨.obj lj, lc, la, res, hj, hc, hJ', hperm, ?_, hv⟩
  rw [validate_no_data env (m + 2)
      ⟨this.schema, SchemaModelJs.set env.hasSymbol this.store (.obj ld) false⟩ .undefined
      schema _ rfl hs hJ',
    horder _ _ schema hlan hperm]
  exact hr

/-- Witness of the amended C2: the instance of the class bound to `{properties: {name:
{type: 'string'}, child: {type: 'object'}}}` holds a model instance under `child` and
nothing under `name`; `set({name: 'b'})` returns, the snapshot that was validated is
`{child: {name: 'a'}, name: 'b'}`, the serialization afterwards is `{name: 'b', child:
{name: 'a'}}`, the same up to the order of the keys, and the instance validates. -/
theorem set_keeps_valid_witness :
    (∃ json lc lafter res,
      SchemaModel.toJSON nameEnv 5 familyInstance true = .ok json ∧
      merge 5 json (.obj [("name", .str "b")]) = .ok (.obj lc) ∧
      SchemaModel.toJSON nameEnv 5
        (SchemaModel.set nameEnv 5 familyInstance (.obj [("name", .str "b")]) .undefined
          .undefined).1 true = .ok (.obj lafter) ∧
      lafter.Perm lc ∧
      SchemaModel.validate nameEnv 5
        (SchemaModel.set nameEnv 5 familyInstance (.obj [("name", .str "b")]) .undefined
          .undefined).1 .undefined = .ok res ∧
      res.valid = true) ∧
    SchemaModel.toJSON nameEnv 5 familyInstance true
      = .ok (.obj [("child", .obj [("name", .str "a")])]) ∧
    merge 5 (.obj [("child", .obj [("name", .str "a")])]) (.obj [("name", .str "b")])
      = .ok (.obj [("child", .obj [("name", .str "a")]), ("name", .str "b")]) ∧
    SchemaModel.toJSON nameEnv 5
        (SchemaModel.set nameEnv 5 familyInstance (.obj [("name", .str "b")]) .undefined
          .undefined).1 true
      = .ok (.obj [("name", .str "b"), ("child", .obj [("name", .str "a")])]) :=
  ⟨set_keeps_valid nameEnv 3 familyInstance (.obj [("name", .str "b")]) .undefined .undefined
    DEFAULT_OPTIONS [("name", typeString), ("child", .obj [("type", .str "object")])]
    [("name", .str "b")]
    (by
      intro l l' s hn hperm
      simp only [nameEnv, nameValidator, getProp_obj, assocGet_perm "name" l l' hn hperm])
    rfl rfl rfl rfl rfl (by decide) (by decide) (by decide) rfl, rfl, rfl, rfl⟩

end SchemaModelJs
